import Mathlib

/-!
# Drachma cryptographic core: hash engines and Base58 codec

A shallow embedding of `src/core/crypto/{sha256,ripemd160,hash,base58,ecdsa,key}.cpp`.

Conventions of the embedding:
* `uint8_t` is `UInt8`; a `std::vector<uint8_t>` and a `std::string` are `List UInt8`
  (a `char` is its byte value);
* `uint32_t` / `uint64_t` values are `Nat` with an explicit `% 2^32` / `% 2^64` wherever the
  C++ arithmetic wraps;
* `int` and `size_t` indices and lengths are `Nat` (the containers are assumed to hold fewer
  than `2^31` elements, the range in which the `(int)` casts of the source are exact);
* an output parameter `out` is an extra argument and an extra component of the result.
-/

namespace Drachma

/-- The statement `buffer[bufferLen++] = v` of both hash engines, on the pair
`(buffer, bufferLen)`, for an index inside the buffer (`bufferLen < 64`), which is every store
the engines make between `Reset` and the end of `Final`. A store at an index at or beyond the
end of the buffer is outside the embedding: the C++ statement then writes outside `buffer`,
which the list cannot express. -/
def store (p : List UInt8 × Nat) (v : UInt8) : List UInt8 × Nat := (p.1.set p.2 v, p.2 + 1)

/-- The loops `while (bufferLen < n) buffer[bufferLen++] = 0` of both hash engines. -/
def zeroFill (p : List UInt8 × Nat) (n : Nat) : List UInt8 × Nat :=
  (List.replicate (n - p.2) 0).foldl store p

/-! ## sha256.cpp -/

namespace SHA256

/-- The round constants `K[64]`, the eight source rows of eight in order. -/
def K : List Nat :=
  [0x428a2f98,0x71374491,0xb5c0fbcf,0xe9b5dba5,0x3956c25b,0x59f111f1,0x923f82a4,0xab1c5ed5] ++
  [0xd807aa98,0x12835b01,0x243185be,0x550c7dc3,0x72be5d74,0x80deb1fe,0x9bdc06a7,0xc19bf174] ++
  [0xe49b69c1,0xefbe4786,0x0fc19dc6,0x240ca1cc,0x2de92c6f,0x4a7484aa,0x5cb0a9dc,0x76f988da] ++
  [0x983e5152,0xa831c66d,0xb00327c8,0xbf597fc7,0xc6e00bf3,0xd5a79147,0x06ca6351,0x14292967] ++
  [0x27b70a85,0x2e1b2138,0x4d2c6dfc,0x53380d13,0x650a7354,0x766a0abb,0x81c2c92e,0x92722c85] ++
  [0xa2bfe8a1,0xa81a664b,0xc24b8b70,0xc76c51a3,0xd192e819,0xd6990624,0xf40e3585,0x106aa070] ++
  [0x19a4c116,0x1e376c08,0x2748774c,0x34b0bcb5,0x391c0cb3,0x4ed8aa4a,0x5b9cca4f,0x682e6ff3] ++
  [0x748f82ee,0x78a5636f,0x84c87814,0x8cc70208,0x90befffa,0xa4506ceb,0xbef9a3f7,0xc67178f2]

/-- `ROTR(x, n) = (x >> n) | (x << (32 - n))` on `uint32_t`. -/
def ROTR (x n : Nat) : Nat := ((x >>> n) ||| (x <<< (32 - n))) % 2^32

/-- Bitwise complement `~x` of a `uint32_t`. -/
def not32 (x : Nat) : Nat := (x ^^^ 0xFFFFFFFF) % 2^32

/-- `Ch(x, y, z) = (x & y) ^ (~x & z)`. -/
def Ch (x y z : Nat) : Nat := (x &&& y) ^^^ (not32 x &&& z)

/-- `Maj(x, y, z) = (x & y) ^ (x & z) ^ (y & z)`. -/
def Maj (x y z : Nat) : Nat := (x &&& y) ^^^ (x &&& z) ^^^ (y &&& z)

/-- `Sigma0(x) = ROTR(x, 2) ^ ROTR(x, 13) ^ ROTR(x, 22)`. -/
def Sigma0 (x : Nat) : Nat := ROTR x 2 ^^^ ROTR x 13 ^^^ ROTR x 22

/-- `Sigma1(x) = ROTR(x, 6) ^ ROTR(x, 11) ^ ROTR(x, 25)`. -/
def Sigma1 (x : Nat) : Nat := ROTR x 6 ^^^ ROTR x 11 ^^^ ROTR x 25

/-- `sigma0(x) = ROTR(x, 7) ^ ROTR(x, 18) ^ (x >> 3)` (lower-case in the source). -/
def sigma0 (x : Nat) : Nat := ROTR x 7 ^^^ ROTR x 18 ^^^ (x >>> 3)

/-- `sigma1(x) = ROTR(x, 17) ^ ROTR(x, 19) ^ (x >> 10)` (lower-case in the source). -/
def sigma1 (x : Nat) : Nat := ROTR x 17 ^^^ ROTR x 19 ^^^ (x >>> 10)

/-- The engine: `state[8]`, `bitlen`, `buffer[64]`, `bufferLen`. -/
structure Ctx where
  state : List Nat
  bitlen : Nat
  buffer : List UInt8
  bufferLen : Nat
  deriving DecidableEq, Repr

/-- `SHA256::Reset`: sets the state words and clears both counters; the buffer is not touched. -/
def Reset (c : Ctx) : Ctx :=
  { c with
    state := [0x6a09e667, 0xbb67ae85, 0x3c6ef372, 0xa54ff53a,
              0x510e527f, 0x9b05688c, 0x1f83d9ab, 0x5be0cd19]
    bitlen := 0
    bufferLen := 0 }

/-- The constructor `SHA256::SHA256()`, which only calls `Reset`. The members are indeterminate
before it; the 64 buffer cells are taken to be zero (no cell is read before it is written). -/
def new : Ctx := Reset ⟨List.replicate 8 0, 0, List.replicate 64 0, 0⟩

/-- The first loop of `Transform`: the 16 big-endian words `m[0..15]` of a block. -/
def loadWords : List UInt8 → List Nat
  | b0 :: b1 :: b2 :: b3 :: rest =>
      ((b0.toNat <<< 24) ||| (b1.toNat <<< 16) ||| (b2.toNat <<< 8) ||| b3.toNat) :: loadWords rest
  | _ => []

/-- The second loop of `Transform`, `m[i] = sigma1(m[i-2]) + m[i-7] + sigma0(m[i-15]) + m[i-16]`,
run `n` more times on the schedule `m` computed so far. -/
def extend : Nat → List Nat → List Nat
  | 0, m => m
  | n + 1, m =>
      let i := m.length
      extend n (m ++ [(sigma1 (m.getD (i - 2) 0) + m.getD (i - 7) 0
                        + sigma0 (m.getD (i - 15) 0) + m.getD (i - 16) 0) % 2^32])

/-- One pass of the round loop on the working variables `a..h` with `K[i] + m[i]` given. -/
def round (v : List Nat) (km : Nat × Nat) : List Nat :=
  match v with
  | [a, b, c, d, e, f, g, h] =>
      let t1 := (h + Sigma1 e + Ch e f g + km.1 + km.2) % 2^32
      let t2 := (Sigma0 a + Maj a b c) % 2^32
      [(t1 + t2) % 2^32, a, b, c, (d + t1) % 2^32, e, f, g]
  | _ => v

/-- `SHA256::Transform(block)` as a function of the state words. -/
def Transform (state : List Nat) (block : List UInt8) : List Nat :=
  let m := extend 48 (loadWords (block.take 64))
  let v := (K.zip m).foldl round state
  List.zipWith (fun s x => (s + x) % 2^32) state v

/-- One pass of the loop of `Update`: store a byte, and flush the buffer when it is full. -/
def updateByte (c : Ctx) (b : UInt8) : Ctx :=
  let p := store (c.buffer, c.bufferLen) b
  if p.2 = 64 then
    { state := Transform c.state p.1, bitlen := (c.bitlen + 512) % 2^64,
      buffer := p.1, bufferLen := 0 }
  else
    { c with buffer := p.1, bufferLen := p.2 }

/-- `SHA256::Update(data, len)`. -/
def Update (c : Ctx) (data : List UInt8) : Ctx := data.foldl updateByte c

/-- The big-endian serialisation of the state words at the end of `Final`. -/
def serialize (state : List Nat) : List UInt8 :=
  state.flatMap fun s =>
    [((s >>> 24) &&& 0xFF).toUInt8, ((s >>> 16) &&& 0xFF).toUInt8,
     ((s >>> 8) &&& 0xFF).toUInt8, (s &&& 0xFF).toUInt8]

/-- `SHA256::Final(out)`: the engine it leaves and the 32 bytes it writes. -/
def Final (c : Ctx) : Ctx × List UInt8 :=
  let bitlen := (c.bitlen + c.bufferLen * 8) % 2^64
  let p := store (c.buffer, c.bufferLen) 0x80
  let flushed : List Nat × List UInt8 × Nat :=
    if p.2 > 56 then
      let p := zeroFill p 64
      (Transform c.state p.1, p.1, 0)
    else (c.state, p)
  let p := zeroFill flushed.2 56
  let p := ([7, 6, 5, 4, 3, 2, 1, 0].map fun i => ((bitlen >>> (i * 8)) &&& 0xFF).toUInt8).foldl
    store p
  let state := Transform flushed.1 p.1
  ({ state := state, bitlen := bitlen, buffer := p.1, bufferLen := p.2 }, serialize state)

/-- `SHA256::Hash(data)`: a fresh engine, one `Update`, `Final`. -/
def Hash (data : List UInt8) : List UInt8 := (Final (Update new data)).2

end SHA256

/-! ## ripemd160.cpp -/

namespace RIPEMD160

/-- The left-line round constants `K1[5]`. -/
def K1 : List Nat := [0x00000000, 0x5A827999, 0x6ED9EBA1, 0x8F1BBCDC, 0xA953FD4E]

/-- The right-line round constants `K2[5]`. -/
def K2 : List Nat := [0x50A28BE6, 0x5C4DD124, 0x6D703EF3, 0x7A6D76E9, 0x00000000]

/-- `ROTL(x, n) = (x << n) | (x >> (32 - n))` on `uint32_t`. -/
def ROTL (x n : Nat) : Nat := ((x <<< n) ||| (x >>> (32 - n))) % 2^32

/-- Bitwise complement `~x` of a `uint32_t`. -/
def not32 (x : Nat) : Nat := (x ^^^ 0xFFFFFFFF) % 2^32

/-- The round function `f(j, x, y, z)`. -/
def f (j x y z : Nat) : Nat :=
  if j ≤ 15 then x ^^^ y ^^^ z
  else if j ≤ 31 then (x &&& y) ||| (not32 x &&& z)
  else if j ≤ 47 then (x ||| not32 y) ^^^ z
  else if j ≤ 63 then (x &&& z) ||| (y &&& not32 z)
  else x ^^^ (y ||| not32 z)

/-- The message-word selection `r1[80]` of the left line. -/
def r1 : List Nat :=
  [ 0, 1, 2, 3, 4, 5, 6, 7, 8, 9,10,11,12,13,14,15,
    7, 4,13, 1,10, 6,15, 3,12, 0, 9, 5, 2,14,11, 8,
    3,10,14, 4, 9,15, 8, 1, 2, 7, 0, 6,13,11, 5,12,
    1, 9,11,10, 0, 8,12, 4,13, 3, 7,15,14, 5, 6, 2,
    4, 0, 5, 9, 7,12, 2,10,14, 1, 3, 8,11, 6,15,13]

/-- The message-word selection `r2[80]` of the right line. -/
def r2 : List Nat :=
  [ 5,14, 7, 0, 9, 2,11, 4,13, 6,15, 8, 1,10, 3,12,
    6,11, 3, 7, 0,13, 5,10,14,15, 8,12, 4, 9, 1, 2,
   15, 5, 1, 3, 7,14, 6, 9,11, 8,12, 2,10, 0, 4,13,
    8, 6, 4, 1, 3,11,15, 0, 5,12, 2,13, 9, 7,10,14,
   12,15,10, 4, 1, 5, 8, 7, 6, 2,13,14, 0, 3, 9,11]

/-- The rotation amounts `s1[80]` of the left line, as they stand in the source. -/
def s1 : List Nat :=
  [11,14,15,12, 5, 8, 7, 9,11,13,14,15, 6, 7, 9, 8,
    7, 6, 8,13,11, 9, 7,15, 7,12,15, 9,11, 7,13,12,
   11,13, 6, 7,14, 9,13,15,14, 8,13, 6, 5,12, 7, 5,
   11,12,14,15,14,15, 9, 8, 9,14, 5, 6, 8,13, 6, 5,
   12, 9,12, 5,15, 8, 8, 5,12, 9,12, 5,14, 6, 8,13]

/-- The rotation amounts `s2[80]` of the right line, as they stand in the source. -/
def s2 : List Nat :=
  [ 8, 9, 9,11,13,15,15, 5, 7, 7, 8,11,14,14,12, 6,
    9,13,15, 7,12, 8, 9,11, 7, 7,12, 7, 6,15,13,11,
    9, 7,15,11, 8, 6, 6,14,12,13, 5,14,13,13, 7, 5,
   15, 5, 8,11,14,14, 6,14, 6, 9,12, 9,12, 5,15, 8,
    8, 5,12, 9,12, 5,14, 6, 8,13, 6, 5,15, 8,11,14]

/-- The engine: `state[5]`, `bitlen`, `buffer[64]`, `bufferLen`. -/
structure Ctx where
  state : List Nat
  bitlen : Nat
  buffer : List UInt8
  bufferLen : Nat
  deriving DecidableEq, Repr

/-- `RIPEMD160::Reset`: sets the state words and clears both counters; the buffer is not
touched. -/
def Reset (c : Ctx) : Ctx :=
  { c with
    state := [0x67452301, 0xefcdab89, 0x98badcfe, 0x10325476, 0xc3d2e1f0]
    bitlen := 0
    bufferLen := 0 }

/-- The constructor `RIPEMD160::RIPEMD160()`, which only calls `Reset`. The members are
indeterminate before it; the 64 buffer cells are taken to be zero (no cell is read before it is
written). -/
def new : Ctx := Reset ⟨List.replicate 5 0, 0, List.replicate 64 0, 0⟩

/-- The first loop of `Transform`: the 16 little-endian words `X[0..15]` of a block. -/
def loadWords : List UInt8 → List Nat
  | b0 :: b1 :: b2 :: b3 :: rest =>
      (b0.toNat ||| (b1.toNat <<< 8) ||| (b2.toNat <<< 16) ||| (b3.toNat <<< 24)) :: loadWords rest
  | _ => []

/-- One pass `j` of the round loop of `Transform` on both lines `(A1..E1, A2..E2)`. -/
def round (X : List Nat) (v : List Nat × List Nat) (j : Nat) : List Nat × List Nat :=
  match v with
  | ([a1, b1, c1, d1, e1], [a2, b2, c2, d2, e2]) =>
      let t1 := (ROTL ((a1 + f j b1 c1 d1 + X.getD (r1.getD j 0) 0 + K1.getD (j / 16) 0) % 2^32)
                  (s1.getD j 0) + e1) % 2^32
      let t2 := (ROTL ((a2 + f (79 - j) b2 c2 d2 + X.getD (r2.getD j 0) 0 + K2.getD (j / 16) 0) % 2^32)
                  (s2.getD j 0) + e2) % 2^32
      ([e1, t1, b1, ROTL c1 10, d1], [e2, t2, b2, ROTL c2 10, d2])
  | _ => v

/-- `RIPEMD160::Transform(block)` as a function of the state words. -/
def Transform (state : List Nat) (block : List UInt8) : List Nat :=
  let X := loadWords (block.take 64)
  match (List.range 80).foldl (round X) (state, state), state with
  | ([a1, b1, c1, d1, e1], [a2, b2, c2, d2, e2]), [h0, h1, h2, h3, h4] =>
      [(h1 + c1 + d2) % 2^32, (h2 + d1 + e2) % 2^32, (h3 + e1 + a2) % 2^32,
       (h4 + a1 + b2) % 2^32, (h0 + b1 + c2) % 2^32]
  | _, _ => state

/-- One pass of the loop of `Update`: store a byte, and flush the buffer when it is full. -/
def updateByte (c : Ctx) (b : UInt8) : Ctx :=
  let p := store (c.buffer, c.bufferLen) b
  if p.2 = 64 then
    { state := Transform c.state p.1, bitlen := (c.bitlen + 512) % 2^64,
      buffer := p.1, bufferLen := 0 }
  else
    { c with buffer := p.1, bufferLen := p.2 }

/-- `RIPEMD160::Update(data, len)`. -/
def Update (c : Ctx) (data : List UInt8) : Ctx := data.foldl updateByte c

/-- The little-endian serialisation of the state words at the end of `Final`. -/
def serialize (state : List Nat) : List UInt8 :=
  state.flatMap fun s =>
    [(s &&& 0xFF).toUInt8, ((s >>> 8) &&& 0xFF).toUInt8,
     ((s >>> 16) &&& 0xFF).toUInt8, ((s >>> 24) &&& 0xFF).toUInt8]

/-- `RIPEMD160::Final(out)`: the engine it leaves and the 20 bytes it writes. -/
def Final (c : Ctx) : Ctx × List UInt8 :=
  let bitlen := (c.bitlen + c.bufferLen * 8) % 2^64
  let p := store (c.buffer, c.bufferLen) 0x80
  let flushed : List Nat × List UInt8 × Nat :=
    if p.2 > 56 then
      let p := zeroFill p 64
      (Transform c.state p.1, p.1, 0)
    else (c.state, p)
  let p := zeroFill flushed.2 56
  let p := ([0, 1, 2, 3, 4, 5, 6, 7].map fun i => ((bitlen >>> (8 * i)) &&& 0xFF).toUInt8).foldl
    store p
  let state := Transform flushed.1 p.1
  ({ state := state, bitlen := bitlen, buffer := p.1, bufferLen := p.2 }, serialize state)

/-- `RIPEMD160::Hash(data)`: a fresh engine, one `Update`, `Final`. -/
def Hash (data : List UInt8) : List UInt8 := (Final (Update new data)).2

end RIPEMD160

/-! ## hash.cpp -/

namespace Hash

/-- `Hash::SHA256(data)`: a fresh engine, one `Update`, `Final`. -/
def SHA256 (data : List UInt8) : List UInt8 :=
  (Drachma.SHA256.Final (Drachma.SHA256.Update Drachma.SHA256.new data)).2

/-- `Hash::SHA256D(data) = SHA256(SHA256(data))`. -/
def SHA256D (data : List UInt8) : List UInt8 :=
  let h1 := SHA256 data
  SHA256 h1

/-- `Hash::Hash160(data) = RIPEMD160::Hash(SHA256(data))`. -/
def Hash160 (data : List UInt8) : List UInt8 :=
  let sha := SHA256 data
  RIPEMD160.Hash sha

end Hash

/-! ## base58.cpp -/

namespace Base58

/-- A `char` as its byte value. -/
def chr (c : Char) : UInt8 := c.toNat.toUInt8

/-- A string literal as the bytes of a `std::string`. -/
def str (s : String) : List UInt8 := s.data.map chr

/-- The digit symbols `ALPHABET`. -/
def ALPHABET : List UInt8 :=
  str "123456789ABCDEFGHJKLMNPQRSTUVWXYZabcdefghijkmnopqrstuvwxyz"

/-- The table `MAP[256]` as `InitMap` leaves it: every entry `-1`, then `MAP[ALPHABET[i]] = i`
for `i = 0..57`. -/
def MAP : List Int :=
  (List.range 58).foldl (fun m i => m.set (ALPHABET.getD i 0).toNat (i : Int))
    (List.replicate 256 (-1))

/-- The `for` loop of `Encode` on the cells `input[start..]`: `v = input[i] + carry * 256`,
`input[i] = v / 58`, `carry = v % 58`. Returns the new cells and the last carry. -/
def divide : List UInt8 → Nat → List UInt8 × Nat
  | [], carry => ([], carry)
  | cell :: rest, carry =>
      let v := cell.toNat + carry * 256
      let r := divide rest (v % 58)
      ((v / 58).toUInt8 :: r.1, r.2)

/-- The outer `while (start < input.size())` loop of `Encode`, run for at most `fuel` passes;
`none` when the fuel runs out before the loop stops. -/
def encodeLoop : Nat → List UInt8 → Nat → List UInt8 → Option (List UInt8)
  | 0, input, start, temp => if start < input.length then none else some temp
  | fuel + 1, input, start, temp =>
      if start < input.length then
        let temp : List UInt8 := []                       -- temp.clear()
        let r := divide (input.drop start) 0
        let input := input.take start ++ r.1
        let start := start + ((input.drop start).takeWhile (· == 0)).length
        encodeLoop fuel input start (temp ++ [r.2.toUInt8])   -- temp.push_back(carry)
      else some temp

/-- `Base58::Encode(data)`. The outer loop is given `2 * data.size()` passes, which always
suffice. -/
def Encode (data : List UInt8) : Option (List UInt8) :=
  let zeros := (data.takeWhile (· == 0)).length
  match encodeLoop (2 * data.length) data zeros [] with
  | none => none
  | some temp =>
      some (List.replicate zeros (chr '1') ++ temp.reverse.map fun d => ALPHABET.getD d.toNat 0)

/-- The inner loop of `Decode` over the reverse iterator of `b256`: the cells are given
last-first; `carry += 58 * (*it)`, `*it = carry % 256`, `carry /= 256` while
`carry != 0 || j < length`. Returns the new cells (last-first), the final `j` and the final
`carry`. -/
def absorb : List UInt8 → Nat → Nat → Nat → List UInt8 × Nat × Nat
  | [], carry, j, _ => ([], j, carry)
  | cell :: rest, carry, j, length =>
      if carry ≠ 0 ∨ j < length then
        let carry := carry + 58 * cell.toNat
        let r := absorb rest (carry / 256) (j + 1) length
        ((carry % 256).toUInt8 :: r.1, r.2)
      else (cell :: rest, j, carry)

/-- The `for` loop of `Decode` over the characters after the leading `'1'`s; `none` is the
early `return false`. -/
def decodeLoop : List UInt8 → List UInt8 → Nat → Option (List UInt8)
  | [], b256, _ => some b256
  | ch :: rest, b256, length =>
      let carry := MAP.getD ch.toNat (-1)
      if carry < 0 then none
      else
        let r := absorb b256.reverse carry.toNat 0 length
        decodeLoop rest r.1.reverse r.2.1                 -- length = j

/-- `Base58::Decode(str, out)`: the returned flag and the final content of `out`. -/
def Decode (str : List UInt8) (_out : List UInt8) : Bool × List UInt8 :=
  let out : List UInt8 := []                              -- out.clear()
  let zeros := (str.takeWhile (· == chr '1')).length
  let b256 : List UInt8 := List.replicate ((str.length - zeros) * 733 / 1000 + 1) 0
  match decodeLoop (str.drop zeros) b256 0 with
  | none => (false, out)
  | some b256 => (true, List.replicate zeros 0 ++ b256.dropWhile (· == 0))

/-- `Base58::Checksum(data)`: the first four bytes of `SHA256D(data)` packed big-endian. -/
def Checksum (data : List UInt8) : Nat :=
  let h := Hash.SHA256D data
  (((h.getD 0 0).toNat <<< 24) ||| ((h.getD 1 0).toNat <<< 16) ||| ((h.getD 2 0).toNat <<< 8)
    ||| (h.getD 3 0).toNat) % 2^32

/-- `Base58::EncodeCheck(data)`. -/
def EncodeCheck (data : List UInt8) : Option (List UInt8) :=
  let cs := Checksum data
  Encode (data ++ [((cs >>> 24) &&& 0xFF).toUInt8, ((cs >>> 16) &&& 0xFF).toUInt8,
                   ((cs >>> 8) &&& 0xFF).toUInt8, (cs &&& 0xFF).toUInt8])

/-- `Base58::DecodeCheck(str, out)`: the returned flag and the final content of `out`. -/
def DecodeCheck (str : List UInt8) (out : List UInt8) : Bool × List UInt8 :=
  let r := Decode str []
  let buf := r.2
  if !r.1 || buf.length < 4 then (false, out)
  else
    let n := buf.length
    let cs1 := (((buf.getD (n - 4) 0).toNat <<< 24) ||| ((buf.getD (n - 3) 0).toNat <<< 16)
      ||| ((buf.getD (n - 2) 0).toNat <<< 8) ||| (buf.getD (n - 1) 0).toNat) % 2^32
    let buf := buf.take (n - 4)
    let cs2 := Checksum buf
    if cs1 ≠ cs2 then (false, out) else (true, buf)

end Base58

/-! ## ecdsa.cpp and key.cpp: the WIF paths

`secp256k1_ec_seckey_verify` belongs to the external curve library; it is the parameter
`verify` below. -/

/-- The members of `PrivateKey`. -/
structure PrivateKey where
  valid : Bool
  compressed : Bool
  key : List UInt8
  deriving DecidableEq, Repr

namespace PrivateKey

/-- `PrivateKey::PrivateKey()`. -/
def default : PrivateKey := ⟨false, true, List.replicate 32 0⟩

/-- `PrivateKey::PrivateKey(priv)`. When the scalar is rejected `compressed` is not assigned:
`pre` is the value the member happens to hold. -/
def ofBytes (verify : List UInt8 → Bool) (priv : List UInt8) (pre : Bool) : PrivateKey :=
  if verify priv then ⟨true, true, priv⟩ else ⟨false, pre, List.replicate 32 0⟩

/-- `PrivateKey::ToWIF`. -/
def ToWIF (k : PrivateKey) : Option (List UInt8) :=
  let buf := [0x80] ++ k.key
  let buf := if k.compressed then buf ++ [0x01] else buf
  Base58.EncodeCheck buf

/-- `PrivateKey::FromWIF(wif)`. -/
def FromWIF (verify : List UInt8 → Bool) (wif : List UInt8) : PrivateKey :=
  let r := Base58.DecodeCheck wif []
  let buf := r.2
  if !r.1 then default
  else if buf.length ≠ 33 ∧ buf.length ≠ 34 then default
  else
    let comp := false
    if buf.length = 34 ∧ buf.getLast? ≠ some 0x01 then default
    else
      let comp := if buf.length = 34 then true else comp
      let buf := if buf.length = 34 then buf.dropLast else buf
      let buf := buf.drop 1
      let priv := buf.take 32
      let pk := ofBytes verify priv comp
      { pk with compressed := comp }

end PrivateKey

/-- The members of `Key`. -/
structure Key where
  valid : Bool
  compressed : Bool
  privKey : List UInt8
  deriving DecidableEq, Repr

namespace Key

/-- `Key::Key()`. -/
def default : Key := ⟨false, true, List.replicate 32 0⟩

/-- `Key::SetPrivateKey(pk, comp)` on the key `k`: the returned flag and the key it leaves. -/
def SetPrivateKey (verify : List UInt8 → Bool) (k : Key) (pk : List UInt8) (comp : Bool) :
    Bool × Key :=
  let test := PrivateKey.ofBytes verify pk true
  if !test.valid then (false, { k with valid := false })
  else (true, ⟨true, comp, pk⟩)

/-- `Key::ToWIF`. -/
def ToWIF (k : Key) : Option (List UInt8) :=
  if !k.valid then some []
  else
    let data := [0x80] ++ k.privKey
    let data := if k.compressed then data ++ [0x01] else data
    Base58.EncodeCheck data

/-- `Key::FromWIF(wif)`. -/
def FromWIF (verify : List UInt8 → Bool) (wif : List UInt8) : Key :=
  let r := Base58.DecodeCheck wif []
  let buf := r.2
  if !r.1 then default
  else if buf.length ≠ 33 ∧ buf.length ≠ 34 then default
  else
    let comp := false
    if buf.length = 34 ∧ buf.getLast? ≠ some 0x01 then default
    else
      let comp := if buf.length = 34 then true else comp
      let buf := if buf.length = 34 then buf.dropLast else buf
      let buf := buf.drop 1
      if buf.length ≠ 32 then default
      else
        let priv := buf.take 32
        (SetPrivateKey verify default priv comp).2

end Key

/-! ## hash.cpp: HMAC -/

namespace Hash

/-- `Hash::HMAC_SHA256(key, data)`. -/
def HMAC_SHA256 (key data : List UInt8) : List UInt8 :=
  let BLOCK_SIZE := 64
  let k := key
  let k := if k.length > BLOCK_SIZE then SHA256 k else k
  let k := k.take BLOCK_SIZE ++ List.replicate (BLOCK_SIZE - k.length) 0x00   -- k.resize(64, 0)
  let o_key_pad := (List.range BLOCK_SIZE).map fun i => k.getD i 0 ^^^ 0x5c
  let i_key_pad := (List.range BLOCK_SIZE).map fun i => k.getD i 0 ^^^ 0x36
  let inner := i_key_pad ++ data
  let innerHash := SHA256 inner
  let outer := o_key_pad ++ innerHash
  SHA256 outer

end Hash

/-! ## ecdsa.cpp: DER signatures -/

/-- The members of `Signature`: `r` and `s`, 32 bytes each. -/
structure Signature where
  r : List UInt8
  s : List UInt8
  deriving DecidableEq, Repr

/-- What a run of `FromDER` can do instead of returning: index `der` at or beyond `der.size()`,
or let `memcpy` write at `rv.data() + (32 - len)` with `len > 32`, before the 32-byte vector.
`readPastEnd` is also what the public-key parser does when it reads beyond the storage it is
pointed at. -/
inductive Fault where
  | readPastEnd (index : Nat)
  | writeBeforeBuffer
  deriving DecidableEq, Repr

namespace Signature

/-- The loops `while (ri.size() > 1 && ri[0] == 0) ri.erase(ri.begin())` of `ToDER`. -/
def trim : List UInt8 → List UInt8
  | a :: b :: rest => if a == 0 then trim (b :: rest) else a :: b :: rest
  | l => l

/-- `Signature::ToDER`. -/
def ToDER (sig : Signature) : List UInt8 :=
  let out : List UInt8 := [0x30]
  let ri := trim sig.r
  let si := trim sig.s
  let len := 2 + ri.length + 2 + si.length
  let out := out ++ [len.toUInt8]
  let out := out ++ [0x02] ++ [ri.length.toUInt8] ++ ri
  out ++ [0x02] ++ [si.length.toUInt8] ++ si

/-- The read `der[p]`. -/
def readAt (der : List UInt8) (p : Nat) : Except Fault UInt8 :=
  match der[p]? with
  | some b => .ok b
  | none => .error (.readPastEnd p)

/-- The two statements `std::vector<uint8_t> rv(32, 0); memcpy(rv.data() + (32 - len), &der[p],
len)`: the vector they leave. -/
def copyField (der : List UInt8) (p len : Nat) : Except Fault (List UInt8) :=
  if len > 32 then .error .writeBeforeBuffer
  else
    let rv : List UInt8 := List.replicate 32 0
    .ok (rv.take (32 - len) ++ (der.drop p).take len)

/-- `Signature::FromDER(der, out)`: the returned flag and the final content of `out`, or the
fault the run meets first. -/
def FromDER (der : List UInt8) (out : Signature) : Except Fault (Bool × Signature) :=
  if der.length < 8 then .ok (false, out) else
  match readAt der 0 with
  | .error e => .error e
  | .ok b0 =>
  if b0 ≠ 0x30 then .ok (false, out) else
  let p := 2
  match readAt der p with
  | .error e => .error e
  | .ok tag =>
  let p := p + 1
  if tag ≠ 0x02 then .ok (false, out) else
  match readAt der p with
  | .error e => .error e
  | .ok b =>
  let rlen := b.toNat
  let p := p + 1
  if rlen ≤ 0 ∨ p + rlen > der.length then .ok (false, out) else
  match copyField der p rlen with
  | .error e => .error e
  | .ok rv =>
  let p := p + rlen
  match readAt der p with
  | .error e => .error e
  | .ok tag =>
  let p := p + 1
  if tag ≠ 0x02 then .ok (false, out) else
  match readAt der p with
  | .error e => .error e
  | .ok b =>
  let slen := b.toNat
  let p := p + 1
  if slen ≤ 0 ∨ p + slen > der.length then .ok (false, out) else
  match copyField der p slen with
  | .error e => .error e
  | .ok sv => .ok (true, ⟨rv.take 32, sv.take 32⟩)

end Signature

/-! ## key.cpp: the key record -/

namespace Key

/-- `Key::Serialize`. -/
def Serialize (k : Key) : List UInt8 :=
  let data : List UInt8 := [if k.valid then 1 else 0]
  let data := data ++ [if k.compressed then 1 else 0]
  data ++ k.privKey

/-- `Key::Deserialize(in)` on the key `k`: the returned flag and the key it leaves. -/
def Deserialize (verify : List UInt8 → Bool) (k : Key) (inp : List UInt8) : Bool × Key :=
  if inp.length ≠ 34 then (false, k)
  else
    let valid := inp.getD 0 0 != 0
    let compressed := inp.getD 1 0 != 0
    let privKey := (inp.drop 2).take 32
    let pk := PrivateKey.ofBytes verify privKey true
    if !pk.valid then (false, ⟨false, compressed, privKey⟩)
    else (true, ⟨valid, compressed, privKey⟩)

end Key

/-! ## key.cpp and ecdsa.cpp: construction from a private key, public keys, the curve order

`secp256k1_ec_pubkey_parse` and the pair `secp256k1_ecdsa_signature_parse_compact`,
`secp256k1_ecdsa_verify` belong to the external curve library; they are the parameters `header`
and `parse` (the prefix bytes the parser goes on from, and its verdict on a whole encoding) and
`ecverify` below. -/

namespace Key

/-- `Key::Key(const PrivateKey& pk)`. The source reads the scalar through `pk.GetKeyRaw()`, which
`ecdsa.h` does not declare; it is taken to return the member `key`, as the declared accessor
`GetBytes` does. -/
def ofPrivateKey (pk : PrivateKey) : Key :=
  if !pk.valid then ⟨false, true, List.replicate 32 0⟩
  else ⟨true, pk.compressed, pk.key⟩

end Key

/-- The members of `PublicKey`. -/
structure PublicKey where
  valid : Bool
  compressed : Bool
  keydata : List UInt8
  deriving DecidableEq, Repr

namespace PublicKey

/-- `PublicKey::PublicKey()`. -/
def default : PublicKey := ⟨false, true, []⟩

/-- The call `secp256k1_ec_pubkey_parse(secpCtx, &pub, input, n)` with `input` pointing at
storage that holds the bytes `mem`. The parser belongs to the external curve library; of its
reads the embedding fixes this much: it reads `input[0]`; when that byte is not a prefix of an
`n`-byte encoding (`header n` of it is false) it returns 0 without reading on; otherwise it
reads the `n` bytes and returns `parse` of them. Reading at or beyond the end of `mem` is a
fault. -/
def parseAt (header : Nat → UInt8 → Bool) (parse : List UInt8 → Bool) (mem : List UInt8)
    (n : Nat) : Except Fault Bool :=
  match mem[0]? with
  | none => .error (.readPastEnd 0)
  | some h =>
      if !header n h then .ok false
      else if mem.length < n then .error (.readPastEnd mem.length)
      else .ok (parse (mem.take n))

/-- `PublicKey::PublicKey(const std::array<uint8_t,33>& c)`, the reference `c` bound to storage
that holds the bytes `mem`: the parser is handed `c.data()`, and the 33 bytes are copied into
`keydata` only when it accepts. -/
def ofCompressed (header : Nat → UInt8 → Bool) (parse : List UInt8 → Bool) (mem : List UInt8) :
    Except Fault PublicKey :=
  match parseAt header parse mem 33 with
  | .error e => .error e
  | .ok ok => if ok then .ok ⟨true, true, mem.take 33⟩ else .ok ⟨false, true, []⟩

/-- `PublicKey::PublicKey(const std::array<uint8_t,65>& u)`, the reference `u` bound to storage
that holds the bytes `mem`: the parser is handed `u.data()`, and the 65 bytes are copied into
`keydata` only when it accepts. -/
def ofUncompressed (header : Nat → UInt8 → Bool) (parse : List UInt8 → Bool)
    (mem : List UInt8) : Except Fault PublicKey :=
  match parseAt header parse mem 65 with
  | .error e => .error e
  | .ok ok => if ok then .ok ⟨true, false, mem.take 65⟩ else .ok ⟨false, false, []⟩

/-- `PublicKey::Verify(msgHash, sig)`; `ecverify` receives the 64 bytes `r ∥ s`, the message
hash and the key bytes. -/
def Verify (header : Nat → UInt8 → Bool) (parse : List UInt8 → Bool)
    (ecverify : List UInt8 → List UInt8 → List UInt8 → Bool)
    (p : PublicKey) (msgHash : List UInt8) (sig : Signature) : Except Fault Bool :=
  if !p.valid then .ok false
  else
    match parseAt header parse p.keydata p.keydata.length with
    | .error e => .error e
    | .ok ok =>
        if !ok then .ok false
        else .ok (ecverify (sig.r.take 32 ++ sig.s.take 32) msgHash p.keydata)

end PublicKey

namespace ECDSA

/-- The constant `ECDSA::curve_n`. -/
def curve_n : List UInt8 :=
  [0xFF, 0xFF, 0xFF, 0xFF, 0xFF, 0xFF, 0xFF, 0xFF,
   0xFF, 0xFF, 0xFF, 0xFE, 0xBA, 0xAE, 0xDC, 0xE6,
   0xAF, 0x48, 0xA0, 0x3B, 0xBF, 0xD2, 0x5E, 0x8C,
   0xD0, 0x36, 0x41, 0x41, 0x02, 0xDF, 0xA9, 0x89]

/-- `ECDSA::Verify(pubkey, msg, sig)`: the constructor chosen by `pubkey.size() == 33` is given
`pubkey.data()` cast to a pointer to an array of 33 or of 65 bytes. -/
def Verify (header : Nat → UInt8 → Bool) (parse : List UInt8 → Bool)
    (ecverify : List UInt8 → List UInt8 → List UInt8 → Bool)
    (pubkey msg : List UInt8) (sig : Signature) : Except Fault Bool :=
  let p : Except Fault PublicKey :=
    if pubkey.length = 33 then PublicKey.ofCompressed header parse pubkey
    else PublicKey.ofUncompressed header parse pubkey
  match p with
  | .error e => .error e
  | .ok p => PublicKey.Verify header parse ecverify p msg sig

end ECDSA

/-! ## base58.cpp: the carry of `Decode` -/

namespace Base58

/-- The `for` loop of `Decode` once more, recording for every character the value `carry` has
when the inner loop stops (the recording ends at the early `return false`). -/
def decodeCarries : List UInt8 → List UInt8 → Nat → List Nat
  | [], _, _ => []
  | ch :: rest, b256, length =>
      let carry := MAP.getD ch.toNat (-1)
      if carry < 0 then []
      else
        let r := absorb b256.reverse carry.toNat 0 length
        r.2.2 :: decodeCarries rest r.1.reverse r.2.1

end Base58


/-! ## Specification-side definitions

What the specification speaks of, written independently of the code: block splitting, byte orders,
the padded message, the value of a Base58 text and the minimal byte representation. -/

/-- The first `n` consecutive 64-byte blocks of `l`. -/
def blocks : Nat → List UInt8 → List (List UInt8)
  | 0, _ => []
  | n + 1, l => l.take 64 :: blocks n (l.drop 64)

/-- The big-endian 64-bit encoding of `n`. -/
def be64 (n : Nat) : List UInt8 :=
  [(n / 2^56 % 256).toUInt8, (n / 2^48 % 256).toUInt8, (n / 2^40 % 256).toUInt8,
   (n / 2^32 % 256).toUInt8, (n / 2^24 % 256).toUInt8, (n / 2^16 % 256).toUInt8,
   (n / 2^8 % 256).toUInt8, (n % 256).toUInt8]

/-- The big-endian encoding of a 32-bit word. -/
def be32 (w : Nat) : List UInt8 :=
  [(w / 2^24 % 256).toUInt8, (w / 2^16 % 256).toUInt8, (w / 2^8 % 256).toUInt8,
   (w % 256).toUInt8]

/-- The number `k` of zero bytes in the padding of an `n`-byte message. -/
def padLen (n : Nat) : Nat := (64 - (n + 9) % 64) % 64

/-- The padded message `x ∥ 0x80 ∥ 0x00^k ∥ len` with the length field `len`. -/
def padWith (x len : List UInt8) : List UInt8 :=
  x ++ [0x80] ++ List.replicate (padLen x.length) 0 ++ len

/-- The integer held by byte cells given least significant first. -/
def leValue (le : List UInt8) : Nat := Nat.ofDigits 256 (le.map UInt8.toNat)

/-- The digit a Base58 symbol stands for: its index in the alphabet. -/
def digit (c : UInt8) : Nat := Base58.ALPHABET.indexOf c

/-- The base-58 integer spelled by `s`, most significant digit first, continuing from `n`. -/
def valueFrom (n : Nat) (s : List UInt8) : Nat := s.foldl (fun acc c => acc * 58 + digit c) n

/-- The minimal big-endian byte representation of `n`: no leading zero byte, no bytes for
zero. -/
def minimalBE (n : Nat) : List UInt8 := (Nat.digits 256 n).reverse.map Nat.toUInt8

/-- The integer held by bytes given most significant first. -/
def beValue (l : List UInt8) : Nat := leValue l.reverse

/-- The most significant base-58 digit of `n` (0 for `n = 0`). -/
def msd58 (n : Nat) : Nat := (Nat.digits 58 n).getLast?.getD 0

namespace RIPEMD160

/-- The rotation amounts of the left line as the RIPEMD-160 specification publishes them. -/
def s1Published : List Nat :=
  [11,14,15,12, 5, 8, 7, 9,11,13,14,15, 6, 7, 9, 8] ++
  [ 7, 6, 8,13,11, 9, 7,15, 7,12,15, 9,11, 7,13,12] ++
  [11,13, 6, 7,14, 9,13,15,14, 8,13, 6, 5,12, 7, 5] ++
  [11,12,14,15,14,15, 9, 8, 9,14, 5, 6, 8, 6, 5,12] ++
  [ 9,15, 5,11, 6, 8,13,12, 5,12,13,14,11, 8, 5, 6]

/-- The rotation amounts of the right line as the RIPEMD-160 specification publishes them. -/
def s2Published : List Nat :=
  [ 8, 9, 9,11,13,15,15, 5, 7, 7, 8,11,14,14,12, 6] ++
  [ 9,13,15, 7,12, 8, 9,11, 7, 7,12, 7, 6,15,13,11] ++
  [ 9, 7,15,11, 8, 6, 6,14,12,13, 5,14,13,13, 7, 5] ++
  [15, 5, 8,11,14,14, 6,14, 6, 9,12, 9,12, 5,15, 8] ++
  [ 8, 5,12, 9,12, 5,14, 6, 8,13, 6, 5,15,13,11,11]

/-- The pass `j` of `round` with the published rotation amounts in place of `s1` and `s2`. -/
def roundPublished (X : List Nat) (v : List Nat × List Nat) (j : Nat) : List Nat × List Nat :=
  match v with
  | ([a1, b1, c1, d1, e1], [a2, b2, c2, d2, e2]) =>
      let t1 := (ROTL ((a1 + f j b1 c1 d1 + X.getD (r1.getD j 0) 0 + K1.getD (j / 16) 0) % 2^32)
                  (s1Published.getD j 0) + e1) % 2^32
      let t2 := (ROTL ((a2 + f (79 - j) b2 c2 d2 + X.getD (r2.getD j 0) 0 + K2.getD (j / 16) 0) % 2^32)
                  (s2Published.getD j 0) + e2) % 2^32
      ([e1, t1, b1, ROTL c1 10, d1], [e2, t2, b2, ROTL c2 10, d2])
  | _ => v

/-- `Transform` with the published rotation amounts in place of `s1` and `s2`. -/
def TransformPublished (state : List Nat) (block : List UInt8) : List Nat :=
  let X := loadWords (block.take 64)
  match (List.range 80).foldl (roundPublished X) (state, state), state with
  | ([a1, b1, c1, d1, e1], [a2, b2, c2, d2, e2]), [h0, h1, h2, h3, h4] =>
      [(h1 + c1 + d2) % 2^32, (h2 + d1 + e2) % 2^32, (h3 + e1 + a2) % 2^32,
       (h4 + a1 + b2) % 2^32, (h0 + b1 + c2) % 2^32]
  | _, _ => state

end RIPEMD160

/-- The key block `K0` of HMAC: the key, or its SHA-256 digest when it is longer than 64 bytes,
right-padded with zero bytes to 64 bytes. -/
def hmacKey (key : List UInt8) : List UInt8 :=
  let k := if key.length ≤ 64 then key else Hash.SHA256 key
  k ++ List.replicate (64 - k.length) 0

/-- The bytewise exclusive or of two byte strings. -/
def xorBytes (a b : List UInt8) : List UInt8 := List.zipWith (· ^^^ ·) a b

/-- A byte string left-padded with zero bytes to 32 bytes. -/
def leftPad32 (field : List UInt8) : List UInt8 :=
  List.replicate (32 - field.length) 0 ++ field

/-- The little-endian 64-bit encoding of `n`. -/
def le64 (n : Nat) : List UInt8 :=
  [(n % 256).toUInt8, (n / 2^8 % 256).toUInt8, (n / 2^16 % 256).toUInt8,
   (n / 2^24 % 256).toUInt8, (n / 2^32 % 256).toUInt8, (n / 2^40 % 256).toUInt8,
   (n / 2^48 % 256).toUInt8, (n / 2^56 % 256).toUInt8]

/-- The little-endian encoding of a 32-bit word. -/
def le32 (w : Nat) : List UInt8 :=
  [(w % 256).toUInt8, (w / 2^8 % 256).toUInt8, (w / 2^16 % 256).toUInt8,
   (w / 2^24 % 256).toUInt8]

/-- The order `n` of the secp256k1 group. -/
def secp256k1_n : Nat := 0xFFFFFFFFFFFFFFFFFFFFFFFFFFFFFFFEBAAEDCE6AF48A03BBFD25E8CD0364141

/-- The big-endian encoding of `n` in `len` bytes. -/
def beBytes : Nat → Nat → List UInt8
  | 0, _ => []
  | len + 1, n => (n / 256 ^ len % 256).toUInt8 :: beBytes len n

/-- The validity invariant of a `PrivateKey`: marked valid only with an accepted scalar. -/
def PrivateKey.Inv (verify : List UInt8 → Bool) (k : PrivateKey) : Prop :=
  k.valid = true → verify k.key = true

/-- The validity invariant of a `Key`: marked valid only with an accepted scalar. -/
def Key.Inv (verify : List UInt8 → Bool) (k : Key) : Prop :=
  k.valid = true → verify k.privKey = true

/-- The private keys obtained from the two constructors and `PrivateKey::FromWIF`. -/
inductive PrivateKey.Reachable (verify : List UInt8 → Bool) : PrivateKey → Prop
  | default : PrivateKey.Reachable verify PrivateKey.default
  | ofBytes (priv : List UInt8) (pre : Bool) :
      PrivateKey.Reachable verify (PrivateKey.ofBytes verify priv pre)
  | FromWIF (wif : List UInt8) : PrivateKey.Reachable verify (PrivateKey.FromWIF verify wif)

/-- The keys obtained from the two constructors and `Key::FromWIF`, followed by any number of
calls of `Key::SetPrivateKey` and `Key::Deserialize`, whatever they return. -/
inductive Key.Reachable (verify : List UInt8 → Bool) : Key → Prop
  | default : Key.Reachable verify Key.default
  | ofPrivateKey (pk : PrivateKey) :
      PrivateKey.Reachable verify pk → Key.Reachable verify (Key.ofPrivateKey pk)
  | FromWIF (wif : List UInt8) : Key.Reachable verify (Key.FromWIF verify wif)
  | SetPrivateKey (k : Key) (pk : List UInt8) (comp : Bool) :
      Key.Reachable verify k → Key.Reachable verify (Key.SetPrivateKey verify k pk comp).2
  | Deserialize (k : Key) (inp : List UInt8) :
      Key.Reachable verify k → Key.Reachable verify (Key.Deserialize verify k inp).2

/-- Modelled from the spec: `ValidateScalar` of the external curve library
(`secp256k1_ec_seckey_verify`), which accepts the 32-byte big-endian scalars that are non-zero
and less than the secp256k1 group order. -/
def ValidateScalar (priv : List UInt8) : Bool :=
  priv.length = 32 ∧ 0 < beValue priv ∧
    beValue priv < 0xFFFFFFFFFFFFFFFFFFFFFFFFFFFFFFFEBAAEDCE6AF48A03BBFD25E8CD0364141

open Base58

set_option maxRecDepth 100000

/-! ## RIPEMD-160: known answers -/

/-- C5 (as the code behaves). `RIPEMD160::Hash` of the empty input is
`fd7b91aff60ffecb051392219597288b3581ea5d` and of `"abc"` is
`dbc04754e7347b919a43acc0a7dd45eb04bebdd9`: neither is the published RIPEMD-160 digest
(`9c1185a5…` and `8eb208f7…`). The empty input is hashed as one `Transform` of the block
`0x80 ∥ 0x00^63`; the same `Transform` with the published rotation amounts gives the published
digest, and the source's `s1`, `s2` differ from the published ones at the listed indices. -/
theorem RIPEMD160_Hash_vectors :
    RIPEMD160.Hash [] =
      [0xfd, 0x7b, 0x91, 0xaf, 0xf6, 0x0f, 0xfe, 0xcb, 0x05, 0x13,
       0x92, 0x21, 0x95, 0x97, 0x28, 0x8b, 0x35, 0x81, 0xea, 0x5d] ∧
    RIPEMD160.Hash (Base58.str "abc") =
      [0xdb, 0xc0, 0x47, 0x54, 0xe7, 0x34, 0x7b, 0x91, 0x9a, 0x43,
       0xac, 0xc0, 0xa7, 0xdd, 0x45, 0xeb, 0x04, 0xbe, 0xbd, 0xd9] ∧
    RIPEMD160.Hash [] =
      RIPEMD160.serialize (RIPEMD160.Transform RIPEMD160.new.state (0x80 :: List.replicate 63 0)) ∧
    RIPEMD160.serialize
        (RIPEMD160.TransformPublished RIPEMD160.new.state (0x80 :: List.replicate 63 0)) =
      [0x9c, 0x11, 0x85, 0xa5, 0xc5, 0xe9, 0xfc, 0x54, 0x61, 0x28,
       0x08, 0x97, 0x7e, 0xe8, 0xf5, 0x48, 0xb2, 0x25, 0x8d, 0x31] ∧
    (List.range 80).filter (fun j => RIPEMD160.s1.getD j 0 != RIPEMD160.s1Published.getD j 0)
      = [61, 62, 63, 64, 65, 66, 67, 68, 70, 71, 72, 73, 74, 75, 76, 77, 78, 79] ∧
    (List.range 80).filter (fun j => RIPEMD160.s2.getD j 0 != RIPEMD160.s2Published.getD j 0)
      = [77, 79] := by
  refine ⟨by decide!, by decide!, by decide!, by decide!, by decide!, by decide!⟩

/-! ## Hash engines: chunking and padding -/

/-- C7. For both hash engines, `Update(a)` followed by `Update(b)` leaves the engine in the
same state (all of it: state words, buffer, buffered count, bit length) as one
`Update(a ∥ b)`, so `Final` leaves the same engine and returns the same digest. -/
theorem Update_Update_eq_Update_append (c : SHA256.Ctx) (d : RIPEMD160.Ctx) (a b : List UInt8) :
    SHA256.Update (SHA256.Update c a) b = SHA256.Update c (a ++ b) ∧
    RIPEMD160.Update (RIPEMD160.Update d a) b = RIPEMD160.Update d (a ++ b) ∧
    SHA256.Final (SHA256.Update (SHA256.Update c a) b) = SHA256.Final (SHA256.Update c (a ++ b)) ∧
    RIPEMD160.Final (RIPEMD160.Update (RIPEMD160.Update d a) b)
      = RIPEMD160.Final (RIPEMD160.Update d (a ++ b)) := by
  simp [SHA256.Update, RIPEMD160.Update, List.foldl_append]

theorem take_succ_set (buf : List UInt8) (p : Nat) (v : UInt8) (h : p < buf.length) :
    (buf.set p v).take (p + 1) = buf.take p ++ [v] := by
  rw [List.set_eq_take_append_cons_drop, if_pos h]
  have : (List.take p buf).length = p := by simp; omega
  rw [List.take_append_eq_append_take, this]
  simp [List.take_of_length_le (by omega : (List.take p buf).length ≤ p + 1)]

theorem store_foldl (vals : List UInt8) : ∀ (buf : List UInt8) (p : Nat),
    p + vals.length ≤ buf.length →
    vals.foldl store (buf, p) = (buf.take p ++ vals ++ buf.drop (p + vals.length), p + vals.length) := by
  induction vals with
  | nil => intro buf p _; simp
  | cons v vs ih =>
    intro buf p h
    simp only [List.length_cons] at h
    have hp : p < buf.length := by omega
    rw [List.foldl_cons, store, ih _ _ (by simp; omega)]
    simp only [List.length_cons, Prod.mk.injEq]
    refine ⟨?_, by omega⟩
    rw [take_succ_set _ _ _ hp, List.drop_set_of_lt _ _ (by omega : p < p + 1 + vs.length)]
    have : p + 1 + vs.length = p + (vs.length + 1) := by omega
    simp [this]

theorem blocks_append (a : Nat) : ∀ (m : Nat) (l : List UInt8),
    blocks (a + m) l = blocks a l ++ blocks m (l.drop (64 * a)) := by
  induction a with
  | zero => intro m l; simp [blocks]
  | succ a ih =>
    intro m l
    have : a + 1 + m = (a + m) + 1 := by omega
    rw [this, blocks, blocks, ih, List.drop_drop]
    have : 64 + 64 * a = 64 * (a + 1) := by omega
    simp [this]

theorem blocks_append_left (a : Nat) : ∀ (l t : List UInt8), 64 * a ≤ l.length →
    blocks a (l ++ t) = blocks a l := by
  induction a with
  | zero => intro l t _; rfl
  | succ a ih =>
    intro l t h
    rw [blocks, blocks, List.take_append_of_le_length (by omega),
      List.drop_append_of_le_length (by omega), ih _ _ (by simp; omega)]

theorem SHA256_Update_spec (x : List UInt8) : ∀ (c : SHA256.Ctx),
    c.buffer.length = 64 → c.bufferLen < 64 → c.bitlen < 2^64 →
    (SHA256.Update c x).state =
        (blocks ((c.bufferLen + x.length) / 64) (c.buffer.take c.bufferLen ++ x)).foldl
          SHA256.Transform c.state ∧
      (SHA256.Update c x).bufferLen = (c.bufferLen + x.length) % 64 ∧
      (SHA256.Update c x).buffer.take ((c.bufferLen + x.length) % 64) =
        (c.buffer.take c.bufferLen ++ x).drop (64 * ((c.bufferLen + x.length) / 64)) ∧
      (SHA256.Update c x).buffer.length = 64 ∧
      (SHA256.Update c x).bitlen = (c.bitlen + 512 * ((c.bufferLen + x.length) / 64)) % 2^64 := by
  induction x with
  | nil =>
    intro c hlen hb hbl
    have h0 : c.bufferLen / 64 = 0 := by omega
    have h1 : c.bufferLen % 64 = c.bufferLen := by omega
    simp [SHA256.Update, h0, h1, blocks, hlen]
    omega
  | cons b x ih =>
    intro c hlen hb hbl
    have hU : SHA256.Update c (b :: x) = SHA256.Update (SHA256.updateByte c b) x := rfl
    have hP : (2:Nat)^64 = 18446744073709551616 := by norm_num
    rw [hU]
    by_cases h64 : c.bufferLen + 1 = 64
    · have hc : SHA256.updateByte c b =
          { state := SHA256.Transform c.state (c.buffer.set c.bufferLen b),
            bitlen := (c.bitlen + 512) % 2^64,
            buffer := c.buffer.set c.bufferLen b, bufferLen := 0 } := by
        simp [SHA256.updateByte, store, h64]
      rw [hc]
      obtain ⟨i1, i2, i3, i4, i5⟩ := ih
        ⟨SHA256.Transform c.state (c.buffer.set c.bufferLen b), (c.bitlen + 512) % 2^64,
          c.buffer.set c.bufferLen b, 0⟩ (by simp [hlen]) (by simp) (Nat.mod_lt _ (by norm_num))
      simp only [List.take_zero, List.nil_append, Nat.zero_add] at i1 i2 i3 i5
      have hfull : c.buffer.set c.bufferLen b = c.buffer.take c.bufferLen ++ [b] := by
        have := take_succ_set c.buffer c.bufferLen b (by omega)
        rw [← this, List.take_of_length_le (by simp; omega)]
      have hq : (c.bufferLen + (b :: x).length) / 64 = x.length / 64 + 1 := by
        simp only [List.length_cons]; omega
      have hr : (c.bufferLen + (b :: x).length) % 64 = x.length % 64 := by
        simp only [List.length_cons]; omega
      have hl : (List.take c.bufferLen c.buffer).length = c.bufferLen := by simp; omega
      have htake : (List.take c.bufferLen c.buffer ++ b :: x).take 64
          = c.buffer.take c.bufferLen ++ [b] := by
        have : List.take c.bufferLen c.buffer ++ b :: x
            = (List.take c.bufferLen c.buffer ++ [b]) ++ x := by simp
        rw [this, List.take_left' (by simp; omega)]
      have hdrop : (List.take c.bufferLen c.buffer ++ b :: x).drop 64 = x := by
        have : List.take c.bufferLen c.buffer ++ b :: x
            = (List.take c.bufferLen c.buffer ++ [b]) ++ x := by simp
        rw [this, List.drop_left' (by simp; omega)]
      refine ⟨?_, ?_, ?_, i4, ?_⟩
      · rw [i1, hq, blocks, List.foldl_cons, htake, hdrop, hfull]
      · rw [i2, hr]
      · rw [hr, i3, hq]
        have : 64 * (x.length / 64 + 1) = 64 + 64 * (x.length / 64) := by omega
        rw [this, ← List.drop_drop, hdrop]
      · rw [i5, hq, hP]; omega
    · have hc : SHA256.updateByte c b =
          { c with buffer := c.buffer.set c.bufferLen b, bufferLen := c.bufferLen + 1 } := by
        simp [SHA256.updateByte, store, h64]
      rw [hc]
      obtain ⟨i1, i2, i3, i4, i5⟩ := ih
        ⟨c.state, c.bitlen, c.buffer.set c.bufferLen b, c.bufferLen + 1⟩ (by simp [hlen])
        (by simp; omega) hbl
      simp only [take_succ_set c.buffer c.bufferLen b (by omega), List.append_assoc,
        List.singleton_append] at i1 i2 i3 i5
      have hq : c.bufferLen + (b :: x).length = c.bufferLen + 1 + x.length := by
        simp only [List.length_cons]; omega
      rw [hq]
      exact ⟨i1, i2, i3, i4, i5⟩




theorem and_255 (n : Nat) : n &&& 0xFF = n % 256 :=
  Nat.and_pow_two_sub_one_eq_mod n 8

theorem SHA256_lenBytes (n : Nat) :
    ([7, 6, 5, 4, 3, 2, 1, 0].map fun i => ((n >>> (i * 8)) &&& 0xFF).toUInt8) = be64 n := by
  simp [be64, and_255, Nat.shiftRight_eq_div_pow]

theorem zeroFill_eq (buf : List UInt8) (p n : Nat) (hp : p ≤ n) (hn : n ≤ buf.length) :
    zeroFill (buf, p) n = (buf.take p ++ List.replicate (n - p) 0 ++ buf.drop n, n) := by
  rw [zeroFill, store_foldl _ _ _ (by simp; omega)]
  simp
  constructor
  · congr 1; omega
  · omega

theorem take_all (n : Nat) (l : List UInt8) (h : l.length ≤ n) : l.take n = l :=
  List.take_of_length_le h

theorem final_block (X D L : List UInt8) (hX : X.length = 56) (hD : D.length = 8)
    (hL : L.length = 8) :
    List.take 56 (X ++ D) ++ L ++ List.drop (56 + L.length) (X ++ D) = X ++ L := by
  rw [List.take_left' hX, List.drop_of_length_le (by simp; omega), List.append_nil]

theorem SHA256_Final_spec (c : SHA256.Ctx) (hlen : c.buffer.length = 64) (hb : c.bufferLen < 64) :
    (SHA256.Final c).2 = SHA256.serialize
      ((blocks ((c.bufferLen + 1 + padLen c.bufferLen + 8) / 64)
          (padWith (c.buffer.take c.bufferLen) (be64 ((c.bitlen + c.bufferLen * 8) % 2^64)))).foldl
        SHA256.Transform c.state) := by
  have hpl : (List.take c.bufferLen c.buffer).length = c.bufferLen := by simp; omega
  have hbe : ∀ n, (be64 n).length = 8 := fun n => rfl
  have h1 : (c.buffer.set c.bufferLen 0x80).take (c.bufferLen + 1)
      = c.buffer.take c.bufferLen ++ [0x80] := take_succ_set _ _ _ (by omega)
  have hl1 : (c.buffer.set c.bufferLen 0x80).length = 64 := by simp [hlen]
  unfold SHA256.Final
  simp only [SHA256_lenBytes, store]
  by_cases h56 : c.bufferLen + 1 > 56
  · have hk : padLen c.bufferLen = (63 - c.bufferLen) + 56 := by unfold padLen; omega
    have hq : (c.bufferLen + 1 + padLen c.bufferLen + 8) / 64 = 2 := by rw [hk]; omega
    have hz1 := zeroFill_eq (c.buffer.set c.bufferLen 0x80) (c.bufferLen + 1) 64 (by omega) (by omega)
    rw [h1, List.drop_of_length_le (by omega), List.append_nil] at hz1
    have hz2 := zeroFill_eq (List.take c.bufferLen c.buffer ++ [0x80]
      ++ List.replicate (64 - (c.bufferLen + 1)) 0) 0 56 (by omega) (by simp; omega)
    rw [if_pos h56, hq]
    simp only [hz1, hz2]
    rw [store_foldl _ _ _ (by simp [hbe]; omega)]
    simp only [blocks, padWith, hk, List.foldl_cons, List.foldl_nil, hpl]
    have e1 : 64 - (c.bufferLen + 1) = 63 - c.bufferLen := by omega
    rw [e1, List.replicate_add]
    simp only [List.take_zero, List.nil_append, Nat.sub_zero]
    rw [final_block _ _ _ (by simp) (by simp; omega) (hbe _)]
    have e2 : List.take c.bufferLen c.buffer ++ [0x80]
        ++ (List.replicate (63 - c.bufferLen) 0 ++ List.replicate 56 0)
        ++ be64 ((c.bitlen + c.bufferLen * 8) % 2 ^ 64)
        = (List.take c.bufferLen c.buffer ++ [0x80] ++ List.replicate (63 - c.bufferLen) 0)
          ++ (List.replicate 56 0 ++ be64 ((c.bitlen + c.bufferLen * 8) % 2 ^ 64)) := by
      simp only [List.append_assoc]
    rw [e2, List.take_left' (by simp; omega), List.drop_left' (by simp; omega),
      take_all 64 (List.replicate 56 0 ++ be64 ((c.bitlen + c.bufferLen * 8) % 2 ^ 64))
        (by simp [hbe])]
  · have hk : padLen c.bufferLen = 55 - c.bufferLen := by unfold padLen; omega
    have hq : (c.bufferLen + 1 + padLen c.bufferLen + 8) / 64 = 1 := by rw [hk]; omega
    have hz1 := zeroFill_eq (c.buffer.set c.bufferLen 0x80) (c.bufferLen + 1) 56 (by omega) (by omega)
    rw [h1] at hz1
    rw [if_neg h56, hq]
    simp only [hz1]
    rw [store_foldl _ _ _ (by simp [hbe]; omega)]
    simp only [blocks, padWith, hk, List.foldl_cons, List.foldl_nil, hpl]
    have e1 : 56 - (c.bufferLen + 1) = 55 - c.bufferLen := by omega
    rw [e1, final_block _ _ _ (by simp; omega) (by simp; omega) (hbe _),
      take_all 64 (List.take c.bufferLen c.buffer ++ [0x80] ++ List.replicate (55 - c.bufferLen) 0
        ++ be64 ((c.bitlen + c.bufferLen * 8) % 2 ^ 64)) (by simp [hbe]; omega)]

/-- C4. `SHA256::Hash` of the empty byte sequence is
`e3b0c44298fc1c149afbf4c8996fb92427ae41e4649b934ca495991b7852b855`; so is `Final` on a fresh
engine with no `Update` at all, and so it is whatever the 64 buffer cells hold when the
constructor runs `Reset`. -/
theorem SHA256_Hash_empty :
    SHA256.Hash [] =
      [0xe3, 0xb0, 0xc4, 0x42, 0x98, 0xfc, 0x1c, 0x14, 0x9a, 0xfb, 0xf4, 0xc8, 0x99, 0x6f, 0xb9, 0x24,
       0x27, 0xae, 0x41, 0xe4, 0x64, 0x9b, 0x93, 0x4c, 0xa4, 0x95, 0x99, 0x1b, 0x78, 0x52, 0xb8, 0x55] ∧
    (SHA256.Final SHA256.new).2 = SHA256.Hash [] ∧
    ∀ c : SHA256.Ctx, c.buffer.length = 64 →
      (SHA256.Final (SHA256.Update (SHA256.Reset c) [])).2 = SHA256.Hash [] := by
  refine ⟨by decide!, rfl, ?_⟩
  intro c hlen
  have h1 := SHA256_Final_spec (SHA256.Reset c) hlen (show 0 < 64 by decide)
  have h2 := SHA256_Final_spec SHA256.new rfl (by decide)
  exact h1.trans h2.symm

theorem padWith_length (x len : List UInt8) :
    (padWith x len).length = x.length + 1 + padLen x.length + len.length := by
  simp [padWith]; omega

theorem padWith_drop (x len : List UInt8) (q : Nat) (hq : 64 * q ≤ x.length) :
    (padWith x len).drop (64 * q) = padWith (x.drop (64 * q)) len := by
  have hk : padLen (x.drop (64 * q)).length = padLen x.length := by
    simp only [List.length_drop, padLen]; omega
  simp only [padWith, hk, List.append_assoc]
  rw [List.drop_append_of_le_length hq]

theorem SHA256_serialize_eq (state : List Nat) :
    SHA256.serialize state = state.flatMap be32 := by
  unfold SHA256.serialize
  congr 1
  funext s
  simp [be32, and_255, Nat.shiftRight_eq_div_pow]

theorem SHA256_round_length (v : List Nat) (km : Nat × Nat) :
    (SHA256.round v km).length = v.length := by
  unfold SHA256.round
  split <;> simp

theorem SHA256_Transform_length (state : List Nat) (block : List UInt8) :
    (SHA256.Transform state block).length = state.length := by
  have h : ∀ (l : List (Nat × Nat)) (v : List Nat), (l.foldl SHA256.round v).length = v.length := by
    intro l
    induction l with
    | nil => intro v; rfl
    | cons a l ih => intro v; rw [List.foldl_cons, ih, SHA256_round_length]
  simp [SHA256.Transform, h]

theorem SHA256_foldl_Transform_length (bs : List (List UInt8)) (state : List Nat) :
    (bs.foldl SHA256.Transform state).length = state.length := by
  induction bs generalizing state with
  | nil => rfl
  | cons b bs ih => rw [List.foldl_cons, ih, SHA256_Transform_length]

theorem flatMap_be32_length (state : List Nat) : (state.flatMap be32).length = 4 * state.length := by
  induction state with
  | nil => rfl
  | cons w ws ih => simp [List.flatMap_cons, be32, ih]; omega

/-- C6. For every `x` of fewer than `2^61` bytes, a fresh SHA256 engine (the constructor's
`Reset`, whatever the 64 buffer cells hold) after `Update(x)` and `Final` returns the big-endian
serialisation of the state words obtained by folding `Transform`, from the initial constants,
over the consecutive 64-byte blocks of `x ∥ 0x80 ∥ 0x00^k ∥ be64(8·|x|)`: 32 bytes; the padded
length is a multiple of 64 and `k = padLen |x|` is the least number of zero bytes for which it
is. -/
theorem SHA256_Final_Update_padded (c : SHA256.Ctx) (x : List UInt8)
    (hc : c.buffer.length = 64) (h : x.length < 2^61) :
    (SHA256.Final (SHA256.Update (SHA256.Reset c) x)).2 =
      ((blocks ((padWith x (be64 (8 * x.length))).length / 64)
          (padWith x (be64 (8 * x.length)))).foldl SHA256.Transform
        [0x6a09e667, 0xbb67ae85, 0x3c6ef372, 0xa54ff53a,
         0x510e527f, 0x9b05688c, 0x1f83d9ab, 0x5be0cd19]).flatMap be32 ∧
    (SHA256.Final (SHA256.Update (SHA256.Reset c) x)).2.length = 32 ∧
    (padWith x (be64 (8 * x.length))).length % 64 = 0 ∧
    ∀ k < padLen x.length, (x.length + 1 + k + 8) % 64 ≠ 0 := by
  have hP : (2:Nat)^64 = 18446744073709551616 := by norm_num
  have hP61 : (2:Nat)^61 = 2305843009213693952 := by norm_num
  rw [hP61] at h
  have hbe : ∀ n, (be64 n).length = 8 := fun n => rfl
  have main : (SHA256.Final (SHA256.Update (SHA256.Reset c) x)).2 =
      ((blocks ((padWith x (be64 (8 * x.length))).length / 64)
          (padWith x (be64 (8 * x.length)))).foldl SHA256.Transform
        [0x6a09e667, 0xbb67ae85, 0x3c6ef372, 0xa54ff53a,
         0x510e527f, 0x9b05688c, 0x1f83d9ab, 0x5be0cd19]).flatMap be32 := ?_
  refine ⟨main, ?_, ?_, ?_⟩
  · rw [main, flatMap_be32_length, SHA256_foldl_Transform_length]; rfl
  rotate_left 2
  · obtain ⟨u1, u2, u3, u4, u5⟩ := SHA256_Update_spec x (SHA256.Reset c) hc
      (show 0 < 64 by decide) (show 0 < 2 ^ 64 by norm_num)
    have hn0 : (SHA256.Reset c).bufferLen = 0 := rfl
    have hn1 : (SHA256.Reset c).bitlen = 0 := rfl
    have hn2 : (SHA256.Reset c).state = [0x6a09e667, 0xbb67ae85, 0x3c6ef372, 0xa54ff53a,
           0x510e527f, 0x9b05688c, 0x1f83d9ab, 0x5be0cd19] := rfl
    simp only [hn0, hn1, hn2, List.take_zero, List.nil_append, Nat.zero_add] at u1 u2 u3 u5
    rw [SHA256_Final_spec _ u4 (by rw [u2]; omega), u1, u2, u3, u5, SHA256_serialize_eq]
    have hlen : (512 * (x.length / 64) % 2 ^ 64 + x.length % 64 * 8) % 2 ^ 64 = 8 * x.length := by
      rw [hP]; omega
    have hk : padLen (x.length % 64) = padLen x.length := by unfold padLen; omega
    rw [hlen, ← List.foldl_append,
      ← padWith_drop x (be64 (8 * x.length)) (x.length / 64) (by omega)]
    congr 2
    have hq : (padWith x (be64 (8 * x.length))).length / 64
        = x.length / 64 + (x.length % 64 + 1 + padLen (x.length % 64) + 8) / 64 := by
      rw [padWith_length, hbe, hk]; unfold padLen; omega
    rw [hq, blocks_append]
    congr 1
    have hx : 64 * (x.length / 64) ≤ x.length := by omega
    have := blocks_append_left (x.length / 64) x
      ([0x80] ++ List.replicate (padLen x.length) 0 ++ be64 (8 * x.length)) hx
    simp only [padWith, List.append_assoc] at this ⊢
    exact this.symm
  · rw [padWith_length, hbe]; unfold padLen; omega
  · intro k hk; unfold padLen at hk; omega

/-- Witness for C6: the engine `SHA256.new` and the three bytes `"abc"` (one padded block,
`k = 52`). -/
theorem SHA256_Final_Update_padded_witness :
    (SHA256.Final (SHA256.Update SHA256.new (Base58.str "abc"))).2 =
      ((blocks ((padWith (Base58.str "abc") (be64 (8 * (Base58.str "abc").length))).length / 64)
          (padWith (Base58.str "abc") (be64 (8 * (Base58.str "abc").length)))).foldl
        SHA256.Transform
        [0x6a09e667, 0xbb67ae85, 0x3c6ef372, 0xa54ff53a,
         0x510e527f, 0x9b05688c, 0x1f83d9ab, 0x5be0cd19]).flatMap be32 ∧
    (SHA256.Final (SHA256.Update SHA256.new (Base58.str "abc"))).2.length = 32 ∧
    (padWith (Base58.str "abc") (be64 (8 * (Base58.str "abc").length))).length % 64 = 0 ∧
    ∀ k < padLen (Base58.str "abc").length, ((Base58.str "abc").length + 1 + k + 8) % 64 ≠ 0 :=
  SHA256_Final_Update_padded ⟨List.replicate 8 0, 0, List.replicate 64 0, 0⟩ (Base58.str "abc")
    (by decide) (by decide)

/-! ## Base58: decoding -/

theorem toUInt8_toNat (n : Nat) : n.toUInt8.toNat = n % 256 := by
  simp [Nat.toUInt8, UInt8.toNat, UInt8.ofNat, Fin.ofNat]

theorem toNat_toUInt8 (c : UInt8) : c.toNat.toUInt8 = c := by
  cases c with
  | mk v => simp [Nat.toUInt8, UInt8.toNat, UInt8.ofNat, Fin.ofNat]

theorem toNat_lt (c : UInt8) : c.toNat < 256 := c.val.isLt

theorem toNat_eq_zero (c : UInt8) : c.toNat = 0 ↔ c = 0 := by
  constructor
  · intro h; rw [← toNat_toUInt8 c, h]; rfl
  · intro h; rw [h]; rfl


theorem leValue_cons (c : UInt8) (le : List UInt8) :
    leValue (c :: le) = c.toNat + 256 * leValue le := by
  simp [leValue, Nat.ofDigits_cons]

theorem leValue_zero (le : List UInt8) (h : ∀ c ∈ le, c = 0) : leValue le = 0 := by
  induction le with
  | nil => rfl
  | cons c le ih =>
    rw [leValue_cons, ih (fun x hx => h x (List.mem_cons_of_mem _ hx)), h c (List.mem_cons_self _ _)]
    rfl

theorem leValue_lt (le : List UInt8) : leValue le < 256 ^ le.length := by
  have := Nat.ofDigits_lt_base_pow_length (b := 256) (l := le.map UInt8.toNat) (by norm_num)
    (fun x hx => by
      obtain ⟨c, -, rfl⟩ := List.mem_map.mp hx
      exact toNat_lt c)
  simpa [leValue] using this

theorem absorb_spec (le : List UInt8) : ∀ (carry j length : Nat),
    (∀ c ∈ le.drop (length - j), c = 0) →
    (absorb le carry j length).1.length = le.length ∧
    leValue (absorb le carry j length).1 + 256 ^ le.length * (absorb le carry j length).2.2
      = carry + 58 * leValue le ∧
    j ≤ (absorb le carry j length).2.1 ∧
    (∀ c ∈ (absorb le carry j length).1.drop ((absorb le carry j length).2.1 - j), c = 0) := by
  induction le with
  | nil =>
    intro carry j length _
    simp [absorb, leValue]
  | cons cell rest ih =>
    intro carry j length hz
    by_cases hc : carry ≠ 0 ∨ j < length
    · have hz' : ∀ c ∈ rest.drop (length - (j + 1)), c = 0 := by
        intro c hcm
        apply hz
        rcases Nat.eq_zero_or_pos (length - j) with h0 | hpos
        · rw [h0]
          exact List.mem_cons_of_mem _ (List.mem_of_mem_drop hcm)
        · have : length - j = (length - (j + 1)) + 1 := by omega
          rw [this, List.drop_succ_cons]
          exact hcm
      obtain ⟨i1, i2, i3, i4⟩ := ih ((carry + 58 * cell.toNat) / 256) (j + 1) length hz'
      simp only [absorb, if_pos hc]
      refine ⟨by simp [i1], ?_, by omega, ?_⟩
      · rw [leValue_cons, leValue_cons, toUInt8_toNat, Nat.mod_mod, List.length_cons, pow_succ]
        have e := Nat.mod_add_div (carry + 58 * cell.toNat) 256
        calc (carry + 58 * cell.toNat) % 256
              + 256 * leValue (absorb rest ((carry + 58 * cell.toNat) / 256) (j + 1) length).1
              + 256 ^ rest.length * 256
                * (absorb rest ((carry + 58 * cell.toNat) / 256) (j + 1) length).2.2
            = (carry + 58 * cell.toNat) % 256
              + 256 * (leValue (absorb rest ((carry + 58 * cell.toNat) / 256) (j + 1) length).1
                + 256 ^ rest.length
                  * (absorb rest ((carry + 58 * cell.toNat) / 256) (j + 1) length).2.2) := by ring
          _ = (carry + 58 * cell.toNat) % 256
              + 256 * ((carry + 58 * cell.toNat) / 256 + 58 * leValue rest) := by rw [i2]
          _ = ((carry + 58 * cell.toNat) % 256 + 256 * ((carry + 58 * cell.toNat) / 256))
              + 256 * (58 * leValue rest) := by ring
          _ = carry + 58 * (cell.toNat + 256 * leValue rest) := by rw [e]; ring
      · intro c hcm
        apply i4
        have : (absorb rest ((carry + 58 * cell.toNat) / 256) (j + 1) length).2.1 - j
            = ((absorb rest ((carry + 58 * cell.toNat) / 256) (j + 1) length).2.1 - (j + 1)) + 1 := by
          omega
        rw [this, List.drop_succ_cons] at hcm
        exact hcm
    · have hc0 : carry = 0 := by
        by_contra h; exact hc (Or.inl h)
      have hj : length - j = 0 := by
        have : ¬ j < length := fun h => hc (Or.inr h)
        omega
      rw [hj, List.drop_zero] at hz
      simp only [absorb, if_neg hc]
      refine ⟨trivial, ?_, le_refl _, by simpa using hz⟩
      rw [leValue_zero _ hz, hc0]
      simp

theorem absorb_no_overflow (le : List UInt8) (carry length : Nat)
    (hz : ∀ c ∈ le.drop length, c = 0) (hlt : carry + 58 * leValue le < 256 ^ le.length) :
    (absorb le carry 0 length).2.2 = 0 ∧
    leValue (absorb le carry 0 length).1 = carry + 58 * leValue le := by
  obtain ⟨-, a2, -, -⟩ := absorb_spec le carry 0 length (by simpa using hz)
  have h0 : (absorb le carry 0 length).2.2 = 0 := by
    rcases Nat.eq_zero_or_pos (absorb le carry 0 length).2.2 with h | h
    · exact h
    · have : 256 ^ le.length ≤ 256 ^ le.length * (absorb le carry 0 length).2.2 :=
        Nat.le_mul_of_pos_right _ h
      omega
  rw [h0] at a2
  exact ⟨h0, by simpa using a2⟩




theorem MAP_table : ∀ n < 256, MAP.getD n (-1) =
    if n.toUInt8 ∈ ALPHABET then (ALPHABET.indexOf n.toUInt8 : Int) else -1 := by
  decide!

theorem MAP_of_mem (c : UInt8) (h : c ∈ ALPHABET) : MAP.getD c.toNat (-1) = (digit c : Int) := by
  have := MAP_table c.toNat (toNat_lt c)
  rw [toNat_toUInt8, if_pos h] at this
  exact this

theorem MAP_of_not_mem (c : UInt8) (h : c ∉ ALPHABET) : MAP.getD c.toNat (-1) = -1 := by
  have := MAP_table c.toNat (toNat_lt c)
  rw [toNat_toUInt8, if_neg h] at this
  exact this

theorem digit_lt (c : UInt8) (h : c ∈ ALPHABET) : digit c < 58 :=
  List.indexOf_lt_length.mpr h

theorem le_valueFrom (s : List UInt8) : ∀ n, n ≤ valueFrom n s := by
  induction s with
  | nil => intro n; exact le_refl _
  | cons c s ih =>
    intro n
    have := ih (n * 58 + digit c)
    simp only [valueFrom, List.foldl_cons] at this ⊢
    omega

theorem valueFrom_lt (s : List UInt8) : ∀ n, (∀ c ∈ s, c ∈ ALPHABET) →
    valueFrom n s < (n + 1) * 58 ^ s.length := by
  induction s with
  | nil => intro n _; simp [valueFrom]
  | cons c s ih =>
    intro n h
    have h1 := ih (n * 58 + digit c) (fun x hx => h x (List.mem_cons_of_mem _ hx))
    have h2 := digit_lt c (h c (List.mem_cons_self _ _))
    simp only [valueFrom, List.foldl_cons, List.length_cons] at h1 ⊢
    calc _ < (n * 58 + digit c + 1) * 58 ^ s.length := h1
      _ ≤ ((n + 1) * 58) * 58 ^ s.length := Nat.mul_le_mul_right _ (by omega)
      _ = (n + 1) * 58 ^ (s.length + 1) := by ring

theorem lt_of_pow_lt_pow (a b k : Nat) (h : a ^ k < b ^ k) : a < b := by
  by_contra hcon
  exact absurd h (Nat.not_lt.mpr (Nat.pow_le_pow_left (Nat.le_of_not_lt hcon) k))

/-- The work buffer of `Decode` is large enough for every integer of `n` base-58 digits. -/
theorem pow58_lt (n : Nat) : 58 ^ n < 256 ^ (n * 733 / 1000 + 1) := by
  have h0 : (58:Nat) ^ 1000 ≤ 256 ^ 733 := by norm_num
  have h1 : (58 ^ n) ^ 1000 < (256 ^ (n * 733 / 1000 + 1)) ^ 1000 := by
    calc (58 ^ n) ^ 1000 = (58 ^ 1000) ^ n := by rw [← pow_mul, ← pow_mul, Nat.mul_comm]
      _ ≤ (256 ^ 733) ^ n := Nat.pow_le_pow_left h0 n
      _ = 256 ^ (733 * n) := by rw [← pow_mul]
      _ < 256 ^ ((n * 733 / 1000 + 1) * 1000) :=
          Nat.pow_lt_pow_right (by norm_num) (by omega)
      _ = (256 ^ (n * 733 / 1000 + 1)) ^ 1000 := by rw [← pow_mul]
  exact lt_of_pow_lt_pow _ _ _ h1

theorem decodeLoop_spec (chars : List UInt8) : ∀ (b256 : List UInt8) (length : Nat),
    (∀ c ∈ chars, c ∈ ALPHABET) → (∀ c ∈ b256.reverse.drop length, c = 0) →
    valueFrom (leValue b256.reverse) chars < 256 ^ b256.length →
    ∃ b, decodeLoop chars b256 length = some b ∧ b.length = b256.length ∧
      leValue b.reverse = valueFrom (leValue b256.reverse) chars := by
  induction chars with
  | nil => intro b256 length _ _ _; exact ⟨b256, rfl, rfl, rfl⟩
  | cons ch rest ih =>
    intro b256 length hal hz hlt
    have hm := MAP_of_mem ch (hal ch (List.mem_cons_self _ _))
    obtain ⟨a1, -, -, a4⟩ := absorb_spec b256.reverse (digit ch) 0 length (by simpa using hz)
    have hv : valueFrom (leValue b256.reverse) (ch :: rest)
        = valueFrom (leValue b256.reverse * 58 + digit ch) rest := rfl
    have hsmall : digit ch + 58 * leValue b256.reverse < 256 ^ b256.reverse.length := by
      have := le_valueFrom rest (leValue b256.reverse * 58 + digit ch)
      rw [hv] at hlt
      simp only [List.length_reverse]
      omega
    obtain ⟨-, a2⟩ := absorb_no_overflow b256.reverse (digit ch) length hz hsmall
    obtain ⟨b, e1, e2, e3⟩ := ih (absorb b256.reverse (digit ch) 0 length).1.reverse
      (absorb b256.reverse (digit ch) 0 length).2.1
      (fun x hx => hal x (List.mem_cons_of_mem _ hx))
      (by simpa using a4)
      (by
        rw [List.reverse_reverse, a2, List.length_reverse, a1, List.length_reverse]
        rw [hv] at hlt
        have e : digit ch + 58 * leValue b256.reverse = leValue b256.reverse * 58 + digit ch := by
          ring
        rw [e]; exact hlt)
    refine ⟨b, ?_, ?_, ?_⟩
    · simp only [decodeLoop, hm]
      rw [if_neg (by omega)]
      simpa using e1
    · rw [e2, List.length_reverse, a1, List.length_reverse]
    · rw [e3, List.reverse_reverse, a2, hv]
      congr 1; ring

theorem dropWhile_zero_eq (b : List UInt8) :
    b.dropWhile (· == 0) = minimalBE (leValue b.reverse) := by
  induction b with
  | nil => simp [minimalBE, leValue]
  | cons c b ih =>
    have hv : leValue (c :: b).reverse = leValue b.reverse + 256 ^ b.length * c.toNat := by
      simp [leValue, Nat.ofDigits_append]
    by_cases hc : c = 0
    · subst hc
      have : leValue (0 :: b).reverse = leValue b.reverse := by rw [hv]; simp
      rw [this, ← ih]
      simp
    · have hd : Nat.digits 256 (leValue (c :: b).reverse) = ((c :: b).reverse).map UInt8.toNat := by
        unfold leValue
        apply Nat.digits_ofDigits 256 (by norm_num)
        · intro l hl
          obtain ⟨x, -, rfl⟩ := List.mem_map.mp hl
          exact toNat_lt x
        · intro hne
          simp only [List.reverse_cons, List.map_append, List.map_cons, List.map_nil,
            List.getLast_append_singleton] at *
          exact fun h => hc ((toNat_eq_zero c).mp h)
      rw [minimalBE, hd, ← List.map_reverse, List.reverse_reverse, List.map_map]
      have : (Nat.toUInt8 ∘ UInt8.toNat) = id := funext toNat_toUInt8
      rw [this, List.map_id]
      simp [hc]

theorem drop_takeWhile_length (p : UInt8 → Bool) (s : List UInt8) :
    s.drop (s.takeWhile p).length = s.dropWhile p := by
  induction s with
  | nil => rfl
  | cons c s ih =>
    by_cases h : p c
    · simp [List.takeWhile_cons, List.dropWhile_cons, h, ih]
    · simp [List.takeWhile_cons, List.dropWhile_cons, h]

theorem length_sub_takeWhile (p : UInt8 → Bool) (s : List UInt8) :
    s.length - (s.takeWhile p).length = (s.dropWhile p).length := by
  rw [← drop_takeWhile_length, List.length_drop]

theorem one_mem_ALPHABET : chr '1' ∈ ALPHABET := by decide

theorem minimalBE_spec (n : Nat) :
    beValue (minimalBE n) = n ∧ (minimalBE n).head? ≠ some 0 := by
  constructor
  · unfold beValue leValue minimalBE
    rw [← List.map_reverse, List.reverse_reverse, List.map_map]
    have : List.map (UInt8.toNat ∘ Nat.toUInt8) (Nat.digits 256 n) = Nat.digits 256 n := by
      conv_rhs => rw [← List.map_id (Nat.digits 256 n)]
      apply List.map_congr_left
      intro d hd
      have := Nat.digits_lt_base (by norm_num : 1 < 256) hd
      simp only [Function.comp, toUInt8_toNat, id]
      omega
    rw [this, Nat.ofDigits_digits]
  · unfold minimalBE
    intro h
    rw [List.head?_map, List.head?_reverse] at h
    cases hl : (Nat.digits 256 n).getLast? with
    | none => rw [hl] at h; simp at h
    | some x =>
      rw [hl] at h
      simp only [Option.map_some', Option.some.injEq] at h
      have hx : x ∈ Nat.digits 256 n := List.mem_of_getLast?_eq_some hl
      have hlt := Nat.digits_lt_base (by norm_num : 1 < 256) hx
      have hne : Nat.digits 256 n ≠ [] := List.ne_nil_of_mem hx
      have h0 := Nat.getLast_digit_ne_zero 256 (m := n) (by
        intro hn; rw [hn] at hne; simp at hne)
      rw [List.getLast?_eq_getLast _ hne] at hl
      have hx0 : x ≠ 0 := by
        rw [← Option.some.inj hl]; exact h0
      have : x.toUInt8.toNat = 0 := by rw [h]; rfl
      rw [toUInt8_toNat] at this
      omega

/-- C9. For every text over the Base58 alphabet with `z` leading `'1'` symbols, `Decode`
succeeds and returns `z` zero bytes followed by the minimal big-endian bytes of the base-58
integer `N` spelled by the remaining characters: bytes whose big-endian value is `N`, without
a leading zero byte (so none when `N` is zero). -/
theorem Decode_spec (s out : List UInt8) (h : ∀ c ∈ s, c ∈ ALPHABET) :
    Decode s out = (true, List.replicate (s.takeWhile (· == chr '1')).length 0 ++
      minimalBE (valueFrom 0 (s.dropWhile (· == chr '1')))) ∧
    beValue (minimalBE (valueFrom 0 (s.dropWhile (· == chr '1'))))
      = valueFrom 0 (s.dropWhile (· == chr '1')) ∧
    (minimalBE (valueFrom 0 (s.dropWhile (· == chr '1')))).head? ≠ some 0 := by
  refine ⟨?_, minimalBE_spec _⟩
  have hal : ∀ c ∈ s.dropWhile (· == chr '1'), c ∈ ALPHABET :=
    fun c hc => h c ((List.dropWhile_sublist _).subset hc)
  have hrep : ∀ n, leValue (List.replicate n (0 : UInt8)).reverse = 0 := fun n =>
    leValue_zero _ (fun c hc => by
      rw [List.reverse_replicate] at hc; exact (List.mem_replicate.mp hc).2)
  obtain ⟨b, e1, -, e3⟩ := decodeLoop_spec (s.dropWhile (· == chr '1'))
    (List.replicate ((s.dropWhile (· == chr '1')).length * 733 / 1000 + 1) 0) 0 hal
    (fun c hc => by
      rw [List.drop_zero, List.reverse_replicate] at hc; exact (List.mem_replicate.mp hc).2)
    (by
      rw [hrep, List.length_replicate]
      have := valueFrom_lt (s.dropWhile (· == chr '1')) 0 hal
      have := pow58_lt (s.dropWhile (· == chr '1')).length
      omega)
  rw [hrep] at e3
  simp only [Decode, drop_takeWhile_length, length_sub_takeWhile, e1]
  rw [dropWhile_zero_eq, e3]

theorem decodeLoop_eq_none (chars : List UInt8) : ∀ (b256 : List UInt8) (length : Nat),
    decodeLoop chars b256 length = none ↔ ∃ c ∈ chars, c ∉ ALPHABET := by
  induction chars with
  | nil => intro b256 length; simp [decodeLoop]
  | cons ch rest ih =>
    intro b256 length
    by_cases hm : ch ∈ ALPHABET
    · simp only [decodeLoop, MAP_of_mem ch hm]
      rw [if_neg (by omega), ih]
      simp [hm]
    · simp only [decodeLoop, MAP_of_not_mem ch hm]
      simp [hm]

/-- C10. `Decode` returns false exactly when the text has a character outside the alphabet,
and when it returns false the output vector is empty. -/
theorem Decode_false_iff (s out : List UInt8) :
    ((Decode s out).1 = false ↔ ∃ c ∈ s, c ∉ ALPHABET) ∧
    ((Decode s out).1 = false → (Decode s out).2 = []) := by
  have hex : (∃ c ∈ s.dropWhile (· == chr '1'), c ∉ ALPHABET) ↔ ∃ c ∈ s, c ∉ ALPHABET := by
    constructor
    · rintro ⟨c, hc, hn⟩
      exact ⟨c, (List.dropWhile_sublist _).subset hc, hn⟩
    · rintro ⟨c, hc, hn⟩
      rw [← List.takeWhile_append_dropWhile (· == chr '1') s, List.mem_append] at hc
      rcases hc with hc | hc
      · have := List.mem_takeWhile_imp hc
        simp only [beq_iff_eq] at this
        exact absurd (this ▸ one_mem_ALPHABET) hn
      · exact ⟨c, hc, hn⟩
  rw [← hex, ← decodeLoop_eq_none _
    (List.replicate ((s.dropWhile (· == chr '1')).length * 733 / 1000 + 1) 0) 0]
  simp only [Decode, drop_takeWhile_length, length_sub_takeWhile]
  cases decodeLoop (s.dropWhile (· == chr '1'))
    (List.replicate ((s.dropWhile (· == chr '1')).length * 733 / 1000 + 1) 0) 0 <;> simp

/-- Witness for C9: `"111"` decodes to three zero bytes and `"1"` to `[0x00]`. -/
theorem Decode_spec_witness :
    Decode (str "111") [] = (true, [0, 0, 0]) ∧ Decode (str "1") [] = (true, [0]) := by
  have h3 := (Decode_spec (str "111") [] (by decide)).1
  have h1 := (Decode_spec (str "1") [] (by decide)).1
  have e3 : (str "111").takeWhile (· == chr '1') = str "111" := by decide
  have d3 : (str "111").dropWhile (· == chr '1') = [] := by decide
  have e1 : (str "1").takeWhile (· == chr '1') = str "1" := by decide
  have d1 : (str "1").dropWhile (· == chr '1') = [] := by decide
  have hz : minimalBE (valueFrom 0 []) = [] := by simp [minimalBE, valueFrom]
  rw [e3, d3, hz] at h3
  rw [e1, d1, hz] at h1
  exact ⟨h3, h1⟩

/-! ## Base58: encoding as the code behaves, and the WIF round trip -/

theorem beValue_nil : beValue [] = 0 := by simp [beValue, leValue]

theorem beValue_cons (b : UInt8) (l : List UInt8) :
    beValue (b :: l) = b.toNat * 256 ^ l.length + beValue l := by
  simp [beValue, leValue, Nat.ofDigits_append]
  ring

theorem divide_spec (l : List UInt8) : ∀ c, c < 58 →
    (divide l c).1.length = l.length ∧
    beValue (divide l c).1 = (c * 256 ^ l.length + beValue l) / 58 ∧
    (divide l c).2 = (c * 256 ^ l.length + beValue l) % 58 := by
  induction l with
  | nil =>
    intro c hc
    simp only [divide, beValue_nil, List.length_nil, pow_zero, Nat.mul_one, Nat.add_zero]
    refine ⟨trivial, ?_, ?_⟩ <;> omega
  | cons b rest ih =>
    intro c hc
    obtain ⟨i1, i2, i3⟩ := ih ((b.toNat + c * 256) % 58) (Nat.mod_lt _ (by norm_num))
    have hb := toNat_lt b
    have hq : (b.toNat + c * 256) / 58 % 256 = (b.toNat + c * 256) / 58 := by omega
    have hv : c * 256 ^ (rest.length + 1) + (b.toNat * 256 ^ rest.length + beValue rest)
        = 58 * ((b.toNat + c * 256) / 58 * 256 ^ rest.length)
          + ((b.toNat + c * 256) % 58 * 256 ^ rest.length + beValue rest) := by
      have e := Nat.div_add_mod (b.toNat + c * 256) 58
      calc c * 256 ^ (rest.length + 1) + (b.toNat * 256 ^ rest.length + beValue rest)
          = (b.toNat + c * 256) * 256 ^ rest.length + beValue rest := by ring
        _ = (58 * ((b.toNat + c * 256) / 58) + (b.toNat + c * 256) % 58) * 256 ^ rest.length
              + beValue rest := by rw [e]
        _ = _ := by ring
    simp only [divide, List.length_cons, beValue_cons, toUInt8_toNat, hq, i1, i2, i3, hv]
    refine ⟨trivial, ?_, ?_⟩
    · rw [Nat.mul_add_div (by norm_num)]
    · rw [Nat.mul_add_mod]

theorem beValue_dropWhile_zero (l : List UInt8) :
    beValue (l.dropWhile (· == 0)) = beValue l := by
  induction l with
  | nil => rfl
  | cons b l ih =>
    by_cases hb : b = 0
    · subst hb
      have : (0 : UInt8).toNat = 0 := rfl
      simp [List.dropWhile_cons, ih, beValue_cons, this]
    · simp [List.dropWhile_cons, hb]

theorem head_dropWhile_zero (l : List UInt8) : (l.dropWhile (· == 0)).head? ≠ some 0 := by
  induction l with
  | nil => simp
  | cons b l ih =>
    by_cases hb : b = 0
    · subst hb; simpa [List.dropWhile_cons] using ih
    · simp [List.dropWhile_cons, hb]

theorem beValue_pos (l : List UInt8) (hne : l ≠ []) (hh : l.head? ≠ some 0) : 0 < beValue l := by
  cases l with
  | nil => exact absurd rfl hne
  | cons b l =>
    have hb : b.toNat ≠ 0 := fun h => hh (by simp [(toNat_eq_zero b).mp h])
    rw [beValue_cons]
    have : 0 < b.toNat * 256 ^ l.length := Nat.mul_pos (Nat.pos_of_ne_zero hb) (by positivity)
    omega

theorem beValue_lt (l : List UInt8) : beValue l < 256 ^ l.length := by
  have := leValue_lt l.reverse
  simpa [beValue] using this

theorem msd58_step (n : Nat) (hn : 0 < n) :
    msd58 n = if n / 58 = 0 then n % 58 else msd58 (n / 58) := by
  unfold msd58
  rw [Nat.digits_def' (by norm_num) hn, List.getLast?_cons]
  by_cases h : n / 58 = 0
  · simp [h]
  · rw [if_neg h]
    have hne : Nat.digits 58 (n / 58) ≠ [] := by
      simpa [Nat.digits_eq_nil_iff_eq_zero] using h
    obtain ⟨x, hx⟩ := Option.ne_none_iff_exists'.mp (fun h' => hne (List.getLast?_eq_none_iff.mp h'))
    simp [hx]

theorem encodeLoop_spec (fuel : Nat) : ∀ (input : List UInt8) (start : Nat) (temp : List UInt8),
    (input.drop start).head? ≠ some 0 → beValue (input.drop start) < 58 ^ fuel →
    encodeLoop fuel input start temp =
      some (if beValue (input.drop start) = 0 then temp
            else [(msd58 (beValue (input.drop start))).toUInt8]) := by
  induction fuel with
  | zero =>
    intro input start temp hh hlt
    have hV : beValue (input.drop start) = 0 := by simpa using hlt
    have hnil : input.drop start = [] := by
      by_contra hne
      have := beValue_pos _ hne hh
      omega
    have hs : ¬ start < input.length := by
      intro h
      have := List.length_drop start input
      rw [hnil] at this
      simp at this
      omega
    simp [encodeLoop, hs, hV]
  | succ fuel ih =>
    intro input start temp hh hlt
    by_cases hs : start < input.length
    · have hne : input.drop start ≠ [] := by
        intro h
        have := List.length_drop start input
        rw [h] at this
        simp at this
        omega
      have hpos := beValue_pos _ hne hh
      obtain ⟨d1, d2, d3⟩ := divide_spec (input.drop start) 0 (by norm_num)
      simp only [Nat.zero_mul, Nat.zero_add] at d2 d3
      have htl : (List.take start input).length = start := by simp; omega
      have hdrop : (List.take start input ++ (divide (input.drop start) 0).1).drop start
          = (divide (input.drop start) 0).1 := List.drop_left' htl
      have hdrop2 : (List.take start input ++ (divide (input.drop start) 0).1).drop
          (start + ((divide (input.drop start) 0).1.takeWhile (· == 0)).length)
          = (divide (input.drop start) 0).1.dropWhile (· == 0) := by
        rw [← List.drop_drop, hdrop, drop_takeWhile_length]
      have hV' : beValue ((divide (input.drop start) 0).1.dropWhile (· == 0))
          = beValue (input.drop start) / 58 := by
        rw [beValue_dropWhile_zero, d2]
      have hlt' : beValue (input.drop start) / 58 < 58 ^ fuel := by
        apply Nat.div_lt_of_lt_mul
        rw [pow_succ] at hlt
        omega
      have := ih (List.take start input ++ (divide (input.drop start) 0).1)
        (start + ((divide (input.drop start) 0).1.takeWhile (· == 0)).length)
        ([] ++ [(divide (input.drop start) 0).2.toUInt8])
        (by rw [hdrop2]; exact head_dropWhile_zero _)
        (by rw [hdrop2, hV']; exact hlt')
      rw [hdrop2, hV'] at this
      simp only [encodeLoop, if_pos hs, hdrop]
      rw [this, if_neg (by omega : ¬ beValue (input.drop start) = 0), msd58_step _ hpos, d3]
      by_cases hq : beValue (List.drop start input) / 58 = 0
      · simp [hq]
      · simp [hq]
    · have hnil : input.drop start = [] := List.drop_eq_nil_of_le (by omega)
      simp [encodeLoop, hs, hnil, beValue_nil]

theorem msd58_lt (n : Nat) : msd58 n < 58 := by
  unfold msd58
  cases h : (Nat.digits 58 n).getLast? with
  | none => simp
  | some x =>
    have hx : x ∈ Nat.digits 58 n := List.mem_of_getLast?_eq_some h
    simpa using Nat.digits_lt_base (by norm_num) hx

/-- `Base58::Encode` as the code behaves: the `'1'` symbols of the leading zero bytes, then,
when a non-zero byte remains, the symbol of the most significant base-58 digit alone. The
`2 * data.size()` passes given to the outer loop always suffice. -/
theorem Encode_eq (data : List UInt8) :
    Encode data = some (List.replicate (data.takeWhile (· == 0)).length (chr '1') ++
      (if beValue (data.dropWhile (· == 0)) = 0 then []
       else [ALPHABET.getD (msd58 (beValue (data.dropWhile (· == 0)))) 0])) := by
  have hfuel : beValue (data.dropWhile (· == 0)) < 58 ^ (2 * data.length) := by
    have h1 := beValue_lt (data.dropWhile (· == 0))
    have h2 : (data.dropWhile (· == 0)).length ≤ data.length :=
      (List.dropWhile_sublist _).length_le
    calc beValue (data.dropWhile (· == 0)) < 256 ^ (data.dropWhile (· == 0)).length := h1
      _ ≤ 256 ^ data.length := Nat.pow_le_pow_right (by norm_num) h2
      _ ≤ (58 ^ 2) ^ data.length := Nat.pow_le_pow_left (by norm_num) _
      _ = 58 ^ (2 * data.length) := by rw [← pow_mul]
  have := encodeLoop_spec (2 * data.length) data (data.takeWhile (· == 0)).length []
    (by rw [drop_takeWhile_length]; exact head_dropWhile_zero _)
    (by rw [drop_takeWhile_length]; exact hfuel)
  rw [drop_takeWhile_length] at this
  simp only [Encode, this]
  by_cases hV : beValue (data.dropWhile (· == 0)) = 0
  · simp [hV]
  · have hm := msd58_lt (beValue (data.dropWhile (· == 0)))
    have : (msd58 (beValue (data.dropWhile (· == 0)))).toUInt8.toNat
        = msd58 (beValue (data.dropWhile (· == 0))) := by
      rw [toUInt8_toNat]; omega
    simp [hV, this]

theorem Encode_head_ne_zero (b : UInt8) (rest : List UInt8) (hb : b ≠ 0) :
    ∃ c, Encode (b :: rest) = some [c] := by
  have h1 : (b :: rest).takeWhile (· == 0) = [] := by
    rw [List.takeWhile_cons]; simp [hb]
  have h2 : (b :: rest).dropWhile (· == 0) = b :: rest := by
    rw [List.dropWhile_cons]; simp [hb]
  have hpos := beValue_pos (b :: rest) (by simp) (by simpa using hb)
  refine ⟨ALPHABET.getD (msd58 (beValue (b :: rest))) 0, ?_⟩
  rw [Encode_eq, h1, h2, if_neg (by omega)]
  rfl

theorem Decode_one_char : ∀ n < 256, (Decode [n.toUInt8] []).2.length ≤ 1 := by
  decide!

theorem Decode_single (c : UInt8) : (Decode [c] []).2.length ≤ 1 := by
  have := Decode_one_char c.toNat (toNat_lt c)
  rwa [toNat_toUInt8] at this

theorem DecodeCheck_one_char : ∀ n < 256, DecodeCheck [n.toUInt8] [] = (false, []) := by
  decide!

theorem DecodeCheck_single (c : UInt8) : DecodeCheck [c] [] = (false, []) := by
  have := DecodeCheck_one_char c.toNat (toNat_lt c)
  rwa [toNat_toUInt8] at this

/-- C8 (as the code behaves). `Base58::Encode([0x61])` is `"2"`, the most significant base-58
digit alone, where the specification's example has `"2g"`; likewise
`Encode([0x00, 0x00, 0x61, 0x62, 0x63])` is `"11Z"` where all digits would give `"11ZiCa"`.
For every input the result is the `'1'` symbols of the leading zero bytes followed by at most
one symbol, that of the most significant digit of the integer formed by the other bytes. -/
theorem Encode_keeps_last_digit :
    Encode [0x61] = some (str "2") ∧
    Encode [0x00, 0x00, 0x61, 0x62, 0x63] = some (str "11Z") ∧
    ∀ data : List UInt8,
      Encode data = some (List.replicate (data.takeWhile (· == 0)).length (chr '1') ++
        (if beValue (data.dropWhile (· == 0)) = 0 then []
         else [ALPHABET.getD (msd58 (beValue (data.dropWhile (· == 0)))) 0])) :=
  ⟨by decide!, by decide!, Encode_eq⟩

/-- C1 (as the code behaves). `Decode(Encode([0x61]))` succeeds and returns `[0x01]`, not
`[0x61]`; and no sequence of two or more bytes whose first byte is not zero is returned by
`Decode(Encode(x))`, which then yields at most one byte. -/
theorem Decode_Encode_0x61 :
    (Encode [0x61]).map (fun s => Decode s []) = some (true, [0x01]) ∧
    ∀ (b b' : UInt8) (x : List UInt8), b ≠ 0 →
      ∃ s, Encode (b :: b' :: x) = some s ∧ (Decode s []).2 ≠ b :: b' :: x := by
  refine ⟨by decide!, ?_⟩
  intro b b' x hb
  obtain ⟨c, hc⟩ := Encode_head_ne_zero b (b' :: x) hb
  refine ⟨[c], hc, ?_⟩
  intro h
  have := Decode_single c
  rw [h] at this
  simp at this

/-- C2 (as the code behaves). `EncodeCheck([0x61])` is the one-character text `"C"`, which
`DecodeCheck` rejects (it decodes to fewer than 4 bytes), leaving its output untouched; the
same happens for every payload whose first byte is not zero. -/
theorem DecodeCheck_EncodeCheck_0x61 :
    EncodeCheck [0x61] = some (str "C") ∧
    DecodeCheck (str "C") [] = (false, []) ∧
    ∀ (b : UInt8) (x : List UInt8), b ≠ 0 →
      (EncodeCheck (b :: x)).map (fun s => DecodeCheck s []) = some (false, []) := by
  refine ⟨by decide!, by decide!, ?_⟩
  intro b x hb
  obtain ⟨c, hc⟩ := Encode_head_ne_zero b
    (x ++ [((Checksum (b :: x) >>> 24) &&& 0xFF).toUInt8,
           ((Checksum (b :: x) >>> 16) &&& 0xFF).toUInt8,
           ((Checksum (b :: x) >>> 8) &&& 0xFF).toUInt8,
           (Checksum (b :: x) &&& 0xFF).toUInt8]) hb
  have : EncodeCheck (b :: x) = some [c] := by
    rw [← hc]; simp [EncodeCheck]
  rw [this, Option.map_some', DecodeCheck_single c]

/-- C3 (as the code behaves). For every key marked valid (any scalar, either compression
flag, whatever the scalar check accepts), `ToWIF` returns a text of one character and
`FromWIF` of that text is the invalid default key with an all-zero scalar, for `PrivateKey`
and for the `Key` facade; for the scalar `1` with the compression flag set the text is `"K"`. -/
theorem FromWIF_ToWIF_invalid (verify : List UInt8 → Bool) (comp : Bool) (key : List UInt8) :
    (PrivateKey.ToWIF ⟨true, comp, key⟩).map (PrivateKey.FromWIF verify)
      = some PrivateKey.default ∧
    (Key.ToWIF ⟨true, comp, key⟩).map (Key.FromWIF verify) = some Key.default ∧
    PrivateKey.ToWIF ⟨true, true, List.replicate 31 0 ++ [1]⟩ = some (str "K") ∧
    Key.ToWIF ⟨true, true, List.replicate 31 0 ++ [1]⟩ = some (str "K") := by
  have hP : ∀ wif, DecodeCheck wif [] = (false, []) → PrivateKey.FromWIF verify wif
      = PrivateKey.default := fun wif h => by simp [PrivateKey.FromWIF, h]
  have hK : ∀ wif, DecodeCheck wif [] = (false, []) → Key.FromWIF verify wif = Key.default :=
    fun wif h => by simp [Key.FromWIF, h]
  refine ⟨?_, ?_, by decide!, by decide!⟩
  · obtain ⟨c, hc⟩ := Encode_head_ne_zero 0x80
      ((if comp then key ++ [0x01] else key) ++
        [((Checksum (if comp then [0x80] ++ key ++ [0x01] else [0x80] ++ key) >>> 24) &&& 0xFF).toUInt8,
         ((Checksum (if comp then [0x80] ++ key ++ [0x01] else [0x80] ++ key) >>> 16) &&& 0xFF).toUInt8,
         ((Checksum (if comp then [0x80] ++ key ++ [0x01] else [0x80] ++ key) >>> 8) &&& 0xFF).toUInt8,
         (Checksum (if comp then [0x80] ++ key ++ [0x01] else [0x80] ++ key) &&& 0xFF).toUInt8])
      (by decide)
    have : PrivateKey.ToWIF ⟨true, comp, key⟩ = some [c] := by
      rw [← hc]
      cases comp <;> simp [PrivateKey.ToWIF, EncodeCheck]
    rw [this, Option.map_some', hP _ (DecodeCheck_single c)]
  · obtain ⟨c, hc⟩ := Encode_head_ne_zero 0x80
      ((if comp then key ++ [0x01] else key) ++
        [((Checksum (if comp then [0x80] ++ key ++ [0x01] else [0x80] ++ key) >>> 24) &&& 0xFF).toUInt8,
         ((Checksum (if comp then [0x80] ++ key ++ [0x01] else [0x80] ++ key) >>> 16) &&& 0xFF).toUInt8,
         ((Checksum (if comp then [0x80] ++ key ++ [0x01] else [0x80] ++ key) >>> 8) &&& 0xFF).toUInt8,
         (Checksum (if comp then [0x80] ++ key ++ [0x01] else [0x80] ++ key) &&& 0xFF).toUInt8])
      (by decide)
    have : Key.ToWIF ⟨true, comp, key⟩ = some [c] := by
      rw [← hc]
      cases comp <;> simp [Key.ToWIF, EncodeCheck]
    rw [this, Option.map_some', hK _ (DecodeCheck_single c)]

/-! ## Base58Check -/

theorem SHA256_updateByte_state_length (c : SHA256.Ctx) (b : UInt8) :
    (SHA256.updateByte c b).state.length = c.state.length := by
  simp only [SHA256.updateByte]
  split <;> simp [SHA256_Transform_length]

theorem SHA256_Update_state_length (data : List UInt8) (c : SHA256.Ctx) :
    (SHA256.Update c data).state.length = c.state.length := by
  induction data generalizing c with
  | nil => rfl
  | cons b data ih =>
    have : SHA256.Update c (b :: data) = SHA256.Update (SHA256.updateByte c b) data := rfl
    rw [this, ih, SHA256_updateByte_state_length]

theorem SHA256_Final_length (c : SHA256.Ctx) :
    (SHA256.Final c).2.length = 4 * c.state.length := by
  unfold SHA256.Final
  simp only [SHA256_serialize_eq, flatMap_be32_length, SHA256_Transform_length]
  split <;> simp [SHA256_Transform_length]

/-- Every SHA-256 digest has 32 bytes. -/
theorem Hash_SHA256_length (data : List UInt8) : (Hash.SHA256 data).length = 32 := by
  unfold Hash.SHA256
  rw [SHA256_Final_length, SHA256_Update_state_length]
  rfl

theorem Hash_SHA256D_length (data : List UInt8) : (Hash.SHA256D data).length = 32 :=
  Hash_SHA256_length _

/-- Packing four bytes big-endian into a 32-bit word, as `Checksum` and `DecodeCheck` do. -/
theorem pack_eq (b0 b1 b2 b3 : UInt8) :
    ((b0.toNat <<< 24) ||| (b1.toNat <<< 16) ||| (b2.toNat <<< 8) ||| b3.toNat) % 2^32
      = b0.toNat * 2^24 + b1.toNat * 2^16 + b2.toNat * 2^8 + b3.toNat := by
  have h0 := toNat_lt b0
  have h1 := toNat_lt b1
  have h2 := toNat_lt b2
  have h3 := toNat_lt b3
  simp only [Nat.shiftLeft_eq]
  have e3 : b2.toNat * 2^8 ||| b3.toNat = b2.toNat * 2^8 + b3.toNat := by
    rw [Nat.mul_comm, ← Nat.mul_add_lt_is_or (by omega)]
  have e2 : b1.toNat * 2^16 ||| (b2.toNat * 2^8 + b3.toNat)
      = b1.toNat * 2^16 + (b2.toNat * 2^8 + b3.toNat) := by
    rw [Nat.mul_comm, ← Nat.mul_add_lt_is_or (by omega)]
  have e1 : b0.toNat * 2^24 ||| (b1.toNat * 2^16 + (b2.toNat * 2^8 + b3.toNat))
      = b0.toNat * 2^24 + (b1.toNat * 2^16 + (b2.toNat * 2^8 + b3.toNat)) := by
    rw [Nat.mul_comm, ← Nat.mul_add_lt_is_or (by omega)]
  rw [Nat.lor_assoc, Nat.lor_assoc, e3, e2, e1]
  omega

theorem unpack_pack (b0 b1 b2 b3 : UInt8) :
    let cs := ((b0.toNat <<< 24) ||| (b1.toNat <<< 16) ||| (b2.toNat <<< 8) ||| b3.toNat) % 2^32
    [((cs >>> 24) &&& 0xFF).toUInt8, ((cs >>> 16) &&& 0xFF).toUInt8,
     ((cs >>> 8) &&& 0xFF).toUInt8, (cs &&& 0xFF).toUInt8] = [b0, b1, b2, b3] := by
  intro cs
  have hcs : cs = b0.toNat * 2^24 + b1.toNat * 2^16 + b2.toNat * 2^8 + b3.toNat := pack_eq _ _ _ _
  have h0 := toNat_lt b0
  have h1 := toNat_lt b1
  have h2 := toNat_lt b2
  have h3 := toNat_lt b3
  simp only [and_255, Nat.shiftRight_eq_div_pow]
  have a0 : cs / 2^24 % 256 = b0.toNat := by rw [hcs]; omega
  have a1 : cs / 2^16 % 256 = b1.toNat := by rw [hcs]; omega
  have a2 : cs / 2^8 % 256 = b2.toNat := by rw [hcs]; omega
  have a3 : cs % 256 = b3.toNat := by rw [hcs]; omega
  rw [a0, a1, a2, a3]
  simp [toNat_toUInt8]

theorem take4_eq (l : List UInt8) (h : 4 ≤ l.length) :
    l.take 4 = [l.getD 0 0, l.getD 1 0, l.getD 2 0, l.getD 3 0] := by
  match l, h with
  | a :: b :: c :: d :: rest, _ => simp

theorem drop_last4_eq (l : List UInt8) (h : 4 ≤ l.length) :
    l.drop (l.length - 4) = [l.getD (l.length - 4) 0, l.getD (l.length - 3) 0,
      l.getD (l.length - 2) 0, l.getD (l.length - 1) 0] := by
  have hl : (l.drop (l.length - 4)).length = 4 := by simp; omega
  have := take4_eq (l.drop (l.length - 4)) (by omega)
  rw [List.take_of_length_le (by omega)] at this
  rw [this]
  simp only [List.getD_eq_getElem?_getD, List.getElem?_drop]
  have e1 : l.length - 4 + 0 = l.length - 4 := by omega
  have e2 : l.length - 4 + 1 = l.length - 3 := by omega
  have e3 : l.length - 4 + 2 = l.length - 2 := by omega
  have e4 : l.length - 4 + 3 = l.length - 1 := by omega
  rw [e1, e2, e3, e4]

theorem pack_inj (a0 a1 a2 a3 b0 b1 b2 b3 : UInt8) :
    ((a0.toNat <<< 24) ||| (a1.toNat <<< 16) ||| (a2.toNat <<< 8) ||| a3.toNat) % 2^32
      = ((b0.toNat <<< 24) ||| (b1.toNat <<< 16) ||| (b2.toNat <<< 8) ||| b3.toNat) % 2^32
    ↔ [a0, a1, a2, a3] = [b0, b1, b2, b3] := by
  constructor
  · intro h
    have ha := unpack_pack a0 a1 a2 a3
    have hb := unpack_pack b0 b1 b2 b3
    simp only at ha hb
    rw [← ha, ← hb, h]
  · intro h
    simp only [List.cons.injEq, and_true] at h
    obtain ⟨r0, r1, r2, r3⟩ := h
    rw [r0, r1, r2, r3]

/-- C12. `EncodeCheck(payload)` is `Encode(payload ∥ c)` where `c` is the first 4 bytes, in
order, of `SHA256(SHA256(payload))`; these are the bytes `EncodeCheck` unpacks from the 32-bit
`Checksum` value. -/
theorem EncodeCheck_eq (payload : List UInt8) :
    EncodeCheck payload = Encode (payload ++ (Hash.SHA256 (Hash.SHA256 payload)).take 4) ∧
    ((Hash.SHA256 (Hash.SHA256 payload)).take 4).length = 4 ∧
    [((Checksum payload >>> 24) &&& 0xFF).toUInt8, ((Checksum payload >>> 16) &&& 0xFF).toUInt8,
     ((Checksum payload >>> 8) &&& 0xFF).toUInt8, (Checksum payload &&& 0xFF).toUInt8]
      = (Hash.SHA256D payload).take 4 := by
  have hlen := Hash_SHA256D_length payload
  have hun : [((Checksum payload >>> 24) &&& 0xFF).toUInt8,
      ((Checksum payload >>> 16) &&& 0xFF).toUInt8,
      ((Checksum payload >>> 8) &&& 0xFF).toUInt8, (Checksum payload &&& 0xFF).toUInt8]
      = (Hash.SHA256D payload).take 4 := by
    rw [take4_eq _ (by omega)]
    exact unpack_pack _ _ _ _
  refine ⟨?_, ?_, hun⟩
  · show Encode (payload ++ _) = _
    rw [hun]
    rfl
  · have : (Hash.SHA256 (Hash.SHA256 payload)).length = 32 := hlen
    simp [this]

/-- C11. `DecodeCheck` returns true exactly when plain `Decode` (into a fresh vector) succeeds,
the decoded length is at least 4 and the last 4 decoded bytes are the first 4 bytes of `SHA256D`
of the bytes before them; on success the output is the decoded bytes without the last 4, and on
failure the output argument is left as it was. -/
theorem DecodeCheck_spec (str out : List UInt8) :
    ((DecodeCheck str out).1 = true ↔
      (Decode str []).1 = true ∧ 4 ≤ (Decode str []).2.length ∧
      (Decode str []).2.drop ((Decode str []).2.length - 4)
        = (Hash.SHA256D ((Decode str []).2.take ((Decode str []).2.length - 4))).take 4) ∧
    ((DecodeCheck str out).1 = true →
      (DecodeCheck str out).2 = (Decode str []).2.take ((Decode str []).2.length - 4)) ∧
    ((DecodeCheck str out).1 = false → (DecodeCheck str out).2 = out) := by
  unfold DecodeCheck
  simp only
  generalize Decode str [] = d
  by_cases h1 : d.1 = true
  · by_cases h4 : d.2.length < 4
    · have hcond : (!d.1 || decide (d.2.length < 4)) = true := by simp [h4]
      rw [if_pos hcond]
      exact ⟨⟨fun h => absurd h (by simp), fun h => absurd h.2.1 (by omega)⟩,
        fun h => absurd h (by simp), fun _ => rfl⟩
    · have h4' : 4 ≤ d.2.length := by omega
      have hcond : ¬ (!d.1 || decide (d.2.length < 4)) = true := by simp [h1, h4]
      have hh := Hash_SHA256D_length (d.2.take (d.2.length - 4))
      have hc : Checksum (d.2.take (d.2.length - 4))
          = (((((Hash.SHA256D (d.2.take (d.2.length - 4))).getD 0 0).toNat <<< 24)
            ||| (((Hash.SHA256D (d.2.take (d.2.length - 4))).getD 1 0).toNat <<< 16)
            ||| (((Hash.SHA256D (d.2.take (d.2.length - 4))).getD 2 0).toNat <<< 8)
            ||| ((Hash.SHA256D (d.2.take (d.2.length - 4))).getD 3 0).toNat) % 2^32) := rfl
      rw [if_neg hcond, drop_last4_eq d.2 h4',
        take4_eq (Hash.SHA256D (d.2.take (d.2.length - 4))) (by omega), ← pack_inj, ← hc]
      by_cases hcs : (((d.2.getD (d.2.length - 4) 0).toNat <<< 24)
          ||| ((d.2.getD (d.2.length - 3) 0).toNat <<< 16)
          ||| ((d.2.getD (d.2.length - 2) 0).toNat <<< 8)
          ||| (d.2.getD (d.2.length - 1) 0).toNat) % 2^32
          = Checksum (d.2.take (d.2.length - 4))
      · rw [if_neg (not_not.mpr hcs)]
        exact ⟨⟨fun _ => ⟨h1, h4', hcs⟩, fun _ => rfl⟩, fun _ => rfl,
          fun h => absurd h (by simp)⟩
      · rw [if_pos hcs]
        exact ⟨⟨fun h => absurd h (by simp), fun h => absurd h.2.2 hcs⟩,
          fun h => absurd h (by simp), fun _ => rfl⟩
  · have hcond : (!d.1 || decide (d.2.length < 4)) = true := by simp [h1]
    rw [if_pos hcond]
    exact ⟨⟨fun h => absurd h (by simp), fun h => absurd h.1 h1⟩,
      fun h => absurd h (by simp), fun _ => rfl⟩

/-! ## HMAC -/

theorem hmacKey_length (key : List UInt8) : (hmacKey key).length = 64 := by
  unfold hmacKey
  by_cases h : key.length ≤ 64
  · simp [h]
  · have := Hash_SHA256_length key
    simp [h, this]

theorem range_map_xor (k : List UInt8) (c : UInt8) (n : Nat) (h : k.length = n) :
    ((List.range n).map fun i => k.getD i 0 ^^^ c) = xorBytes k (List.replicate n c) := by
  apply List.ext_getElem
  · simp [xorBytes, h]
  · intro i h1 h2
    have hi : i < n := by simpa using h1
    simp [xorBytes, List.getD_eq_getElem?_getD, List.getElem?_eq_getElem (h ▸ hi)]

theorem hmac_resize (key : List UInt8) :
    (if key.length > 64 then Hash.SHA256 key else key).take 64
      ++ List.replicate (64 - (if key.length > 64 then Hash.SHA256 key else key).length) 0
    = hmacKey key := by
  unfold hmacKey
  by_cases h : key.length ≤ 64
  · have h' : ¬ key.length > 64 := by omega
    simp only [h, h', if_true, if_false]
    rw [List.take_of_length_le h]
  · have h' : key.length > 64 := by omega
    have hl := Hash_SHA256_length key
    simp only [h, h', if_true, if_false]
    rw [List.take_of_length_le (by omega)]

/-- C13. For every key and data, `HMAC_SHA256(key, data)` is
`SHA256((K0 ⊕ 0x5c^64) ∥ SHA256((K0 ⊕ 0x36^64) ∥ data))`, where `K0` (64 bytes) is the key
right-padded with zero bytes when it has at most 64 bytes and `SHA256(key)` right-padded with
zero bytes otherwise; so for a key of more than 64 bytes `HMAC(key, data)` is
`HMAC(SHA256(key), data)`. -/
theorem HMAC_SHA256_eq (key data : List UInt8) :
    Hash.HMAC_SHA256 key data =
      Hash.SHA256 (xorBytes (hmacKey key) (List.replicate 64 0x5c) ++
        Hash.SHA256 (xorBytes (hmacKey key) (List.replicate 64 0x36) ++ data)) ∧
    (hmacKey key).length = 64 ∧
    (64 < key.length → Hash.HMAC_SHA256 key data = Hash.HMAC_SHA256 (Hash.SHA256 key) data) := by
  have main : ∀ k : List UInt8, Hash.HMAC_SHA256 k data =
      Hash.SHA256 (xorBytes (hmacKey k) (List.replicate 64 0x5c) ++
        Hash.SHA256 (xorBytes (hmacKey k) (List.replicate 64 0x36) ++ data)) := by
    intro k
    unfold Hash.HMAC_SHA256
    simp only
    rw [hmac_resize, range_map_xor (hmacKey k) 0x5c 64 (hmacKey_length k),
      range_map_xor (hmacKey k) 0x36 64 (hmacKey_length k)]
  refine ⟨main key, hmacKey_length key, ?_⟩
  intro h
  have hl := Hash_SHA256_length key
  have hk : hmacKey (Hash.SHA256 key) = hmacKey key := by
    unfold hmacKey
    have h1 : ¬ key.length ≤ 64 := by omega
    have h2 : (Hash.SHA256 key).length ≤ 64 := by omega
    simp only [h1, h2, if_true, if_false]
  rw [main key, main (Hash.SHA256 key), hk]

/-! ## DER signatures -/

open Signature

theorem trim_spec (l : List UInt8) (hne : l ≠ []) :
    l = List.replicate (l.length - (trim l).length) 0 ++ trim l ∧
    1 ≤ (trim l).length ∧ (trim l).length ≤ l.length ∧
    (1 < (trim l).length → (trim l).head? ≠ some 0) := by
  induction l with
  | nil => exact absurd rfl hne
  | cons a l ih =>
    cases l with
    | nil => simp [trim]
    | cons b rest =>
      by_cases ha : a = 0
      · subst ha
        obtain ⟨i1, i2, i3, i4⟩ := ih (by simp)
        have ht : trim (0 :: b :: rest) = trim (b :: rest) := by simp [trim]
        rw [ht]
        refine ⟨?_, i2, by simp at i3 ⊢; omega, i4⟩
        have e : (0 :: b :: rest).length - (trim (b :: rest)).length
            = ((b :: rest).length - (trim (b :: rest)).length) + 1 := by
          simp at i3 ⊢; omega
        rw [e, List.replicate_succ, List.cons_append, ← i1]
      · have ht : trim (a :: b :: rest) = a :: b :: rest := by simp [trim, ha]
        rw [ht]
        simp [ha]

theorem trim_of_head_ne_zero (l : List UInt8) (h : l.head? ≠ some 0) : trim l = l := by
  match l, h with
  | [], _ => rfl
  | [a], _ => rfl
  | a :: b :: rest, h =>
    have ha : a ≠ 0 := by simpa using h
    simp [trim, ha]

theorem toUInt8_small (n : Nat) (h : n < 256) : n.toUInt8.toNat = n := by
  rw [toUInt8_toNat]; omega

theorem take_zeros (n m : Nat) (h : m ≤ n) :
    (List.replicate n (0 : UInt8)).take m = List.replicate m 0 := by
  rw [List.take_replicate, Nat.min_eq_left h]

/-- What `FromDER` returns on an input of the shape `30 b1 02 rl <r> 02 sl <s> <tail>` with
fields of 1 to 32 bytes, whatever `b1` and `tail` are. -/
theorem FromDER_shape (b1 : UInt8) (rf sf tail : List UInt8) (out : Signature)
    (hr1 : 1 ≤ rf.length) (hr32 : rf.length ≤ 32) (hs1 : 1 ≤ sf.length) (hs32 : sf.length ≤ 32) :
    FromDER ([0x30, b1, 0x02, rf.length.toUInt8] ++ rf ++ [0x02, sf.length.toUInt8] ++ sf ++ tail)
      out = .ok (true, ⟨leftPad32 rf, leftPad32 sf⟩) := by
  have hrl := toUInt8_small rf.length (by omega)
  have hsl := toUInt8_small sf.length (by omega)
  have hder : [0x30, b1, 0x02, rf.length.toUInt8] ++ rf ++ [0x02, sf.length.toUInt8] ++ sf ++ tail
      = 0x30 :: b1 :: 0x02 :: rf.length.toUInt8 ::
          (rf ++ (0x02 :: sf.length.toUInt8 :: (sf ++ tail))) := by
    simp
  rw [hder]
  generalize hd : (0x30 : UInt8) :: b1 :: 0x02 :: rf.length.toUInt8 ::
          (rf ++ (0x02 :: sf.length.toUInt8 :: (sf ++ tail))) = der
  have hlen : der.length = 4 + rf.length + (2 + sf.length + tail.length) := by
    rw [← hd]; simp; omega
  have r0 : readAt der 0 = .ok 0x30 := by rw [← hd]; rfl
  have r2 : readAt der 2 = .ok 0x02 := by rw [← hd]; rfl
  have r3 : readAt der (2 + 1) = .ok rf.length.toUInt8 := by rw [← hd]; simp [readAt]
  have d4 : der.drop (2 + 1 + 1) = rf ++ (0x02 :: sf.length.toUInt8 :: (sf ++ tail)) := by
    rw [← hd]; rfl
  have c4 : copyField der (2 + 1 + 1) rf.length = .ok (leftPad32 rf) := by
    unfold copyField
    rw [if_neg (by omega), d4, List.take_left' rfl]
    dsimp only
    rw [take_zeros 32 (32 - rf.length) (by omega)]
    rfl
  have rt : readAt der (2 + 1 + 1 + rf.length) = .ok 0x02 := by
    unfold readAt
    rw [← List.getElem?_drop, d4, List.getElem?_append_right (le_refl _)]
    simp
  have rs : readAt der (2 + 1 + 1 + rf.length + 1) = .ok sf.length.toUInt8 := by
    unfold readAt
    have : 2 + 1 + 1 + rf.length + 1 = 2 + 1 + 1 + (rf.length + 1) := by omega
    rw [this, ← List.getElem?_drop, d4, List.getElem?_append_right (by omega)]
    simp
  have d6 : der.drop (2 + 1 + 1 + rf.length + 1 + 1) = sf ++ tail := by
    have : 2 + 1 + 1 + rf.length + 1 + 1 = (2 + 1 + 1) + (rf.length + 2) := by omega
    rw [this, ← List.drop_drop, d4, List.drop_append_eq_append_drop]
    simp
  have c6 : copyField der (2 + 1 + 1 + rf.length + 1 + 1) sf.length = .ok (leftPad32 sf) := by
    unfold copyField
    rw [if_neg (by omega), d6, List.take_left' rfl]
    dsimp only
    rw [take_zeros 32 (32 - sf.length) (by omega)]
    rfl
  have lp : ∀ f : List UInt8, f.length ≤ 32 → (leftPad32 f).take 32 = leftPad32 f := by
    intro f hf
    apply List.take_of_length_le
    simp [leftPad32]; omega
  unfold FromDER
  rw [if_neg (by omega)]
  simp only [r0, r2, r3, c4, rt, rs, c6, hrl, hsl, lp rf hr32, lp sf hs32]
  rw [if_neg (by decide), if_neg (by decide), if_neg (by omega), if_neg (by decide),
    if_neg (by omega)]

theorem readAt_ok (der : List UInt8) (p : Nat) (b : UInt8) (h : readAt der p = .ok b) :
    der.getD p 0 = b ∧ p < der.length := by
  unfold readAt at h
  split at h
  · rename_i x hx
    injection h with h
    subst h
    have hp : p < der.length := by
      by_contra hn
      rw [List.getElem?_eq_none (by omega)] at hx
      exact absurd hx (by simp)
    exact ⟨by simp [List.getD_eq_getElem?_getD, hx], hp⟩
  · exact absurd h (by simp)

theorem copyField_ok (der : List UInt8) (p len : Nat) (rv : List UInt8)
    (h : copyField der p len = .ok rv) :
    len ≤ 32 ∧ rv = List.replicate (32 - len) 0 ++ (der.drop p).take len := by
  unfold copyField at h
  split at h
  · exact absurd h (by simp)
  · rename_i hle
    injection h with h
    rw [take_zeros 32 (32 - len) (by omega)] at h
    exact ⟨by omega, h.symm⟩

theorem FromDER_accepted_fields (der : List UInt8) (out sig : Signature)
    (h : FromDER der out = .ok (true, sig)) :
    1 ≤ (der.getD 3 0).toNat ∧ (der.getD 3 0).toNat ≤ 32 ∧
    1 ≤ (der.getD (5 + (der.getD 3 0).toNat) 0).toNat ∧
    (der.getD (5 + (der.getD 3 0).toNat) 0).toNat ≤ 32 ∧
    6 + (der.getD 3 0).toNat + (der.getD (5 + (der.getD 3 0).toNat) 0).toNat ≤ der.length ∧
    sig.r = leftPad32 ((der.drop 4).take (der.getD 3 0).toNat) ∧
    sig.s = leftPad32 ((der.drop (6 + (der.getD 3 0).toNat)).take
      (der.getD (5 + (der.getD 3 0).toNat) 0).toNat) := by
  unfold FromDER at h
  split at h
  · exact absurd h (by simp)
  split at h
  · exact absurd h (by simp)
  split at h
  · exact absurd h (by simp)
  dsimp only at h
  split at h
  · exact absurd h (by simp)
  split at h
  · exact absurd h (by simp)
  split at h
  · exact absurd h (by simp)
  rename_i b hb
  split at h
  · exact absurd h (by simp)
  rename_i hrl
  split at h
  · exact absurd h (by simp)
  rename_i rv hrv
  split at h
  · exact absurd h (by simp)
  split at h
  · exact absurd h (by simp)
  split at h
  · exact absurd h (by simp)
  rename_i b' hb'
  split at h
  · exact absurd h (by simp)
  rename_i hsl
  split at h
  · exact absurd h (by simp)
  rename_i sv hsv
  obtain ⟨g3, -⟩ := readAt_ok _ _ _ hb
  obtain ⟨cr1, cr2⟩ := copyField_ok _ _ _ _ hrv
  obtain ⟨cs1, cs2⟩ := copyField_ok _ _ _ _ hsv
  obtain ⟨g5, -⟩ := readAt_ok _ _ _ hb'
  have e3 : der.getD 3 0 = b := g3
  have e5 : der.getD (5 + b.toNat) 0 = b' := by
    have : 2 + 1 + 1 + b.toNat + 1 = 5 + b.toNat := by omega
    rw [this] at g5; exact g5
  have d4 : List.drop (2 + 1 + 1) der = List.drop 4 der := rfl
  have d6 : List.drop (2 + 1 + 1 + b.toNat + 1 + 1) der = List.drop (6 + b.toNat) der := by
    congr 1; omega
  rw [d4] at cr2
  rw [d6] at cs2
  have lr : (List.take b.toNat (List.drop 4 der)).length = b.toNat := by
    simp; omega
  have ls : (List.take b'.toNat (List.drop (6 + b.toNat) der)).length = b'.toNat := by
    simp; omega
  have hsig : sig = ⟨List.take 32 rv, List.take 32 sv⟩ := by
    injection h with h
    injection h with _ h
    exact h.symm
  rw [e3, e5, hsig]
  refine ⟨by omega, cr1, by omega, cs1, by omega, ?_, ?_⟩
  · show List.take 32 rv = _
    rw [cr2, List.take_of_length_le (by simp; omega), leftPad32, lr]
  · show List.take 32 sv = _
    rw [cs2, List.take_of_length_le (by simp; omega), leftPad32, ls]

/-- What `FromDER` does on an input of the shape `30 b1 02 rl <r>` that ends with the `r` field
(at least 8 bytes in all): it indexes `der` at `der.size()`. -/
theorem FromDER_truncated (b1 : UInt8) (rf : List UInt8) (out : Signature)
    (hr4 : 4 ≤ rf.length) (hr32 : rf.length ≤ 32) :
    FromDER ([0x30, b1, 0x02, rf.length.toUInt8] ++ rf) out
      = .error (.readPastEnd (4 + rf.length)) := by
  have hrl := toUInt8_small rf.length (by omega)
  have hder : [0x30, b1, 0x02, rf.length.toUInt8] ++ rf
      = 0x30 :: b1 :: 0x02 :: rf.length.toUInt8 :: rf := by simp
  rw [hder]
  generalize hd : (0x30 : UInt8) :: b1 :: 0x02 :: rf.length.toUInt8 :: rf = der
  have hlen : der.length = 4 + rf.length := by rw [← hd]; simp; omega
  have r0 : readAt der 0 = .ok 0x30 := by rw [← hd]; rfl
  have r2 : readAt der 2 = .ok 0x02 := by rw [← hd]; rfl
  have r3 : readAt der (2 + 1) = .ok rf.length.toUInt8 := by rw [← hd]; simp [readAt]
  have d4 : der.drop (2 + 1 + 1) = rf := by rw [← hd]; rfl
  have c4 : copyField der (2 + 1 + 1) rf.length = .ok (leftPad32 rf) := by
    unfold copyField
    rw [if_neg (by omega), d4, List.take_of_length_le (le_refl _)]
    dsimp only
    rw [take_zeros 32 (32 - rf.length) (by omega)]
    rfl
  have rt : readAt der (2 + 1 + 1 + rf.length) = .error (.readPastEnd (4 + rf.length)) := by
    unfold readAt
    rw [List.getElem?_eq_none (by omega)]
  unfold FromDER
  rw [if_neg (by omega)]
  simp only [r0, r2, r3, c4, rt, hrl]
  rw [if_neg (by decide), if_neg (by decide), if_neg (by omega)]

/-- C15. For every signature (`r` and `s` of 32 bytes each), `ToDER` returns the bytes
`0x30, LL, 0x02, rl, r', 0x02, sl, s'`, where `r'` and `s'` are `r` and `s` without leading zero
bytes but never empty (the removed bytes are all zero, and a remaining field of more than one
byte does not start with zero), `rl = |r'|` and `sl = |s'|` lie between 1 and 32,
`LL = 4 + rl + sl`, each of the three length bytes holds its number without wrapping, and the
total length is `LL + 2`, at most 70. -/
theorem ToDER_eq (sig : Signature) (hr : sig.r.length = 32) (hs : sig.s.length = 32) :
    ToDER sig =
      [0x30, (4 + (trim sig.r).length + (trim sig.s).length).toUInt8,
        0x02, (trim sig.r).length.toUInt8] ++ trim sig.r ++
      [0x02, (trim sig.s).length.toUInt8] ++ trim sig.s ∧
    (sig.r = List.replicate (32 - (trim sig.r).length) 0 ++ trim sig.r ∧
      1 ≤ (trim sig.r).length ∧ (trim sig.r).length ≤ 32 ∧
      (1 < (trim sig.r).length → (trim sig.r).head? ≠ some 0)) ∧
    (sig.s = List.replicate (32 - (trim sig.s).length) 0 ++ trim sig.s ∧
      1 ≤ (trim sig.s).length ∧ (trim sig.s).length ≤ 32 ∧
      (1 < (trim sig.s).length → (trim sig.s).head? ≠ some 0)) ∧
    ((4 + (trim sig.r).length + (trim sig.s).length).toUInt8.toNat
        = 4 + (trim sig.r).length + (trim sig.s).length ∧
      (trim sig.r).length.toUInt8.toNat = (trim sig.r).length ∧
      (trim sig.s).length.toUInt8.toNat = (trim sig.s).length) ∧
    (ToDER sig).length = 4 + (trim sig.r).length + (trim sig.s).length + 2 ∧
    (ToDER sig).length ≤ 70 := by
  obtain ⟨r1, r2, r3, r4⟩ := trim_spec sig.r (by intro h; rw [h] at hr; simp at hr)
  obtain ⟨s1, s2, s3, s4⟩ := trim_spec sig.s (by intro h; rw [h] at hs; simp at hs)
  rw [hr] at r1 r3
  rw [hs] at s1 s3
  have hto : ToDER sig =
      [0x30, (4 + (trim sig.r).length + (trim sig.s).length).toUInt8,
        0x02, (trim sig.r).length.toUInt8] ++ trim sig.r ++
      [0x02, (trim sig.s).length.toUInt8] ++ trim sig.s := by
    have e : 2 + (trim sig.r).length + 2 + (trim sig.s).length
        = 4 + (trim sig.r).length + (trim sig.s).length := by omega
    simp [ToDER, e]
  have hl : (ToDER sig).length = 4 + (trim sig.r).length + (trim sig.s).length + 2 := by
    rw [hto]; simp; omega
  refine ⟨hto, ⟨r1, r2, r3, r4⟩, ⟨s1, s2, s3, s4⟩,
    ⟨toUInt8_small _ (by omega), toUInt8_small _ (by omega), toUInt8_small _ (by omega)⟩,
    hl, by omega⟩

theorem ToDER_eq_witness :
    ToDER ⟨List.replicate 32 0, List.replicate 31 0 ++ [0x80]⟩
      = [0x30, 0x06, 0x02, 0x01, 0x00, 0x02, 0x01, 0x80] ∧
    (ToDER ⟨List.replicate 32 7, List.replicate 32 9⟩).length ≤ 70 := by
  refine ⟨?_, (ToDER_eq ⟨List.replicate 32 7, List.replicate 32 9⟩ (by decide) (by decide)).2.2.2.2.2⟩
  decide

/-- C14. For every signature whose `r` and `s` (32 bytes each) do not start with a zero byte,
`FromDER(sig.ToDER())` returns true, without fault, and yields the `r` and `s` of `sig`, whatever
the receiving signature held. -/
theorem FromDER_ToDER (sig out : Signature) (hr : sig.r.length = 32) (hs : sig.s.length = 32)
    (hr0 : sig.r.head? ≠ some 0) (hs0 : sig.s.head? ≠ some 0) :
    FromDER (ToDER sig) out = .ok (true, sig) := by
  have h := FromDER_shape (2 + sig.r.length + 2 + sig.s.length).toUInt8 sig.r sig.s [] out
    (by omega) (by omega) (by omega) (by omega)
  have hto : ToDER sig = [0x30, (2 + sig.r.length + 2 + sig.s.length).toUInt8, 0x02,
      sig.r.length.toUInt8] ++ sig.r ++ [0x02, sig.s.length.toUInt8] ++ sig.s ++ [] := by
    simp [ToDER, trim_of_head_ne_zero _ hr0, trim_of_head_ne_zero _ hs0]
  rw [hto, h]
  have e1 : leftPad32 sig.r = sig.r := by simp [leftPad32, hr]
  have e2 : leftPad32 sig.s = sig.s := by simp [leftPad32, hs]
  rw [e1, e2]

theorem FromDER_ToDER_witness :
    FromDER (ToDER ⟨List.replicate 32 7, List.replicate 31 9 ++ [0]⟩) ⟨[], []⟩
      = .ok (true, ⟨List.replicate 32 7, List.replicate 31 9 ++ [0]⟩) :=
  FromDER_ToDER ⟨List.replicate 32 7, List.replicate 31 9 ++ [0]⟩ ⟨[], []⟩
    (by decide) (by decide) (by decide) (by decide)

/-- C16. For every input that `FromDER` accepts, the two INTEGER length bytes are between 1
and 32 and the resulting `r` and `s` are the contents of the respective INTEGER fields (of the
announced lengths) left-padded with zero bytes to exactly 32 bytes; and every well-formed input
with fields of 1 to 32 bytes, so also shorter than 32, is accepted. -/
theorem FromDER_left_pads (der : List UInt8) (out sig : Signature)
    (h : FromDER der out = .ok (true, sig)) :
    (1 ≤ (der.getD 3 0).toNat ∧ (der.getD 3 0).toNat ≤ 32 ∧
      1 ≤ (der.getD (5 + (der.getD 3 0).toNat) 0).toNat ∧
      (der.getD (5 + (der.getD 3 0).toNat) 0).toNat ≤ 32) ∧
    sig.r = List.replicate (32 - (der.getD 3 0).toNat) 0
      ++ (der.drop 4).take (der.getD 3 0).toNat ∧
    sig.s = List.replicate (32 - (der.getD (5 + (der.getD 3 0).toNat) 0).toNat) 0
      ++ (der.drop (6 + (der.getD 3 0).toNat)).take (der.getD (5 + (der.getD 3 0).toNat) 0).toNat ∧
    ((der.drop 4).take (der.getD 3 0).toNat).length = (der.getD 3 0).toNat ∧
    ((der.drop (6 + (der.getD 3 0).toNat)).take
      (der.getD (5 + (der.getD 3 0).toNat) 0).toNat).length
        = (der.getD (5 + (der.getD 3 0).toNat) 0).toNat ∧
    sig.r.length = 32 ∧ sig.s.length = 32 ∧
    ∀ (b1 : UInt8) (rf sf : List UInt8) (o : Signature),
      1 ≤ rf.length → rf.length ≤ 32 → 1 ≤ sf.length → sf.length ≤ 32 →
      FromDER ([0x30, b1, 0x02, rf.length.toUInt8] ++ rf ++ [0x02, sf.length.toUInt8] ++ sf) o
        = .ok (true, ⟨List.replicate (32 - rf.length) 0 ++ rf,
                      List.replicate (32 - sf.length) 0 ++ sf⟩) := by
  obtain ⟨a1, a2, a3, a4, a5, a6, a7⟩ := FromDER_accepted_fields der out sig h
  have lr : ((der.drop 4).take (der.getD 3 0).toNat).length = (der.getD 3 0).toNat := by
    rw [List.length_take, List.length_drop]; omega
  have ls : ((der.drop (6 + (der.getD 3 0).toNat)).take
      (der.getD (5 + (der.getD 3 0).toNat) 0).toNat).length
        = (der.getD (5 + (der.getD 3 0).toNat) 0).toNat := by
    rw [List.length_take, List.length_drop]; omega
  have e6 : sig.r = List.replicate (32 - (der.getD 3 0).toNat) 0
      ++ (der.drop 4).take (der.getD 3 0).toNat := by
    rw [a6, leftPad32, lr]
  have e7 : sig.s = List.replicate (32 - (der.getD (5 + (der.getD 3 0).toNat) 0).toNat) 0
      ++ (der.drop (6 + (der.getD 3 0).toNat)).take
        (der.getD (5 + (der.getD 3 0).toNat) 0).toNat := by
    rw [a7, leftPad32, ls]
  refine ⟨⟨a1, a2, a3, a4⟩, e6, e7, lr, ls, ?_, ?_, ?_⟩
  · rw [e6, List.length_append, List.length_replicate, lr]; omega
  · rw [e7, List.length_append, List.length_replicate, ls]; omega
  · intro b1 rf sf o h1 h2 h3 h4
    have := FromDER_shape b1 rf sf [] o h1 h2 h3 h4
    rw [List.append_nil] at this
    exact this

theorem FromDER_left_pads_witness :
    FromDER [0x30, 0x06, 0x02, 0x01, 0x05, 0x02, 0x01, 0x07] ⟨[], []⟩
      = .ok (true, ⟨List.replicate 31 0 ++ [0x05], List.replicate 31 0 ++ [0x07]⟩) ∧
    (List.replicate 31 0 ++ [(0x05 : UInt8)]).length = 32 :=
  ⟨rfl, (FromDER_left_pads [0x30, 0x06, 0x02, 0x01, 0x05, 0x02, 0x01, 0x07] ⟨[], []⟩
    ⟨List.replicate 31 0 ++ [0x05], List.replicate 31 0 ++ [0x07]⟩ (by rfl)).2.2.2.2.2.1⟩

/-- C17 (as the code behaves). On the 8-byte input `30 06 02 04 01 02 03 04`, whose `r` field
ends at the last byte, `FromDER` does not return false: after copying `r` it evaluates
`der[p++] != 0x02` with `p = 8 = der.size()`, a read past the end of its input. The same read
at index `der.size()` happens for every input `30 b1 02 rl <r>` that ends with an `r` field of
4 to 32 bytes. -/
theorem FromDER_reads_past_end :
    (∀ out : Signature, FromDER [0x30, 0x06, 0x02, 0x04, 0x01, 0x02, 0x03, 0x04] out
      = .error (.readPastEnd 8)) ∧
    ([0x30, 0x06, 0x02, 0x04, 0x01, 0x02, 0x03, 0x04] : List UInt8).length = 8 ∧
    ∀ (b1 : UInt8) (rf : List UInt8) (out : Signature), 4 ≤ rf.length → rf.length ≤ 32 →
      FromDER ([0x30, b1, 0x02, rf.length.toUInt8] ++ rf) out
        = .error (.readPastEnd ([0x30, b1, 0x02, rf.length.toUInt8] ++ rf).length) := by
  refine ⟨?_, rfl, ?_⟩
  · intro out
    exact FromDER_truncated 0x06 [0x01, 0x02, 0x03, 0x04] out (by decide) (by decide)
  · intro b1 rf out h4 h32
    rw [FromDER_truncated b1 rf out h4 h32]
    simp; omega

/-! ## WIF import and key serialisation -/

theorem dropLast_drop_take (l : List UInt8) (h : l.length = 34) :
    (l.dropLast.drop 1).take 32 = (l.drop 1).take 32 := by
  rw [List.dropLast_eq_take, h, List.drop_take, List.take_take]
  rfl

/-- Both `FromWIF` functions in terms of the result `d` of `DecodeCheck`: the accepted case. -/
theorem FromWIF_accepts (verify : List UInt8 → Bool) (wif : List UInt8)
    (hd : (DecodeCheck wif []).1 = true)
    (hl : (DecodeCheck wif []).2.length = 33 ∨
      ((DecodeCheck wif []).2.length = 34 ∧ (DecodeCheck wif []).2.getLast? = some 0x01))
    (hs : verify (((DecodeCheck wif []).2.drop 1).take 32) = true) :
    PrivateKey.FromWIF verify wif
      = ⟨true, decide ((DecodeCheck wif []).2.length = 34),
          ((DecodeCheck wif []).2.drop 1).take 32⟩ ∧
    Key.FromWIF verify wif
      = ⟨true, decide ((DecodeCheck wif []).2.length = 34),
          ((DecodeCheck wif []).2.drop 1).take 32⟩ := by
  unfold PrivateKey.FromWIF Key.FromWIF
  generalize DecodeCheck wif [] = d at hd hl hs
  obtain ⟨ok, buf⟩ := d
  simp only at hd hl hs
  subst hd
  rcases hl with h33 | ⟨h34, hlast⟩
  · simp only [List.drop_one] at hs
    simp [h33, PrivateKey.ofBytes, Key.SetPrivateKey, hs]
  · have e := dropLast_drop_take buf h34
    simp only [List.drop_one] at hs e
    simp [h34, hlast, PrivateKey.ofBytes, Key.SetPrivateKey, e, hs]

/-- Both `FromWIF` functions in terms of the result of `DecodeCheck`: the rejected case. -/
theorem FromWIF_rejects (verify : List UInt8 → Bool) (wif : List UInt8)
    (h : ¬ ((DecodeCheck wif []).1 = true ∧
      ((DecodeCheck wif []).2.length = 33 ∨
        ((DecodeCheck wif []).2.length = 34 ∧ (DecodeCheck wif []).2.getLast? = some 0x01)) ∧
      verify (((DecodeCheck wif []).2.drop 1).take 32) = true)) :
    (PrivateKey.FromWIF verify wif).valid = false ∧ (Key.FromWIF verify wif).valid = false := by
  unfold PrivateKey.FromWIF Key.FromWIF
  generalize DecodeCheck wif [] = d at h
  obtain ⟨ok, buf⟩ := d
  simp only at h
  cases ok
  · simp [PrivateKey.default, Key.default]
  · by_cases h33 : buf.length = 33
    · have hv : verify ((buf.drop 1).take 32) = false := by
        cases hq : verify ((buf.drop 1).take 32)
        · rfl
        · exact absurd ⟨rfl, Or.inl h33, hq⟩ h
      simp only [List.drop_one] at hv
      simp [h33, PrivateKey.ofBytes, Key.SetPrivateKey, hv, Key.default]
    · by_cases h34 : buf.length = 34
      · by_cases hlast : buf.getLast? = some 0x01
        · have hv : verify ((buf.drop 1).take 32) = false := by
            cases hq : verify ((buf.drop 1).take 32)
            · rfl
            · exact absurd ⟨rfl, Or.inr ⟨h34, hlast⟩, hq⟩ h
          have e := dropLast_drop_take buf h34
          simp only [List.drop_one] at hv e
          simp [h34, hlast, PrivateKey.ofBytes, Key.SetPrivateKey, e, hv, Key.default]
        · simp [h34, hlast, PrivateKey.default, Key.default]
      · simp [h33, h34, PrivateKey.default, Key.default]

/-- C18. For every text, `PrivateKey::FromWIF` and `Key::FromWIF` yield a valid key exactly
when `DecodeCheck` succeeds, the payload has 33 bytes, or 34 bytes the last of which is `0x01`,
and payload bytes 1..32 pass the scalar check; then the key is valid, its scalar is payload
bytes 1..32 (32 bytes) and its compression flag is true exactly for the 34-byte form. In every
other case the key returned is invalid. -/
theorem FromWIF_spec (verify : List UInt8 → Bool) (wif : List UInt8) :
    ((DecodeCheck wif []).1 = true ∧
        ((DecodeCheck wif []).2.length = 33 ∨
          ((DecodeCheck wif []).2.length = 34 ∧ (DecodeCheck wif []).2.getLast? = some 0x01)) ∧
        verify (((DecodeCheck wif []).2.drop 1).take 32) = true →
      PrivateKey.FromWIF verify wif
        = ⟨true, decide ((DecodeCheck wif []).2.length = 34),
            ((DecodeCheck wif []).2.drop 1).take 32⟩ ∧
      Key.FromWIF verify wif
        = ⟨true, decide ((DecodeCheck wif []).2.length = 34),
            ((DecodeCheck wif []).2.drop 1).take 32⟩ ∧
      (((DecodeCheck wif []).2.drop 1).take 32).length = 32) ∧
    (¬ ((DecodeCheck wif []).1 = true ∧
        ((DecodeCheck wif []).2.length = 33 ∨
          ((DecodeCheck wif []).2.length = 34 ∧ (DecodeCheck wif []).2.getLast? = some 0x01)) ∧
        verify (((DecodeCheck wif []).2.drop 1).take 32) = true) →
      (PrivateKey.FromWIF verify wif).valid = false ∧ (Key.FromWIF verify wif).valid = false) := by
  refine ⟨?_, FromWIF_rejects verify wif⟩
  rintro ⟨hd, hl, hs⟩
  obtain ⟨h1, h2⟩ := FromWIF_accepts verify wif hd hl hs
  refine ⟨h1, h2, ?_⟩
  rw [List.length_take, List.length_drop]
  rcases hl with h | ⟨h, _⟩ <;> omega

/-- C19 (as the code behaves). The text `cMahea7zqjxrtgAbB7LSGbcQUr1uX1ojuat9jZodMN87JcbXMTcA`
passes `DecodeCheck` with the payload `0xEF ∥ scalar 1 ∥ 0x01`, whose first byte is not `0x80`,
and both `FromWIF` functions return a valid, compressed key with the scalar 1. -/
theorem FromWIF_accepts_testnet_version :
    (DecodeCheck (str "cMahea7zqjxrtgAbB7LSGbcQUr1uX1ojuat9jZodMN87JcbXMTcA") [])
      = (true, [0xEF] ++ List.replicate 31 0 ++ [0x01] ++ [0x01]) ∧
    PrivateKey.FromWIF ValidateScalar (str "cMahea7zqjxrtgAbB7LSGbcQUr1uX1ojuat9jZodMN87JcbXMTcA")
      = ⟨true, true, List.replicate 31 0 ++ [0x01]⟩ ∧
    Key.FromWIF ValidateScalar (str "cMahea7zqjxrtgAbB7LSGbcQUr1uX1ojuat9jZodMN87JcbXMTcA")
      = ⟨true, true, List.replicate 31 0 ++ [0x01]⟩ := by
  decide!

/-- C19 (amended). `FromWIF` does not examine the version byte: for every text whose
`DecodeCheck` payload has a first byte different from `0x80`, `PrivateKey::FromWIF` and
`Key::FromWIF` yield a valid key exactly when `DecodeCheck` succeeds, the payload has 33 bytes,
or 34 bytes the last of which is `0x01`, and payload bytes 1..32 pass the scalar check; the
key then holds those 32 bytes. -/
theorem FromWIF_ignores_version (verify : List UInt8 → Bool) (wif : List UInt8)
    (_hv : (DecodeCheck wif []).2.head? ≠ some 0x80) :
    ((PrivateKey.FromWIF verify wif).valid = true ↔
      ((DecodeCheck wif []).1 = true ∧
        ((DecodeCheck wif []).2.length = 33 ∨
          ((DecodeCheck wif []).2.length = 34 ∧ (DecodeCheck wif []).2.getLast? = some 0x01)) ∧
        verify (((DecodeCheck wif []).2.drop 1).take 32) = true)) ∧
    ((Key.FromWIF verify wif).valid = true ↔
      ((DecodeCheck wif []).1 = true ∧
        ((DecodeCheck wif []).2.length = 33 ∨
          ((DecodeCheck wif []).2.length = 34 ∧ (DecodeCheck wif []).2.getLast? = some 0x01)) ∧
        verify (((DecodeCheck wif []).2.drop 1).take 32) = true)) ∧
    ((PrivateKey.FromWIF verify wif).valid = true →
      (PrivateKey.FromWIF verify wif).key = ((DecodeCheck wif []).2.drop 1).take 32) ∧
    ((Key.FromWIF verify wif).valid = true →
      (Key.FromWIF verify wif).privKey = ((DecodeCheck wif []).2.drop 1).take 32) := by
  by_cases hc : ((DecodeCheck wif []).1 = true ∧
        ((DecodeCheck wif []).2.length = 33 ∨
          ((DecodeCheck wif []).2.length = 34 ∧ (DecodeCheck wif []).2.getLast? = some 0x01)) ∧
        verify (((DecodeCheck wif []).2.drop 1).take 32) = true)
  · obtain ⟨h1, h2⟩ := FromWIF_accepts verify wif hc.1 hc.2.1 hc.2.2
    refine ⟨⟨fun _ => hc, fun _ => ?_⟩, ⟨fun _ => hc, fun _ => ?_⟩, fun _ => ?_, fun _ => ?_⟩
    · rw [h1]
    · rw [h2]
    · rw [h1]
    · rw [h2]
  · obtain ⟨h1, h2⟩ := FromWIF_rejects verify wif hc
    refine ⟨⟨fun h => ?_, fun h => absurd h hc⟩, ⟨fun h => ?_, fun h => absurd h hc⟩,
      fun h => ?_, fun h => ?_⟩
    · rw [h1] at h; exact absurd h (by decide)
    · rw [h2] at h; exact absurd h (by decide)
    · rw [h1] at h; exact absurd h (by decide)
    · rw [h2] at h; exact absurd h (by decide)

theorem FromWIF_ignores_version_witness :
    (DecodeCheck (str "91avARGdfge8E4tZfYLoxeJ5sGBdNJQH4kvjJoQFacbgwmaKkrx") []).2.head?
      = some 0xEF ∧
    (PrivateKey.FromWIF ValidateScalar
      (str "91avARGdfge8E4tZfYLoxeJ5sGBdNJQH4kvjJoQFacbgwmaKkrx")).valid = true :=
  ⟨by decide!,
   (FromWIF_ignores_version ValidateScalar
      (str "91avARGdfge8E4tZfYLoxeJ5sGBdNJQH4kvjJoQFacbgwmaKkrx") (by decide!)).1.2 (by decide!)⟩

/-- C20. For every valid `Key` `k` (marked valid, scalar of 32 bytes accepted by the scalar
check), `Serialize(k)` is the 34 bytes `[0x01] ∥ [0x01 if compressed else 0x00] ∥ scalar`, and
`Deserialize` of those bytes into any `Key` returns true and leaves it with the valid flag, the
compression flag and the scalar of `k`. -/
theorem Deserialize_Serialize (verify : List UInt8 → Bool) (k k0 : Key)
    (hv : k.valid = true) (hs : verify k.privKey = true) (hl : k.privKey.length = 32) :
    Key.Serialize k = [0x01] ++ [if k.compressed then 0x01 else 0x00] ++ k.privKey ∧
    (Key.Serialize k).length = 34 ∧
    Key.Deserialize verify k0 (Key.Serialize k) = (true, k) := by
  obtain ⟨v, c, p⟩ := k
  simp only at hv hs hl
  subst hv
  have e : Key.Serialize ⟨true, c, p⟩ = [0x01] ++ [if c then 0x01 else 0x00] ++ p := by
    simp [Key.Serialize]
  have hlen : (Key.Serialize ⟨true, c, p⟩).length = 34 := by rw [e]; simp [hl]
  refine ⟨e, hlen, ?_⟩
  unfold Key.Deserialize
  rw [if_neg (by rw [hlen]; simp)]
  have d2 : ((Key.Serialize ⟨true, c, p⟩).drop 2).take 32 = p := by
    rw [e]; simp [← hl]
  have g0 : (Key.Serialize ⟨true, c, p⟩).getD 0 0 = 1 := by rw [e]; rfl
  have g1 : (Key.Serialize ⟨true, c, p⟩).getD 1 0 = if c then 1 else 0 := by rw [e]; rfl
  simp only [d2, g0, g1, PrivateKey.ofBytes, hs]
  cases c <;> simp

theorem Deserialize_Serialize_witness :
    Key.Deserialize ValidateScalar Key.default
        (Key.Serialize ⟨true, false, List.replicate 31 0 ++ [0x01]⟩)
      = (true, ⟨true, false, List.replicate 31 0 ++ [0x01]⟩) :=
  (Deserialize_Serialize ValidateScalar ⟨true, false, List.replicate 31 0 ++ [0x01]⟩ Key.default
    (by decide) (by decide!) (by decide)).2.2

/-! ## Key records and the validity invariant -/

/-- C21. For every 34-byte record whose scalar (bytes 2..33) fails the scalar check,
`Key::Deserialize` returns false and leaves the key marked invalid, whatever the stored valid
byte is; for an input whose length is not 34 it returns false and leaves the key as it was. -/
theorem Deserialize_rejects (verify : List UInt8 → Bool) (k : Key) (inp : List UInt8) :
    (inp.length = 34 → verify ((inp.drop 2).take 32) = false →
      (Key.Deserialize verify k inp).1 = false ∧
      (Key.Deserialize verify k inp).2.valid = false) ∧
    (inp.length ≠ 34 → Key.Deserialize verify k inp = (false, k)) := by
  constructor
  · intro hl hv
    simp [Key.Deserialize, hl, PrivateKey.ofBytes, hv]
  · intro hl
    simp [Key.Deserialize, hl]

theorem PrivateKey_ofBytes_Inv (verify : List UInt8 → Bool) (priv : List UInt8) (pre : Bool) :
    PrivateKey.Inv verify (PrivateKey.ofBytes verify priv pre) := by
  unfold PrivateKey.Inv PrivateKey.ofBytes
  cases h : verify priv <;> simp [h]

theorem FromWIF_Inv (verify : List UInt8 → Bool) (wif : List UInt8) :
    PrivateKey.Inv verify (PrivateKey.FromWIF verify wif) ∧
    Key.Inv verify (Key.FromWIF verify wif) := by
  by_cases hc : ((DecodeCheck wif []).1 = true ∧
      ((DecodeCheck wif []).2.length = 33 ∨
        ((DecodeCheck wif []).2.length = 34 ∧ (DecodeCheck wif []).2.getLast? = some 0x01)) ∧
      verify (((DecodeCheck wif []).2.drop 1).take 32) = true)
  · obtain ⟨h1, h2⟩ := FromWIF_accepts verify wif hc.1 hc.2.1 hc.2.2
    unfold PrivateKey.Inv Key.Inv
    rw [h1, h2]
    exact ⟨fun _ => hc.2.2, fun _ => hc.2.2⟩
  · obtain ⟨h1, h2⟩ := FromWIF_rejects verify wif hc
    unfold PrivateKey.Inv Key.Inv
    rw [h1, h2]
    exact ⟨fun h => absurd h (by decide), fun h => absurd h (by decide)⟩

theorem Key_SetPrivateKey_Inv (verify : List UInt8 → Bool) (k : Key) (pk : List UInt8)
    (comp : Bool) : Key.Inv verify (Key.SetPrivateKey verify k pk comp).2 := by
  unfold Key.Inv Key.SetPrivateKey PrivateKey.ofBytes
  cases h : verify pk <;> simp [h]

theorem Key_Deserialize_Inv (verify : List UInt8 → Bool) (k : Key) (inp : List UInt8)
    (hk : Key.Inv verify k) : Key.Inv verify (Key.Deserialize verify k inp).2 := by
  unfold Key.Deserialize
  split
  · exact hk
  · unfold Key.Inv PrivateKey.ofBytes
    cases h : verify ((inp.drop 2).take 32) <;> simp [h]

theorem Key_ofPrivateKey_Inv (verify : List UInt8 → Bool) (pk : PrivateKey)
    (hk : PrivateKey.Inv verify pk) : Key.Inv verify (Key.ofPrivateKey pk) := by
  unfold Key.Inv Key.ofPrivateKey
  unfold PrivateKey.Inv at hk
  cases h : pk.valid <;> simp [h]
  exact hk h

/-- C22. Validity invariant: every `PrivateKey` and every `Key` reachable through the
constructors, `PrivateKey::FromWIF`, `Key::FromWIF`, `Key::SetPrivateKey` and `Key::Deserialize`
that is marked valid holds a scalar accepted by the scalar check; `SetPrivateKey` and
`Deserialize` preserve the invariant whether they return true or false, and `Key(pk)` carries it
over from the private key. -/
theorem Reachable_Inv (verify : List UInt8 → Bool) :
    (∀ k, PrivateKey.Reachable verify k → PrivateKey.Inv verify k) ∧
    (∀ k, Key.Reachable verify k → Key.Inv verify k) ∧
    (∀ k pk comp, Key.Inv verify k → Key.Inv verify (Key.SetPrivateKey verify k pk comp).2) ∧
    (∀ k inp, Key.Inv verify k → Key.Inv verify (Key.Deserialize verify k inp).2) ∧
    (∀ pk, PrivateKey.Inv verify pk → Key.Inv verify (Key.ofPrivateKey pk)) := by
  have hP : ∀ k, PrivateKey.Reachable verify k → PrivateKey.Inv verify k := by
    intro k hk
    cases hk with
    | default => intro h; exact absurd h (by decide)
    | ofBytes priv pre => exact PrivateKey_ofBytes_Inv verify priv pre
    | FromWIF wif => exact (FromWIF_Inv verify wif).1
  refine ⟨hP, ?_, fun k pk comp _ => Key_SetPrivateKey_Inv verify k pk comp,
    fun k inp hk => Key_Deserialize_Inv verify k inp hk,
    fun pk hk => Key_ofPrivateKey_Inv verify pk hk⟩
  intro k hk
  induction hk with
  | default => intro h; exact absurd h (by decide)
  | ofPrivateKey pk hpk => exact Key_ofPrivateKey_Inv verify pk (hP pk hpk)
  | FromWIF wif => exact (FromWIF_Inv verify wif).2
  | SetPrivateKey k pk comp _ _ => exact Key_SetPrivateKey_Inv verify k pk comp
  | Deserialize k inp _ ih => exact Key_Deserialize_Inv verify k inp ih

/-- C23 (as the code behaves). The 32 bytes of `ECDSA::curve_n` are not the big-endian encoding
of the secp256k1 group order `n`: they are bytes 4..31 of that encoding (the first four `0xFF`
bytes are missing) followed by `02 DF A9 89`, and their big-endian value is not `n`. -/
theorem curve_n_ne_group_order :
    ECDSA.curve_n ≠ beBytes 32 secp256k1_n ∧
    ECDSA.curve_n.length = 32 ∧
    beValue (beBytes 32 secp256k1_n) = secp256k1_n ∧
    beValue ECDSA.curve_n
      = 0xFFFFFFFFFFFFFFFFFFFFFFFEBAAEDCE6AF48A03BBFD25E8CD036414102DFA989 ∧
    beValue ECDSA.curve_n ≠ secp256k1_n ∧
    ECDSA.curve_n.take 28 = (beBytes 32 secp256k1_n).drop 4 ∧
    ECDSA.curve_n.drop 28 = [0x02, 0xDF, 0xA9, 0x89] := by
  decide!

/-! ## DER high bit, public-key bytes, leading zeros of Base58 -/

theorem head_ne_zero_of_high (l : List UInt8) (h : 0x80 ≤ l.getD 0 0) : l.head? ≠ some 0 := by
  cases l with
  | nil => simp
  | cons a t =>
    simp only [List.getD_cons_zero] at h
    simp only [List.head?_cons, ne_eq, Option.some.injEq]
    intro ha
    rw [ha] at h
    exact absurd h (by decide)

/-- C27. `ToDER` does not insert a padding zero byte: for every signature (32-byte `r` and
`s`) whose `r` has first byte `≥ 0x80`, the INTEGER field emitted for `r` has length byte 32 and
content exactly the 32 bytes of `r`, so its first content byte has the high bit set; and
likewise for `s`. -/
theorem ToDER_keeps_high_bit (sig : Signature) (hr : sig.r.length = 32)
    (hs : sig.s.length = 32) :
    (0x80 ≤ sig.r.getD 0 0 →
      ToDER sig = [0x30, (4 + 32 + (trim sig.s).length).toUInt8, 0x02, 32] ++ sig.r
        ++ [0x02, (trim sig.s).length.toUInt8] ++ trim sig.s ∧
      (ToDER sig).getD 3 0 = 32 ∧
      ((ToDER sig).drop 4).take 32 = sig.r ∧
      0x80 ≤ (ToDER sig).getD 4 0) ∧
    (0x80 ≤ sig.s.getD 0 0 →
      ToDER sig = [0x30, (4 + (trim sig.r).length + 32).toUInt8, 0x02,
          (trim sig.r).length.toUInt8] ++ trim sig.r ++ [0x02, 32] ++ sig.s ∧
      (ToDER sig).getD (5 + (trim sig.r).length) 0 = 32 ∧
      (ToDER sig).drop (6 + (trim sig.r).length) = sig.s ∧
      0x80 ≤ (ToDER sig).getD (6 + (trim sig.r).length) 0) := by
  have hto : ToDER sig =
      [0x30, (4 + (trim sig.r).length + (trim sig.s).length).toUInt8,
        0x02, (trim sig.r).length.toUInt8] ++ trim sig.r ++
      [0x02, (trim sig.s).length.toUInt8] ++ trim sig.s := by
    have e : 2 + (trim sig.r).length + 2 + (trim sig.s).length
        = 4 + (trim sig.r).length + (trim sig.s).length := by omega
    simp [ToDER, e]
  constructor
  · intro h
    have ht := trim_of_head_ne_zero sig.r (head_ne_zero_of_high _ h)
    have e : ToDER sig = [0x30, (4 + 32 + (trim sig.s).length).toUInt8, 0x02, 32] ++ sig.r
        ++ [0x02, (trim sig.s).length.toUInt8] ++ trim sig.s := by
      rw [hto, ht, hr]; rfl
    have e4 : (ToDER sig).drop 4 = sig.r ++ ([0x02, (trim sig.s).length.toUInt8] ++ trim sig.s) := by
      rw [e]; simp
    refine ⟨e, by rw [e]; rfl, ?_, ?_⟩
    · rw [e4, List.take_left' hr]
    · have : (ToDER sig).getD 4 0 = sig.r.getD 0 0 := by
        rw [e]
        cases hsr : sig.r with
        | nil => rw [hsr] at hr; simp at hr
        | cons a t => rfl
      rw [this]; exact h
  · intro h
    have ht := trim_of_head_ne_zero sig.s (head_ne_zero_of_high _ h)
    have e : ToDER sig = [0x30, (4 + (trim sig.r).length + 32).toUInt8, 0x02,
          (trim sig.r).length.toUInt8] ++ trim sig.r ++ [0x02, 32] ++ sig.s := by
      rw [hto, ht, hs]; rfl
    have e' : ToDER sig = ([0x30, (4 + (trim sig.r).length + 32).toUInt8, 0x02,
          (trim sig.r).length.toUInt8] ++ trim sig.r ++ [0x02]) ++ (32 :: sig.s) := by
      rw [e]; simp
    have e'' : ToDER sig = ([0x30, (4 + (trim sig.r).length + 32).toUInt8, 0x02,
          (trim sig.r).length.toUInt8] ++ trim sig.r ++ [0x02, 32]) ++ sig.s := by
      rw [e]
    have l1 : ([0x30, (4 + (trim sig.r).length + 32).toUInt8, 0x02,
          (trim sig.r).length.toUInt8] ++ trim sig.r ++ [0x02]).length
        = 5 + (trim sig.r).length := by simp; omega
    have l2 : ([0x30, (4 + (trim sig.r).length + 32).toUInt8, 0x02,
          (trim sig.r).length.toUInt8] ++ trim sig.r ++ [0x02, 32]).length
        = 6 + (trim sig.r).length := by simp; omega
    have d6 : (ToDER sig).drop (6 + (trim sig.r).length) = sig.s := by
      rw [e'', List.drop_left' l2]
    refine ⟨e, ?_, d6, ?_⟩
    · rw [e', List.getD_eq_getElem?_getD, ← l1, List.getElem?_append_right (le_refl _)]
      simp
    · have : (ToDER sig).getD (6 + (trim sig.r).length) 0 = sig.s.getD 0 0 := by
        rw [List.getD_eq_getElem?_getD, List.getD_eq_getElem?_getD, ← List.head?_drop, d6,
          List.head?_eq_getElem?]
      rw [this]; exact h

theorem ToDER_keeps_high_bit_witness :
    ToDER ⟨[0x80] ++ List.replicate 31 1, [0xFF] ++ List.replicate 31 2⟩
      = [0x30, 68, 0x02, 32] ++ ([0x80] ++ List.replicate 31 1)
        ++ [0x02, 32] ++ ([0xFF] ++ List.replicate 31 2) :=
  ((ToDER_keeps_high_bit ⟨[0x80] ++ List.replicate 31 1, [0xFF] ++ List.replicate 31 2⟩
    (by decide) (by decide)).1 (by decide)).1

theorem parseAt_append (header : Nat → UInt8 → Bool) (parse : List UInt8 → Bool)
    (key extra : List UInt8) (hk : key.length = 65) :
    PublicKey.parseAt header parse (key ++ extra) 65
      = .ok (header 65 (key.getD 0 0) && parse key) := by
  have h0 : (key ++ extra)[0]? = some (key.getD 0 0) := by
    cases key with
    | nil => simp at hk
    | cons a t => simp
  have hl : ¬ (key ++ extra).length < 65 := by simp; omega
  have ht : (key ++ extra).take 65 = key := List.take_left' hk
  unfold PublicKey.parseAt
  rw [h0]
  dsimp only
  rw [if_neg hl, ht]
  cases header 65 (key.getD 0 0) <;> simp

theorem ECDSA_Verify_append (header : Nat → UInt8 → Bool) (parse : List UInt8 → Bool)
    (ecverify : List UInt8 → List UInt8 → List UInt8 → Bool) (msg : List UInt8)
    (sig : Signature) (key extra : List UInt8) (hk : key.length = 65) :
    ECDSA.Verify header parse ecverify (key ++ extra) msg sig
      = .ok (header 65 (key.getD 0 0) && parse key &&
          ecverify (sig.r.take 32 ++ sig.s.take 32) msg key) := by
  have hl : (key ++ extra).length ≠ 33 := by simp; omega
  have ht : (key ++ extra).take 65 = key := List.take_left' hk
  have hp := parseAt_append header parse key [] hk
  rw [List.append_nil] at hp
  simp only [ECDSA.Verify, if_neg hl, PublicKey.ofUncompressed,
    parseAt_append header parse key extra hk, ht]
  cases hh : (header 65 (key.getD 0 0) && parse key)
  · simp [PublicKey.Verify]
  · rw [hh] at hp
    simp [PublicKey.Verify, hk, hp]

/-- C28 (as the code behaves). `ECDSA::Verify` tests only `pubkey.size() == 33` and treats
every other vector as a 65-byte array. For the empty vector the parser is called with length 65
on the vector's storage and reads `input[0]`, beyond the end of the vector. For a 66-byte
vector the result is that of its first 65 bytes: true when those are a key the parser accepts
and under which the signature verifies. -/
theorem ECDSA_Verify_wrong_length (header : Nat → UInt8 → Bool) (parse : List UInt8 → Bool)
    (ecverify : List UInt8 → List UInt8 → List UInt8 → Bool) (msg : List UInt8)
    (sig : Signature) :
    ECDSA.Verify header parse ecverify [] msg sig = .error (.readPastEnd 0) ∧
    (∀ (key : List UInt8) (b : UInt8), key.length = 65 →
      (key ++ [b]).length = 66 ∧
      ECDSA.Verify header parse ecverify (key ++ [b]) msg sig
        = ECDSA.Verify header parse ecverify key msg sig) ∧
    (∀ (key : List UInt8) (b : UInt8), key.length = 65 →
      header 65 (key.getD 0 0) = true → parse key = true →
      ecverify (sig.r.take 32 ++ sig.s.take 32) msg key = true →
      ECDSA.Verify header parse ecverify (key ++ [b]) msg sig = .ok true) := by
  refine ⟨rfl, ?_, ?_⟩
  · intro key b hk
    have := ECDSA_Verify_append header parse ecverify msg sig key [] hk
    rw [List.append_nil] at this
    rw [ECDSA_Verify_append header parse ecverify msg sig key [b] hk, this]
    exact ⟨by simp [hk], rfl⟩
  · intro key b hk hh hp hv
    rw [ECDSA_Verify_append header parse ecverify msg sig key [b] hk, hh, hp, hv]
    rfl

theorem msd58_ne_zero (n : Nat) (hn : n ≠ 0) : msd58 n ≠ 0 := by
  unfold msd58
  have hne : Nat.digits 58 n ≠ [] := Nat.digits_ne_nil_iff_ne_zero.mpr hn
  rw [List.getLast?_eq_getLast _ hne]
  simpa using Nat.getLast_digit_ne_zero 58 hn

theorem ALPHABET_ne_one : ∀ m < 58, m ≠ 0 → ALPHABET.getD m 0 ≠ chr '1' := by
  decide

/-- C29. For every byte sequence `x` with exactly `z` leading zero bytes (its first `z` bytes
are zero and the byte after them, if there is one, is not), `Encode(x)` returns a text whose
first `z` characters are `'1'` and whose character after them, if there is one, is not `'1'`. -/
theorem Encode_leading_ones (x : List UInt8) :
    ∃ rest, Encode x = some (List.replicate (x.takeWhile (· == 0)).length (chr '1') ++ rest) ∧
      rest.head? ≠ some (chr '1') ∧
      (x.drop (x.takeWhile (· == 0)).length).head? ≠ some 0 ∧
      x.take (x.takeWhile (· == 0)).length
        = List.replicate (x.takeWhile (· == 0)).length 0 := by
  refine ⟨_, Encode_eq x, ?_, ?_, ?_⟩
  · by_cases hV : beValue (x.dropWhile (· == 0)) = 0
    · simp [hV]
    · rw [if_neg hV]
      simp only [List.head?_cons, ne_eq, Option.some.injEq]
      exact ALPHABET_ne_one _ (msd58_lt _) (msd58_ne_zero _ hV)
  · rw [drop_takeWhile_length]; exact head_dropWhile_zero x
  · induction x with
    | nil => rfl
    | cons a t ih =>
      by_cases ha : a = 0
      · subst ha
        simp only [List.takeWhile_cons, beq_self_eq_true, if_true, List.length_cons,
          List.take_succ_cons, List.replicate_succ, ih]
      · have : (a == 0) = false := by simpa using ha
        simp [List.takeWhile_cons, this]

/-! ## DER: what the parser ignores -/

theorem FromDER_accepted_tags (der : List UInt8) (out sig : Signature)
    (h : FromDER der out = .ok (true, sig)) :
    8 ≤ der.length ∧ der.getD 0 0 = 0x30 ∧ der.getD 2 0 = 0x02 ∧
    der.getD (4 + (der.getD 3 0).toNat) 0 = 0x02 := by
  unfold FromDER at h
  split at h
  · exact absurd h (by simp)
  rename_i hlen
  split at h
  · exact absurd h (by simp)
  rename_i b0 hb0
  split at h
  · exact absurd h (by simp)
  rename_i h30
  dsimp only at h
  split at h
  · exact absurd h (by simp)
  rename_i t1 ht1
  split at h
  · exact absurd h (by simp)
  rename_i h02
  split at h
  · exact absurd h (by simp)
  rename_i b hb
  split at h
  · exact absurd h (by simp)
  split at h
  · exact absurd h (by simp)
  split at h
  · exact absurd h (by simp)
  rename_i t2 ht2
  split at h
  · exact absurd h (by simp)
  rename_i h02'
  obtain ⟨g0, -⟩ := readAt_ok _ _ _ hb0
  obtain ⟨g2, -⟩ := readAt_ok _ _ _ ht1
  obtain ⟨g3, -⟩ := readAt_ok _ _ _ hb
  obtain ⟨g4, -⟩ := readAt_ok _ _ _ ht2
  have e3 : der.getD 3 0 = b := g3
  have e4 : der.getD (4 + b.toNat) 0 = t2 := by
    have : 2 + 1 + 1 + b.toNat = 4 + b.toNat := by omega
    rw [this] at g4; exact g4
  rw [e3, e4, g0, g2]
  exact ⟨by omega, not_not.mp h30, not_not.mp h02, not_not.mp h02'⟩

theorem drop_eq_getD_cons (l : List UInt8) (n : Nat) (h : n < l.length) :
    l.drop n = l.getD n 0 :: l.drop (n + 1) := by
  rw [List.drop_eq_getElem_cons h, List.getD_eq_getElem?_getD, List.getElem?_eq_getElem h]
  rfl

/-- Every input that `FromDER` accepts has the shape `30 b1 02 rl <r> 02 sl <s> <tail>` with
fields of 1 to 32 bytes, and the signature returned holds the two fields left-padded. -/
theorem FromDER_accepted_shape (der : List UInt8) (out sig : Signature)
    (h : FromDER der out = .ok (true, sig)) :
    ∃ (b1 : UInt8) (rf sf tail : List UInt8),
      der = [0x30, b1, 0x02, rf.length.toUInt8] ++ rf ++ [0x02, sf.length.toUInt8] ++ sf ++ tail ∧
      1 ≤ rf.length ∧ rf.length ≤ 32 ∧ 1 ≤ sf.length ∧ sf.length ≤ 32 ∧
      sig = ⟨leftPad32 rf, leftPad32 sf⟩ := by
  obtain ⟨a1, a2, a3, a4, a5, a6, a7⟩ := FromDER_accepted_fields der out sig h
  obtain ⟨t1, t2, t3, t4⟩ := FromDER_accepted_tags der out sig h
  generalize hrl : (der.getD 3 0).toNat = rl at a1 a2 a3 a4 a5 a6 a7 t4
  generalize hsl : (der.getD (5 + rl) 0).toNat = sl at a3 a4 a5 a6 a7
  have lr : ((der.drop 4).take rl).length = rl := by
    rw [List.length_take, List.length_drop]; omega
  have ls : ((der.drop (6 + rl)).take sl).length = sl := by
    rw [List.length_take, List.length_drop]; omega
  refine ⟨der.getD 1 0, (der.drop 4).take rl, (der.drop (6 + rl)).take sl,
    der.drop (6 + rl + sl), ?_, by omega, by omega, by omega, by omega, ?_⟩
  · rw [lr, ls, ← hrl, toNat_toUInt8, hrl, ← hsl, toNat_toUInt8, hsl]
    have s0 := drop_eq_getD_cons der 0 (by omega)
    have s1 := drop_eq_getD_cons der 1 (by omega)
    have s2 := drop_eq_getD_cons der 2 (by omega)
    have s3 := drop_eq_getD_cons der 3 (by omega)
    have s4 := drop_eq_getD_cons der (4 + rl) (by omega)
    have s5 := drop_eq_getD_cons der (5 + rl) (by omega)
    have e5 : 4 + rl + 1 = 5 + rl := by omega
    have e6 : 5 + rl + 1 = 6 + rl := by omega
    rw [e5] at s4
    rw [e6] at s5
    rw [List.drop_zero, t2] at s0
    rw [t3] at s2
    rw [t4] at s4
    have m1 : der.drop 4 = (der.drop 4).take rl ++ der.drop (4 + rl) := by
      rw [← List.drop_drop, List.take_append_drop]
    have m2 : der.drop (6 + rl) = (der.drop (6 + rl)).take sl ++ der.drop (6 + rl + sl) := by
      have := List.take_append_drop sl (der.drop (6 + rl))
      rw [List.drop_drop] at this
      exact this.symm
    calc der = 0x30 :: der.drop 1 := s0
      _ = 0x30 :: der.getD 1 0 :: 0x02 :: der.getD 3 0 :: der.drop 4 := by rw [s1, s2, s3]
      _ = 0x30 :: der.getD 1 0 :: 0x02 :: der.getD 3 0 ::
            ((der.drop 4).take rl ++ (0x02 :: der.getD (5 + rl) 0 ::
              ((der.drop (6 + rl)).take sl ++ der.drop (6 + rl + sl)))) := by
          rw [← m2, ← s5, ← s4, ← m1]
      _ = _ := by simp
  · cases sig
    simp only at a6 a7
    rw [a6, a7]

/-- C30. For every input that `FromDER` accepts, replacing `der[1]` by any byte value,
appending any bytes, or both, gives an input that `FromDER` also accepts with the same `r` and
`s`; the inputs so obtained differ from `der` as soon as the byte differs or a byte is
appended. -/
theorem FromDER_ignores_length_byte (der : List UInt8) (out sig : Signature)
    (h : FromDER der out = .ok (true, sig)) :
    (∀ (b : UInt8) (o : Signature), FromDER (der.set 1 b) o = .ok (true, sig)) ∧
    (∀ (extra : List UInt8) (o : Signature), FromDER (der ++ extra) o = .ok (true, sig)) ∧
    (∀ (b : UInt8) (extra : List UInt8) (o : Signature),
      FromDER (der.set 1 b ++ extra) o = .ok (true, sig)) ∧
    (∀ b : UInt8, b ≠ der.getD 1 0 → der.set 1 b ≠ der) ∧
    (∀ extra : List UInt8, extra ≠ [] → der ++ extra ≠ der) := by
  obtain ⟨b1, rf, sf, tail, hd, r1, r2, s1, s2, hs⟩ := FromDER_accepted_shape der out sig h
  have hset : ∀ b : UInt8, der.set 1 b
      = [0x30, b, 0x02, rf.length.toUInt8] ++ rf ++ [0x02, sf.length.toUInt8] ++ sf ++ tail := by
    intro b; rw [hd]; rfl
  have h3 : ∀ (b : UInt8) (extra : List UInt8) (o : Signature),
      FromDER (der.set 1 b ++ extra) o = .ok (true, sig) := by
    intro b extra o
    rw [hset, hs, List.append_assoc _ tail extra]
    exact FromDER_shape b rf sf (tail ++ extra) o r1 r2 s1 s2
  refine ⟨?_, ?_, h3, ?_, ?_⟩
  · intro b o
    have := h3 b [] o
    rw [List.append_nil] at this
    exact this
  · intro extra o
    have := h3 (der.getD 1 0) extra o
    have e : der.set 1 (der.getD 1 0) = der := by
      rw [hd]; rfl
    rw [e] at this
    exact this
  · intro b hb he
    apply hb
    have : (der.set 1 b).getD 1 0 = b := by rw [hset]; rfl
    rw [← this, he]
  · intro extra hne he
    have := congrArg List.length he
    rw [List.length_append] at this
    have : extra.length = 0 := by omega
    exact hne (List.length_eq_zero.mp this)

theorem FromDER_ignores_length_byte_witness :
    FromDER ([0x30, 0x06, 0x02, 0x01, 0x05, 0x02, 0x01, 0x07].set 1 0xFF ++ [0xAA, 0xBB]) ⟨[], []⟩
      = .ok (true, ⟨List.replicate 31 0 ++ [0x05], List.replicate 31 0 ++ [0x07]⟩) :=
  (FromDER_ignores_length_byte [0x30, 0x06, 0x02, 0x01, 0x05, 0x02, 0x01, 0x07] ⟨[], []⟩
    ⟨List.replicate 31 0 ++ [0x05], List.replicate 31 0 ++ [0x07]⟩ (by rfl)).2.2.1
      0xFF [0xAA, 0xBB] ⟨[], []⟩

/-! ## Buffered count of the hash engines, work buffer of `Decode` -/

theorem store_foldl_snd (vals : List UInt8) : ∀ p : List UInt8 × Nat,
    (vals.foldl store p).2 = p.2 + vals.length ∧ (vals.foldl store p).1.length = p.1.length := by
  induction vals with
  | nil => intro p; simp
  | cons v vs ih =>
    intro p
    obtain ⟨h1, h2⟩ := ih (store p v)
    rw [List.foldl_cons, h1, h2]
    simp [store]
    omega

theorem zeroFill_snd (p : List UInt8 × Nat) (n : Nat) (h : p.2 ≤ n) :
    (zeroFill p n).2 = n ∧ (zeroFill p n).1.length = p.1.length := by
  unfold zeroFill
  obtain ⟨h1, h2⟩ := store_foldl_snd (List.replicate (n - p.2) 0) p
  rw [h1, h2, List.length_replicate]
  exact ⟨by omega, rfl⟩

theorem SHA256_Final_bufferLen (c : SHA256.Ctx) :
    (SHA256.Final c).1.bufferLen = 64 ∧ (SHA256.Final c).1.buffer.length = c.buffer.length := by
  unfold SHA256.Final
  dsimp only
  by_cases h56 : (store (c.buffer, c.bufferLen) 0x80).2 > 56
  · rw [if_pos h56]
    dsimp only
    obtain ⟨z1, z2⟩ := zeroFill_snd ((zeroFill (store (c.buffer, c.bufferLen) 0x80) 64).1, 0) 56
      (Nat.zero_le _)
    obtain ⟨f1, f2⟩ := store_foldl_snd
      ([7, 6, 5, 4, 3, 2, 1, 0].map fun i =>
        ((((c.bitlen + c.bufferLen * 8) % 2^64) >>> (i * 8)) &&& 0xFF).toUInt8)
      (zeroFill ((zeroFill (store (c.buffer, c.bufferLen) 0x80) 64).1, 0) 56)
    rw [f1, f2, z1, z2]
    refine ⟨rfl, ?_⟩
    have : (zeroFill (store (c.buffer, c.bufferLen) 0x80) 64).1.length = c.buffer.length := by
      unfold zeroFill
      rw [(store_foldl_snd _ _).2]
      simp [store]
    exact this
  · rw [if_neg h56]
    dsimp only
    obtain ⟨z1, z2⟩ := zeroFill_snd (store (c.buffer, c.bufferLen) 0x80) 56 (by omega)
    obtain ⟨f1, f2⟩ := store_foldl_snd
      ([7, 6, 5, 4, 3, 2, 1, 0].map fun i =>
        ((((c.bitlen + c.bufferLen * 8) % 2^64) >>> (i * 8)) &&& 0xFF).toUInt8)
      (zeroFill (store (c.buffer, c.bufferLen) 0x80) 56)
    rw [f1, f2, z1, z2]
    exact ⟨rfl, by simp [store]⟩

theorem RIPEMD160_Final_bufferLen (c : RIPEMD160.Ctx) :
    (RIPEMD160.Final c).1.bufferLen = 64 ∧
    (RIPEMD160.Final c).1.buffer.length = c.buffer.length := by
  unfold RIPEMD160.Final
  dsimp only
  by_cases h56 : (store (c.buffer, c.bufferLen) 0x80).2 > 56
  · rw [if_pos h56]
    dsimp only
    obtain ⟨z1, z2⟩ := zeroFill_snd ((zeroFill (store (c.buffer, c.bufferLen) 0x80) 64).1, 0) 56
      (Nat.zero_le _)
    obtain ⟨f1, f2⟩ := store_foldl_snd
      ([0, 1, 2, 3, 4, 5, 6, 7].map fun i =>
        ((((c.bitlen + c.bufferLen * 8) % 2^64) >>> (8 * i)) &&& 0xFF).toUInt8)
      (zeroFill ((zeroFill (store (c.buffer, c.bufferLen) 0x80) 64).1, 0) 56)
    rw [f1, f2, z1, z2]
    refine ⟨rfl, ?_⟩
    have : (zeroFill (store (c.buffer, c.bufferLen) 0x80) 64).1.length = c.buffer.length := by
      unfold zeroFill
      rw [(store_foldl_snd _ _).2]
      simp [store]
    exact this
  · rw [if_neg h56]
    dsimp only
    obtain ⟨z1, z2⟩ := zeroFill_snd (store (c.buffer, c.bufferLen) 0x80) 56 (by omega)
    obtain ⟨f1, f2⟩ := store_foldl_snd
      ([0, 1, 2, 3, 4, 5, 6, 7].map fun i =>
        ((((c.bitlen + c.bufferLen * 8) % 2^64) >>> (8 * i)) &&& 0xFF).toUInt8)
      (zeroFill (store (c.buffer, c.bufferLen) 0x80) 56)
    rw [f1, f2, z1, z2]
    exact ⟨rfl, by simp [store]⟩

theorem SHA256_Update_bufferLen (x : List UInt8) : ∀ c : SHA256.Ctx,
    c.buffer.length = 64 → c.bufferLen < 64 →
    (SHA256.Update c x).bufferLen < 64 ∧ (SHA256.Update c x).buffer.length = 64 := by
  induction x with
  | nil => intro c h1 h2; exact ⟨h2, h1⟩
  | cons b x ih =>
    intro c h1 h2
    have hU : SHA256.Update c (b :: x) = SHA256.Update (SHA256.updateByte c b) x := rfl
    rw [hU]
    apply ih
    · simp only [SHA256.updateByte, store]
      split <;> simp [h1]
    · simp only [SHA256.updateByte, store]
      split
      · simp
      · rename_i hne
        simp only
        omega

theorem RIPEMD160_Update_bufferLen (x : List UInt8) : ∀ c : RIPEMD160.Ctx,
    c.buffer.length = 64 → c.bufferLen < 64 →
    (RIPEMD160.Update c x).bufferLen < 64 ∧ (RIPEMD160.Update c x).buffer.length = 64 := by
  induction x with
  | nil => intro c h1 h2; exact ⟨h2, h1⟩
  | cons b x ih =>
    intro c h1 h2
    have hU : RIPEMD160.Update c (b :: x) = RIPEMD160.Update (RIPEMD160.updateByte c b) x := rfl
    rw [hU]
    apply ih
    · simp only [RIPEMD160.updateByte, store]
      split <;> simp [h1]
    · simp only [RIPEMD160.updateByte, store]
      split
      · simp
      · rename_i hne
        simp only
        omega

/-- C25 (as the code behaves). `Final` on a freshly constructed engine leaves the count of
buffered bytes at 64, outside 0–63, in both engines, with the buffer of 64 cells: the index at
which a following `Update` would store is the length of the buffer. -/
theorem Final_leaves_full_count :
    (SHA256.Final SHA256.new).1.bufferLen = 64 ∧
    (RIPEMD160.Final RIPEMD160.new).1.bufferLen = 64 ∧
    (SHA256.Final SHA256.new).1.buffer.length = 64 ∧
    (RIPEMD160.Final RIPEMD160.new).1.buffer.length = 64 ∧
    ¬ (SHA256.Final SHA256.new).1.bufferLen ≤ 63 ∧
    ¬ (RIPEMD160.Final RIPEMD160.new).1.bufferLen ≤ 63 := by
  decide!

/-- C25 (amended). A freshly constructed engine has a count of 0; from every engine state
with a 64-cell buffer and a count in 0–63, `Reset` leaves the count 0 and `Update` with any
bytes leaves it in 0–63 (so `Update` writes inside the buffer), while `Final` leaves the count
at 64, and `Reset` after `Final` leaves it 0 again; this for both hash engines. -/
theorem bufferLen_lt_64 (c : SHA256.Ctx) (d : RIPEMD160.Ctx) (x : List UInt8)
    (hc : c.buffer.length = 64) (hcb : c.bufferLen < 64)
    (hd : d.buffer.length = 64) (hdb : d.bufferLen < 64) :
    (SHA256.new.buffer.length = 64 ∧ SHA256.new.bufferLen = 0 ∧
      RIPEMD160.new.buffer.length = 64 ∧ RIPEMD160.new.bufferLen = 0) ∧
    ((SHA256.Reset c).bufferLen = 0 ∧ (SHA256.Reset c).buffer.length = 64 ∧
      (RIPEMD160.Reset d).bufferLen = 0 ∧ (RIPEMD160.Reset d).buffer.length = 64) ∧
    ((SHA256.Update c x).bufferLen < 64 ∧ (SHA256.Update c x).buffer.length = 64 ∧
      (RIPEMD160.Update d x).bufferLen < 64 ∧ (RIPEMD160.Update d x).buffer.length = 64) ∧
    ((SHA256.Final c).1.bufferLen = 64 ∧ (SHA256.Final c).1.buffer.length = 64 ∧
      (RIPEMD160.Final d).1.bufferLen = 64 ∧ (RIPEMD160.Final d).1.buffer.length = 64) ∧
    ((SHA256.Reset (SHA256.Final c).1).bufferLen = 0 ∧
      (SHA256.Reset (SHA256.Final c).1).buffer.length = 64 ∧
      (RIPEMD160.Reset (RIPEMD160.Final d).1).bufferLen = 0 ∧
      (RIPEMD160.Reset (RIPEMD160.Final d).1).buffer.length = 64) := by
  obtain ⟨u1, u2⟩ := SHA256_Update_bufferLen x c hc hcb
  obtain ⟨u3, u4⟩ := RIPEMD160_Update_bufferLen x d hd hdb
  obtain ⟨f1, f2⟩ := SHA256_Final_bufferLen c
  obtain ⟨f3, f4⟩ := RIPEMD160_Final_bufferLen d
  rw [hc] at f2
  rw [hd] at f4
  exact ⟨⟨rfl, rfl, rfl, rfl⟩, ⟨rfl, hc, rfl, hd⟩, ⟨u1, u2, u3, u4⟩, ⟨f1, f2, f3, f4⟩,
    ⟨rfl, f2, rfl, f4⟩⟩

theorem bufferLen_lt_64_witness :
    (SHA256.Update SHA256.new (str "abc")).bufferLen < 64 ∧
    (SHA256.Final SHA256.new).1.bufferLen = 64 :=
  ⟨(bufferLen_lt_64 SHA256.new RIPEMD160.new (str "abc") (by decide) (by decide) (by decide)
      (by decide)).2.2.1.1,
   (bufferLen_lt_64 SHA256.new RIPEMD160.new (str "abc") (by decide) (by decide) (by decide)
      (by decide)).2.2.2.1.1⟩

theorem decodeCarries_spec (chars : List UInt8) : ∀ (b256 : List UInt8) (length : Nat),
    (∀ c ∈ chars, c ∈ ALPHABET) → (∀ c ∈ b256.reverse.drop length, c = 0) →
    valueFrom (leValue b256.reverse) chars < 256 ^ b256.length →
    decodeCarries chars b256 length = List.replicate chars.length 0 := by
  induction chars with
  | nil => intro b256 length _ _ _; rfl
  | cons ch rest ih =>
    intro b256 length hal hz hlt
    have hm := MAP_of_mem ch (hal ch (List.mem_cons_self _ _))
    obtain ⟨a1, -, -, a4⟩ := absorb_spec b256.reverse (digit ch) 0 length (by simpa using hz)
    have hv : valueFrom (leValue b256.reverse) (ch :: rest)
        = valueFrom (leValue b256.reverse * 58 + digit ch) rest := rfl
    have hsmall : digit ch + 58 * leValue b256.reverse < 256 ^ b256.reverse.length := by
      have := le_valueFrom rest (leValue b256.reverse * 58 + digit ch)
      rw [hv] at hlt
      simp only [List.length_reverse]
      omega
    obtain ⟨a0, a2⟩ := absorb_no_overflow b256.reverse (digit ch) length hz hsmall
    have e := ih (absorb b256.reverse (digit ch) 0 length).1.reverse
      (absorb b256.reverse (digit ch) 0 length).2.1
      (fun x hx => hal x (List.mem_cons_of_mem _ hx))
      (by simpa using a4)
      (by
        rw [List.reverse_reverse, a2, List.length_reverse, a1, List.length_reverse]
        rw [hv] at hlt
        have e : digit ch + 58 * leValue b256.reverse = leValue b256.reverse * 58 + digit ch := by
          ring
        rw [e]; exact hlt)
    simp only [decodeCarries, hm]
    rw [if_neg (by omega)]
    simp only [Int.toNat_ofNat, List.length_cons, List.replicate_succ]
    rw [a0, e]

/-- C26. For every text over the alphabet with `len` characters, `z` of them leading `'1'`
symbols, the work buffer of `Decode`, of `(len − z)·733/1000 + 1` bytes, does not overflow:
after each of the `len − z` remaining characters is absorbed the carry is 0 when the inner loop
stops; the integer spelled by those characters is below `256^size`, and the buffer in the end
holds exactly that integer, big-endian. -/
theorem Decode_buffer_holds (s : List UInt8) (h : ∀ c ∈ s, c ∈ ALPHABET) :
    decodeCarries (s.drop (s.takeWhile (· == chr '1')).length)
        (List.replicate ((s.length - (s.takeWhile (· == chr '1')).length) * 733 / 1000 + 1) 0) 0
      = List.replicate (s.length - (s.takeWhile (· == chr '1')).length) 0 ∧
    valueFrom 0 (s.drop (s.takeWhile (· == chr '1')).length)
      < 256 ^ ((s.length - (s.takeWhile (· == chr '1')).length) * 733 / 1000 + 1) ∧
    ∃ b, decodeLoop (s.drop (s.takeWhile (· == chr '1')).length)
        (List.replicate ((s.length - (s.takeWhile (· == chr '1')).length) * 733 / 1000 + 1) 0) 0
        = some b ∧
      b.length = (s.length - (s.takeWhile (· == chr '1')).length) * 733 / 1000 + 1 ∧
      beValue b = valueFrom 0 (s.drop (s.takeWhile (· == chr '1')).length) := by
  have hal : ∀ c ∈ s.dropWhile (· == chr '1'), c ∈ ALPHABET :=
    fun c hc => h c ((List.dropWhile_sublist _).subset hc)
  have hrep : ∀ n, leValue (List.replicate n (0 : UInt8)).reverse = 0 := fun n =>
    leValue_zero _ (fun c hc => by
      rw [List.reverse_replicate] at hc; exact (List.mem_replicate.mp hc).2)
  have hz : ∀ c ∈ (List.replicate ((s.dropWhile (· == chr '1')).length * 733 / 1000 + 1)
      (0 : UInt8)).reverse.drop 0, c = 0 := fun c hc => by
    rw [List.drop_zero, List.reverse_replicate] at hc; exact (List.mem_replicate.mp hc).2
  have hlt : valueFrom 0 (s.dropWhile (· == chr '1'))
      < 256 ^ ((s.dropWhile (· == chr '1')).length * 733 / 1000 + 1) := by
    have := valueFrom_lt (s.dropWhile (· == chr '1')) 0 hal
    have := pow58_lt (s.dropWhile (· == chr '1')).length
    omega
  have hlt2 : valueFrom (leValue (List.replicate
      ((s.dropWhile (· == chr '1')).length * 733 / 1000 + 1) (0 : UInt8)).reverse)
      (s.dropWhile (· == chr '1'))
      < 256 ^ (List.replicate ((s.dropWhile (· == chr '1')).length * 733 / 1000 + 1)
        (0 : UInt8)).length := by
    rw [hrep, List.length_replicate]; exact hlt
  have hc := decodeCarries_spec (s.dropWhile (· == chr '1'))
    (List.replicate ((s.dropWhile (· == chr '1')).length * 733 / 1000 + 1) 0) 0 hal hz hlt2
  obtain ⟨b, e1, e2, e3⟩ := decodeLoop_spec (s.dropWhile (· == chr '1'))
    (List.replicate ((s.dropWhile (· == chr '1')).length * 733 / 1000 + 1) 0) 0 hal hz hlt2
  rw [hrep] at e3
  rw [List.length_replicate] at e2
  rw [drop_takeWhile_length, length_sub_takeWhile]
  exact ⟨hc, hlt, b, e1, e2, e3⟩

theorem Decode_buffer_holds_witness :
    decodeCarries (str "2g") (List.replicate 2 0) 0 = [0, 0] :=
  (Decode_buffer_holds (str "2g") (by decide)).1

/-! ## RIPEMD-160: chunking and padding -/

theorem RIPEMD160_lenBytes (n : Nat) :
    ([0, 1, 2, 3, 4, 5, 6, 7].map fun i => ((n >>> (8 * i)) &&& 0xFF).toUInt8) = le64 n := by
  simp [le64, and_255, Nat.shiftRight_eq_div_pow]

theorem RIPEMD160_serialize_eq (state : List Nat) :
    RIPEMD160.serialize state = state.flatMap le32 := by
  unfold RIPEMD160.serialize
  congr 1
  funext s
  simp [le32, and_255, Nat.shiftRight_eq_div_pow]

theorem RIPEMD160_Transform_length (state : List Nat) (block : List UInt8) :
    (RIPEMD160.Transform state block).length = state.length := by
  unfold RIPEMD160.Transform
  dsimp only
  split
  · rfl
  · rfl

theorem RIPEMD160_foldl_Transform_length (bs : List (List UInt8)) (state : List Nat) :
    (bs.foldl RIPEMD160.Transform state).length = state.length := by
  induction bs generalizing state with
  | nil => rfl
  | cons b bs ih => rw [List.foldl_cons, ih, RIPEMD160_Transform_length]

theorem flatMap_le32_length (state : List Nat) : (state.flatMap le32).length = 4 * state.length := by
  induction state with
  | nil => rfl
  | cons w ws ih => simp [List.flatMap_cons, le32, ih]; omega

section

attribute [local irreducible] RIPEMD160.Transform

theorem RIPEMD160_Update_spec (x : List UInt8) : ∀ (c : RIPEMD160.Ctx),
    c.buffer.length = 64 → c.bufferLen < 64 → c.bitlen < 2^64 →
    (RIPEMD160.Update c x).state =
        (blocks ((c.bufferLen + x.length) / 64) (c.buffer.take c.bufferLen ++ x)).foldl
          RIPEMD160.Transform c.state ∧
      (RIPEMD160.Update c x).bufferLen = (c.bufferLen + x.length) % 64 ∧
      (RIPEMD160.Update c x).buffer.take ((c.bufferLen + x.length) % 64) =
        (c.buffer.take c.bufferLen ++ x).drop (64 * ((c.bufferLen + x.length) / 64)) ∧
      (RIPEMD160.Update c x).buffer.length = 64 ∧
      (RIPEMD160.Update c x).bitlen = (c.bitlen + 512 * ((c.bufferLen + x.length) / 64)) % 2^64 := by
  induction x with
  | nil =>
    intro c hlen hb hbl
    have h0 : c.bufferLen / 64 = 0 := by omega
    have h1 : c.bufferLen % 64 = c.bufferLen := by omega
    simp [RIPEMD160.Update, h0, h1, blocks, hlen]
    omega
  | cons b x ih =>
    intro c hlen hb hbl
    have hU : RIPEMD160.Update c (b :: x) = RIPEMD160.Update (RIPEMD160.updateByte c b) x := rfl
    have hP : (2:Nat)^64 = 18446744073709551616 := by norm_num
    rw [hU]
    by_cases h64 : c.bufferLen + 1 = 64
    · have hc : RIPEMD160.updateByte c b =
          { state := RIPEMD160.Transform c.state (c.buffer.set c.bufferLen b),
            bitlen := (c.bitlen + 512) % 2^64,
            buffer := c.buffer.set c.bufferLen b, bufferLen := 0 } := by
        simp [RIPEMD160.updateByte, store, h64]
      rw [hc]
      obtain ⟨i1, i2, i3, i4, i5⟩ := ih
        ⟨RIPEMD160.Transform c.state (c.buffer.set c.bufferLen b), (c.bitlen + 512) % 2^64,
          c.buffer.set c.bufferLen b, 0⟩ (by simp [hlen]) (by simp) (Nat.mod_lt _ (by norm_num))
      simp only [List.take_zero, List.nil_append, Nat.zero_add] at i1 i2 i3 i5
      have hfull : c.buffer.set c.bufferLen b = c.buffer.take c.bufferLen ++ [b] := by
        have := take_succ_set c.buffer c.bufferLen b (by omega)
        rw [← this, List.take_of_length_le (by simp; omega)]
      have hq : (c.bufferLen + (b :: x).length) / 64 = x.length / 64 + 1 := by
        simp only [List.length_cons]; omega
      have hr : (c.bufferLen + (b :: x).length) % 64 = x.length % 64 := by
        simp only [List.length_cons]; omega
      have hl : (List.take c.bufferLen c.buffer).length = c.bufferLen := by simp; omega
      have htake : (List.take c.bufferLen c.buffer ++ b :: x).take 64
          = c.buffer.take c.bufferLen ++ [b] := by
        have : List.take c.bufferLen c.buffer ++ b :: x
            = (List.take c.bufferLen c.buffer ++ [b]) ++ x := by simp
        rw [this, List.take_left' (by simp; omega)]
      have hdrop : (List.take c.bufferLen c.buffer ++ b :: x).drop 64 = x := by
        have : List.take c.bufferLen c.buffer ++ b :: x
            = (List.take c.bufferLen c.buffer ++ [b]) ++ x := by simp
        rw [this, List.drop_left' (by simp; omega)]
      refine ⟨?_, ?_, ?_, i4, ?_⟩
      · rw [i1, hq, blocks, List.foldl_cons, htake, hdrop, hfull]
      · rw [i2, hr]
      · rw [hr, i3, hq]
        have : 64 * (x.length / 64 + 1) = 64 + 64 * (x.length / 64) := by omega
        rw [this, ← List.drop_drop, hdrop]
      · rw [i5, hq, hP]; omega
    · have hc : RIPEMD160.updateByte c b =
          { c with buffer := c.buffer.set c.bufferLen b, bufferLen := c.bufferLen + 1 } := by
        simp [RIPEMD160.updateByte, store, h64]
      rw [hc]
      obtain ⟨i1, i2, i3, i4, i5⟩ := ih
        ⟨c.state, c.bitlen, c.buffer.set c.bufferLen b, c.bufferLen + 1⟩ (by simp [hlen])
        (by simp; omega) hbl
      simp only [take_succ_set c.buffer c.bufferLen b (by omega), List.append_assoc,
        List.singleton_append] at i1 i2 i3 i5
      have hq : c.bufferLen + (b :: x).length = c.bufferLen + 1 + x.length := by
        simp only [List.length_cons]; omega
      rw [hq]
      exact ⟨i1, i2, i3, i4, i5⟩

theorem RIPEMD160_Final_spec (c : RIPEMD160.Ctx) (hlen : c.buffer.length = 64) (hb : c.bufferLen < 64) :
    (RIPEMD160.Final c).2 = RIPEMD160.serialize
      ((blocks ((c.bufferLen + 1 + padLen c.bufferLen + 8) / 64)
          (padWith (c.buffer.take c.bufferLen) (le64 ((c.bitlen + c.bufferLen * 8) % 2^64)))).foldl
        RIPEMD160.Transform c.state) := by
  have hpl : (List.take c.bufferLen c.buffer).length = c.bufferLen := by simp; omega
  have hbe : ∀ n, (le64 n).length = 8 := fun n => rfl
  have h1 : (c.buffer.set c.bufferLen 0x80).take (c.bufferLen + 1)
      = c.buffer.take c.bufferLen ++ [0x80] := take_succ_set _ _ _ (by omega)
  have hl1 : (c.buffer.set c.bufferLen 0x80).length = 64 := by simp [hlen]
  unfold RIPEMD160.Final
  simp only [RIPEMD160_lenBytes, store]
  by_cases h56 : c.bufferLen + 1 > 56
  · have hk : padLen c.bufferLen = (63 - c.bufferLen) + 56 := by unfold padLen; omega
    have hq : (c.bufferLen + 1 + padLen c.bufferLen + 8) / 64 = 2 := by rw [hk]; omega
    have hz1 := zeroFill_eq (c.buffer.set c.bufferLen 0x80) (c.bufferLen + 1) 64 (by omega) (by omega)
    rw [h1, List.drop_of_length_le (by omega), List.append_nil] at hz1
    have hz2 := zeroFill_eq (List.take c.bufferLen c.buffer ++ [0x80]
      ++ List.replicate (64 - (c.bufferLen + 1)) 0) 0 56 (by omega) (by simp; omega)
    rw [if_pos h56, hq]
    simp only [hz1, hz2]
    rw [store_foldl _ _ _ (by simp [hbe]; omega)]
    simp only [blocks, padWith, hk, List.foldl_cons, List.foldl_nil, hpl]
    have e1 : 64 - (c.bufferLen + 1) = 63 - c.bufferLen := by omega
    rw [e1, List.replicate_add]
    simp only [List.take_zero, List.nil_append, Nat.sub_zero]
    rw [final_block _ _ _ (by simp) (by simp; omega) (hbe _)]
    have e2 : List.take c.bufferLen c.buffer ++ [0x80]
        ++ (List.replicate (63 - c.bufferLen) 0 ++ List.replicate 56 0)
        ++ le64 ((c.bitlen + c.bufferLen * 8) % 2 ^ 64)
        = (List.take c.bufferLen c.buffer ++ [0x80] ++ List.replicate (63 - c.bufferLen) 0)
          ++ (List.replicate 56 0 ++ le64 ((c.bitlen + c.bufferLen * 8) % 2 ^ 64)) := by
      simp only [List.append_assoc]
    rw [e2, List.take_left' (by simp; omega), List.drop_left' (by simp; omega),
      take_all 64 (List.replicate 56 0 ++ le64 ((c.bitlen + c.bufferLen * 8) % 2 ^ 64))
        (by simp [hbe])]
  · have hk : padLen c.bufferLen = 55 - c.bufferLen := by unfold padLen; omega
    have hq : (c.bufferLen + 1 + padLen c.bufferLen + 8) / 64 = 1 := by rw [hk]; omega
    have hz1 := zeroFill_eq (c.buffer.set c.bufferLen 0x80) (c.bufferLen + 1) 56 (by omega) (by omega)
    rw [h1] at hz1
    rw [if_neg h56, hq]
    simp only [hz1]
    rw [store_foldl _ _ _ (by simp [hbe]; omega)]
    simp only [blocks, padWith, hk, List.foldl_cons, List.foldl_nil, hpl]
    have e1 : 56 - (c.bufferLen + 1) = 55 - c.bufferLen := by omega
    rw [e1, final_block _ _ _ (by simp; omega) (by simp; omega) (hbe _),
      take_all 64 (List.take c.bufferLen c.buffer ++ [0x80] ++ List.replicate (55 - c.bufferLen) 0
        ++ le64 ((c.bitlen + c.bufferLen * 8) % 2 ^ 64)) (by simp [hbe]; omega)]

/-- C24. For every `x` of fewer than `2^61` bytes, a fresh RIPEMD160 engine (the
constructor's `Reset`, whatever the 64 buffer cells hold) after `Update(x)` and `Final` returns
the little-endian serialisation of the five state words obtained by folding `Transform`, from
the initial constants, over the consecutive 64-byte blocks of
`x ∥ 0x80 ∥ 0x00^k ∥ le64(8·|x|)`: 20 bytes; the padded length is a multiple of 64 and
`k = padLen |x|` is the least number of zero bytes for which it is. -/
theorem RIPEMD160_Final_Update_padded (c : RIPEMD160.Ctx) (x : List UInt8)
    (hc : c.buffer.length = 64) (h : x.length < 2^61) :
    (RIPEMD160.Final (RIPEMD160.Update (RIPEMD160.Reset c) x)).2 =
      ((blocks ((padWith x (le64 (8 * x.length))).length / 64)
          (padWith x (le64 (8 * x.length)))).foldl RIPEMD160.Transform
        [0x67452301, 0xefcdab89, 0x98badcfe, 0x10325476, 0xc3d2e1f0]).flatMap le32 ∧
    (RIPEMD160.Final (RIPEMD160.Update (RIPEMD160.Reset c) x)).2.length = 20 ∧
    (padWith x (le64 (8 * x.length))).length % 64 = 0 ∧
    ∀ k < padLen x.length, (x.length + 1 + k + 8) % 64 ≠ 0 := by
  have hP : (2:Nat)^64 = 18446744073709551616 := by norm_num
  have hP61 : (2:Nat)^61 = 2305843009213693952 := by norm_num
  rw [hP61] at h
  have hbe : ∀ n, (le64 n).length = 8 := fun n => rfl
  have main : (RIPEMD160.Final (RIPEMD160.Update (RIPEMD160.Reset c) x)).2 =
      ((blocks ((padWith x (le64 (8 * x.length))).length / 64)
          (padWith x (le64 (8 * x.length)))).foldl RIPEMD160.Transform
        [0x67452301, 0xefcdab89, 0x98badcfe, 0x10325476, 0xc3d2e1f0]).flatMap le32 := ?_
  refine ⟨main, ?_, ?_, ?_⟩
  · rw [main, flatMap_le32_length, RIPEMD160_foldl_Transform_length]; rfl
  rotate_left 2
  · obtain ⟨u1, u2, u3, u4, u5⟩ := RIPEMD160_Update_spec x (RIPEMD160.Reset c) hc
      (show 0 < 64 by decide) (show 0 < 2 ^ 64 by norm_num)
    have hn0 : (RIPEMD160.Reset c).bufferLen = 0 := rfl
    have hn1 : (RIPEMD160.Reset c).bitlen = 0 := rfl
    have hn2 : (RIPEMD160.Reset c).state
        = [0x67452301, 0xefcdab89, 0x98badcfe, 0x10325476, 0xc3d2e1f0] := rfl
    simp only [hn0, hn1, hn2, List.take_zero, List.nil_append, Nat.zero_add] at u1 u2 u3 u5
    rw [RIPEMD160_Final_spec _ u4 (by rw [u2]; omega), u1, u2, u3, u5, RIPEMD160_serialize_eq]
    have hlen : (512 * (x.length / 64) % 2 ^ 64 + x.length % 64 * 8) % 2 ^ 64 = 8 * x.length := by
      rw [hP]; omega
    have hk : padLen (x.length % 64) = padLen x.length := by unfold padLen; omega
    rw [hlen, ← List.foldl_append,
      ← padWith_drop x (le64 (8 * x.length)) (x.length / 64) (by omega)]
    congr 2
    have hq : (padWith x (le64 (8 * x.length))).length / 64
        = x.length / 64 + (x.length % 64 + 1 + padLen (x.length % 64) + 8) / 64 := by
      rw [padWith_length, hbe, hk]; unfold padLen; omega
    rw [hq, blocks_append]
    congr 1
    have hx : 64 * (x.length / 64) ≤ x.length := by omega
    have := blocks_append_left (x.length / 64) x
      ([0x80] ++ List.replicate (padLen x.length) 0 ++ le64 (8 * x.length)) hx
    simp only [padWith, List.append_assoc] at this ⊢
    exact this.symm
  · rw [padWith_length, hbe]; unfold padLen; omega
  · intro k hk; unfold padLen at hk; omega

end

/-- Witness for C24: the engine `RIPEMD160.new` and the three bytes `"abc"` (one padded block,
`k = 52`). -/
theorem RIPEMD160_Final_Update_padded_witness :
    (RIPEMD160.Final (RIPEMD160.Update RIPEMD160.new (Base58.str "abc"))).2 =
      ((blocks ((padWith (Base58.str "abc") (le64 (8 * (Base58.str "abc").length))).length / 64)
          (padWith (Base58.str "abc") (le64 (8 * (Base58.str "abc").length)))).foldl
        RIPEMD160.Transform
        [0x67452301, 0xefcdab89, 0x98badcfe, 0x10325476, 0xc3d2e1f0]).flatMap le32 ∧
    (RIPEMD160.Final (RIPEMD160.Update RIPEMD160.new (Base58.str "abc"))).2.length = 20 ∧
    (padWith (Base58.str "abc") (le64 (8 * (Base58.str "abc").length))).length % 64 = 0 ∧
    ∀ k < padLen (Base58.str "abc").length, ((Base58.str "abc").length + 1 + k + 8) % 64 ≠ 0 :=
  RIPEMD160_Final_Update_padded ⟨List.replicate 5 0, 0, List.replicate 64 0, 0⟩ (Base58.str "abc")
    (by decide) (by decide)

end Drachma
